import Mathlib

/-!
Verification of the cloudmarker auditing engine.

This file gives a shallow embedding of the core of the cloudmarker
code base (`util.py`, `workers.py`, `ioworkers.py`, `manager.py`) and
proves properties of that embedding.

Python dictionaries are modelled as insertion-ordered association
lists; `copy.deepcopy` is the identity at the value level (the pure
value model); a separate heap model is used where object identity and
mutation matter.  Worker subprocesses and queues are modelled as
explicit transition systems; plugin behaviour is an oracle parameter.
-/

namespace Cloudmarker

/-- Python value as it occurs in cloudmarker records and configuration:
an atomic value (string or integer) or a dictionary.  Dictionaries are
insertion-ordered association lists, mirroring Python dicts.  Any
non-dict Python value behaves as an atom for `util.merge_dicts`, which
only inspects values with `isinstance(_, dict)`. -/
inductive Val where
  | str : String → Val
  | int : Int → Val
  | dict : List (String × Val) → Val
deriving Repr

/-- Entry list of a Python dictionary. -/
abbrev Entries := List (String × Val)

/-- Python `isinstance(v, dict)`. -/
def Val.isDict : Val → Bool
  | .dict _ => true
  | _ => false

/-- Python dictionary lookup `a[k]` / `k in a` (first match in the
association list; genuine Python dicts never hold duplicate keys). -/
def lookupK : Entries → String → Option Val
  | [], _ => none
  | (k', v) :: rest, k => if k' = k then some v else lookupK rest k

/-- Python dictionary item assignment `c[k] = v`: update the existing
entry in place when the key is present, append a new entry otherwise. -/
def setK : Entries → String → Val → Entries
  | [], k, v => [(k, v)]
  | (k', v') :: rest, k, v =>
      if k' = k then (k, v) :: rest else (k', v') :: setK rest k v

/-- Loop of `util._merge_dicts({}, x)` specialised to the empty first
argument: `c = {}` and then `c[k] = deepcopy(x[k])` for every key of
`x` (the `k in a` test is always false for `a = {}`).  `deepcopy` is the
identity at the value level. -/
def copyAux (c : Entries) : Entries → Entries
  | [] => c
  | (k, v) :: rest => copyAux (setK c k v) rest

/-- `util._merge_dicts({}, x)`, the value-level copy of a dictionary. -/
def copyD (x : Entries) : Entries := copyAux [] x

mutual

/-- Size measure on values, used to justify termination of the
recursive merge. -/
def vsize : Val → Nat
  | .str _ => 1
  | .int _ => 1
  | .dict es => 1 + dsize es

/-- Size measure on dictionary entry lists. -/
def dsize : Entries → Nat
  | [] => 0
  | (_, v) :: rest => 1 + vsize v + dsize rest

end

theorem dsize_setK_le (c : Entries) (k : String) (v : Val) :
    dsize (setK c k v) ≤ dsize c + (1 + vsize v) := by
  induction c with
  | nil => simp [setK, dsize]
  | cons e rest ih =>
      obtain ⟨k', v'⟩ := e
      by_cases h : k' = k
      · simp [setK, h, dsize]
        omega
      · simp [setK, h, dsize]
        omega

theorem dsize_copyAux_le (l : Entries) :
    ∀ c : Entries, dsize (copyAux c l) ≤ dsize c + dsize l := by
  induction l with
  | nil => intro c; simp [copyAux]
  | cons e rest ih =>
      intro c
      obtain ⟨k, v⟩ := e
      calc dsize (copyAux (setK c k v) rest)
          ≤ dsize (setK c k v) + dsize rest := ih (setK c k v)
        _ ≤ (dsize c + (1 + vsize v)) + dsize rest := by
              have := dsize_setK_le c k v; omega
        _ ≤ dsize c + dsize ((k, v) :: rest) := by simp [dsize]; omega

theorem dsize_copyD_le (x : Entries) : dsize (copyD x) ≤ dsize x := by
  have := dsize_copyAux_le x []
  simpa [copyD, dsize] using this

theorem lookupK_vsize_lt {a : Entries} {k : String} {v : Val}
    (h : lookupK a k = some v) : vsize v < dsize a := by
  induction a with
  | nil => simp [lookupK] at h
  | cons e rest ih =>
      obtain ⟨k', v'⟩ := e
      by_cases hk : k' = k
      · simp [lookupK, hk] at h
        subst h
        simp [dsize]
        omega
      · simp [lookupK, hk] at h
        have := ih h
        simp [dsize]
        omega

/-- Python test `k in a and isinstance(a[k], dict)` from
`util._merge_dicts`. -/
def isDictAt (a : Entries) (k : String) : Bool :=
  match lookupK a k with
  | some (Val.dict _) => true
  | _ => false

/-- Entries of the dictionary `a[k]`, defined when `isDictAt a k`. -/
def dictEntriesAt (a : Entries) (k : String) : Entries :=
  match lookupK a k with
  | some (Val.dict ae) => ae
  | _ => []

theorem dsize_dictEntriesAt_lt {a : Entries} {k : String}
    (h : isDictAt a k = true) : dsize (dictEntriesAt a k) < dsize a := by
  unfold isDictAt dictEntriesAt at *
  rcases h1 : lookupK a k with _ | va
  · simp [h1] at h
  · rcases va with s | n | ae
    · simp [h1] at h
    · simp [h1] at h
    · have := lookupK_vsize_lt h1
      simp [vsize] at this
      simp [h1]
      omega

mutual

/-- Loop of `util._merge_dicts(a, b)`: `c` starts as `deepcopy(a)`
(supplied by the caller) and the loop runs over the entries of `b`. -/
def mergeLoop (a c : Entries) : Entries → Entries
  | [] => c
  | (k, vb) :: rest => mergeLoop a (setK c k (mergeValInto a k vb)) rest
termination_by l => dsize a + dsize l
decreasing_by
  all_goals simp [dsize, vsize]
  all_goals omega

/-- Value stored by `util._merge_dicts(a, b)` for a key `k` of `b`
holding value `vb`: the recursive merge `merge_dicts(a[k], b[k])` when
`k in a` and both `a[k]` and `b[k]` are dictionaries, and
`deepcopy(b[k])` (the identity at the value level) otherwise.  The
nested variadic call `merge_dicts(a[k], b[k])` unfolds to
`_merge_dicts(_merge_dicts({}, a[k]), b[k])`, where
`_merge_dicts({}, x)` is `copyD x`. -/
def mergeValInto (a : Entries) (k : String) : Val → Val
  | Val.dict be =>
      if h1 : isDictAt a k = true then
        Val.dict (mergeLoop (copyD (dictEntriesAt a k)) (copyD (dictEntriesAt a k)) be)
      else
        Val.dict be
  | vb => vb
termination_by vb => dsize a + vsize vb
decreasing_by
  all_goals simp [dsize, vsize]
  have h2 : dsize (dictEntriesAt a k) < dsize a := dsize_dictEntriesAt_lt h1
  have h3 : dsize (copyD (dictEntriesAt a k)) ≤ dsize (dictEntriesAt a k) :=
    dsize_copyD_le _
  omega

end

/-- `util._merge_dicts(a, b)`: `c = copy.deepcopy(a)` followed by the
key loop over `b`.  At the value level `deepcopy(a)` is `a` itself;
the first argument drives the `k in a` tests, the second is the
accumulator. -/
def mergeTwo (a b : Entries) : Entries := mergeLoop a a b

/-- `util.merge_dicts(a, b)` (the public variadic function applied to
two dictionaries): `result = {}`; `result = _merge_dicts(result, a)`,
which is `copyD a`; then `result = _merge_dicts(result, b)`. -/
def merge_dicts (a b : Entries) : Entries := mergeTwo (copyD a) b

/-- Keys of a dictionary, in order. -/
def keysOf (l : Entries) : List String := l.map Prod.fst

/-- A well-formed Python dictionary never holds two entries with the
same key. -/
def NodupK (l : Entries) : Prop := (keysOf l).Nodup

instance (l : Entries) : Decidable (NodupK l) := by
  unfold NodupK; infer_instance

theorem lookupK_setK_self (c : Entries) (k : String) (v : Val) :
    lookupK (setK c k v) k = some v := by
  induction c with
  | nil => simp [setK, lookupK]
  | cons e rest ih =>
      obtain ⟨k', v'⟩ := e
      by_cases h : k' = k
      · simp [setK, h, lookupK]
      · simp [setK, h, lookupK, ih]

theorem lookupK_setK_ne (c : Entries) {k' k : String} (v : Val)
    (h : k' ≠ k) : lookupK (setK c k' v) k = lookupK c k := by
  induction c with
  | nil => simp [setK, lookupK, h]
  | cons e rest ih =>
      obtain ⟨k1, v1⟩ := e
      by_cases h1 : k1 = k'
      · subst h1
        simp [setK, lookupK, h]
      · simp [setK, h1, lookupK]
        by_cases h2 : k1 = k
        · simp [h2]
        · simp [h2, ih]

theorem lookupK_eq_none_of_not_mem {l : Entries} {k : String}
    (h : k ∉ keysOf l) : lookupK l k = none := by
  induction l with
  | nil => simp [lookupK]
  | cons e rest ih =>
      obtain ⟨k', v'⟩ := e
      simp [keysOf] at h
      push_neg at h
      simp [lookupK, Ne.symm h.1]
      exact ih (by simp [keysOf]; exact h.2)

theorem setK_eq_append {c : Entries} {k : String} (v : Val)
    (h : k ∉ keysOf c) : setK c k v = c ++ [(k, v)] := by
  induction c with
  | nil => simp [setK]
  | cons e rest ih =>
      obtain ⟨k', v'⟩ := e
      simp [keysOf] at h
      push_neg at h
      simp [setK, Ne.symm h.1]
      exact ih (by simp [keysOf]; exact h.2)

theorem keysOf_cons (k : String) (v : Val) (l : Entries) :
    keysOf ((k, v) :: l) = k :: keysOf l := rfl

theorem keysOf_append (l1 l2 : Entries) :
    keysOf (l1 ++ l2) = keysOf l1 ++ keysOf l2 := by simp [keysOf]

theorem nodupK_cons {k : String} {v : Val} {l : Entries}
    (h : NodupK ((k, v) :: l)) : k ∉ keysOf l ∧ NodupK l := by
  rw [NodupK, keysOf_cons, List.nodup_cons] at h
  exact h

theorem copyAux_eq_append {l : Entries} (hl : NodupK l) :
    ∀ c : Entries, (∀ k ∈ keysOf l, k ∉ keysOf c) → copyAux c l = c ++ l := by
  induction l with
  | nil => intro c _; simp [copyAux]
  | cons e rest ih =>
      intro c hdisj
      obtain ⟨k, v⟩ := e
      obtain ⟨hk1, hk2⟩ := nodupK_cons hl
      have hk : k ∉ keysOf c := hdisj k (by simp [keysOf_cons])
      rw [copyAux, setK_eq_append v hk]
      rw [ih hk2]
      · simp
      · intro k' hk'
        rw [keysOf_append]
        simp
        constructor
        · exact hdisj k' (by rw [keysOf_cons]; exact List.mem_cons_of_mem _ hk')
        · simp [keysOf]
          intro heq
          subst heq
          exact hk1 hk'

theorem copyD_eq_self {a : Entries} (ha : NodupK a) : copyD a = a := by
  have := copyAux_eq_append ha [] (by simp [keysOf])
  simpa [copyD] using this

theorem mergeValInto_dicts {a : Entries} {k : String} {ae : Entries}
    (h1 : lookupK a k = some (Val.dict ae)) (be : Entries) :
    mergeValInto a k (Val.dict be) = Val.dict (merge_dicts ae be) := by
  have hd : isDictAt a k = true := by simp [isDictAt, h1]
  have he : dictEntriesAt a k = ae := by simp [dictEntriesAt, h1]
  rw [mergeValInto, dif_pos hd, he]
  rfl

theorem mergeValInto_not_dicts {a : Entries} {k : String} {vb : Val}
    (h : ¬ ((isDictAt a k = true) ∧ vb.isDict = true)) :
    mergeValInto a k vb = vb := by
  rcases vb with s | n | be
  · rw [mergeValInto]
    exact fun _ h => Val.noConfusion h
  · rw [mergeValInto]
    exact fun _ h => Val.noConfusion h
  · have hd : ¬ isDictAt a k = true := by
      intro hc
      exact h ⟨hc, rfl⟩
    rw [mergeValInto, dif_neg hd]

theorem mergeLoop_lookup_none (a : Entries) {l : Entries} {k : String}
    (h : lookupK l k = none) :
    ∀ c : Entries, lookupK (mergeLoop a c l) k = lookupK c k := by
  induction l with
  | nil => intro c; rw [mergeLoop]
  | cons e rest ih =>
      intro c
      obtain ⟨k1, vb⟩ := e
      have hk1 : k1 ≠ k := by
        by_contra hc
        subst hc
        simp [lookupK] at h
      have hrest : lookupK rest k = none := by
        simpa [lookupK, hk1] using h
      rw [mergeLoop, ih hrest, lookupK_setK_ne _ _ hk1]

theorem mergeLoop_lookup_some (a : Entries) {l : Entries} {k : String} {vb : Val}
    (hl : NodupK l) (h : lookupK l k = some vb) :
    ∀ c : Entries, lookupK (mergeLoop a c l) k = some (mergeValInto a k vb) := by
  induction l with
  | nil => intro c; simp [lookupK] at h
  | cons e rest ih =>
      intro c
      obtain ⟨k1, v1⟩ := e
      obtain ⟨hnd1, hnd2⟩ := nodupK_cons hl
      by_cases hk1 : k1 = k
      · subst hk1
        simp [lookupK] at h
        subst h
        have hrest : lookupK rest k1 = none := lookupK_eq_none_of_not_mem hnd1
        rw [mergeLoop, mergeLoop_lookup_none a hrest, lookupK_setK_self]
      · have hrest : lookupK rest k = some vb := by
          simpa [lookupK, hk1] using h
        rw [mergeLoop]
        exact ih hnd2 hrest _

theorem mergeLoop_nil_left (l : Entries) :
    ∀ c : Entries, mergeLoop [] c l = copyAux c l := by
  induction l with
  | nil => intro c; rw [mergeLoop, copyAux]
  | cons e rest ih =>
      intro c
      obtain ⟨k, vb⟩ := e
      have hv : mergeValInto [] k vb = vb := by
        apply mergeValInto_not_dicts
        intro hc
        simp [isDictAt, lookupK] at hc
      rw [mergeLoop, copyAux, hv]
      exact ih _

theorem merge_dicts_empty_right {a : Entries} (ha : NodupK a) :
    merge_dicts a [] = a := by
  unfold merge_dicts mergeTwo
  rw [mergeLoop]
  exact copyD_eq_self ha

theorem merge_dicts_empty_left {b : Entries} (hb : NodupK b) :
    merge_dicts [] b = b := by
  unfold merge_dicts mergeTwo
  have h0 : copyD ([] : Entries) = [] := rfl
  rw [h0, mergeLoop_nil_left]
  exact copyD_eq_self hb

theorem merge_dicts_lookup_right {a b : Entries} (ha : NodupK a) (hb : NodupK b)
    {k : String} {vb : Val} (hkb : lookupK b k = some vb) :
    lookupK (merge_dicts a b) k = some (mergeValInto a k vb) := by
  unfold merge_dicts mergeTwo
  rw [mergeLoop_lookup_some (copyD a) hb hkb, copyD_eq_self ha]

theorem merge_dicts_right_wins {a b : Entries} (ha : NodupK a) (hb : NodupK b)
    {k : String} {vb : Val} (hkb : lookupK b k = some vb)
    (hnd : ¬ (isDictAt a k = true ∧ vb.isDict = true)) :
    lookupK (merge_dicts a b) k = some vb := by
  rw [merge_dicts_lookup_right ha hb hkb, mergeValInto_not_dicts hnd]

theorem merge_dicts_both_dicts {a b : Entries} (ha : NodupK a) (hb : NodupK b)
    {k : String} {ae be : Entries} (hka : lookupK a k = some (Val.dict ae))
    (hkb : lookupK b k = some (Val.dict be)) :
    lookupK (merge_dicts a b) k = some (Val.dict (merge_dicts ae be)) := by
  rw [merge_dicts_lookup_right ha hb hkb, mergeValInto_dicts hka]

/-!
Heap model of `util.merge_dicts`, used to state that the merge does
not mutate its inputs.  Objects live at addresses (list indices) of a
heap; dictionaries hold references to their values.  All recursion is
fuelled; the frame theorem says a successful run leaves every
pre-existing heap cell unchanged.
-/

/-- A Python object in the heap model: an atomic (immutable) payload or
a dictionary mapping keys to addresses of value objects. -/
inductive Obj where
  | prim : String → Obj
  | dict : List (String × Nat) → Obj
deriving DecidableEq, Repr

/-- Heap: object at address `i` is the `i`-th list element.  New
objects are allocated at the end. -/
abbrev Heap := List Obj

/-- Dictionary lookup on address-valued entry lists. -/
def lookupA : List (String × Nat) → String → Option Nat
  | [], _ => none
  | (k', v) :: rest, k => if k' = k then some v else lookupA rest k

/-- Item assignment on address-valued entry lists (update in place or
append, like Python `c[k] = v`). -/
def setA : List (String × Nat) → String → Nat → List (String × Nat)
  | [], k, v => [(k, v)]
  | (k', v') :: rest, k, v =>
      if k' = k then (k, v) :: rest else (k', v') :: setA rest k v

/-- Python `isinstance(h[x], dict)` on the heap. -/
def isDictAtH (h : Heap) (x : Nat) : Bool :=
  match h[x]? with
  | some (Obj.dict _) => true
  | _ => false

/-- Python `a[k]` where `a` is the address of a dictionary. -/
def lookupAddr (h : Heap) (a : Nat) (k : String) : Option Nat :=
  match h[a]? with
  | some (Obj.dict es) => lookupA es k
  | _ => none

/-- Python `c[k] = v` where `c` is the address of a dictionary: the
dictionary object at `c` is mutated in place. -/
def writeKeyH (h : Heap) (c : Nat) (k : String) (v : Nat) : Option Heap :=
  match h[c]? with
  | some (Obj.dict ces) => some (h.set c (Obj.dict (setA ces k v)))
  | _ => none

mutual

/-- `copy.deepcopy` on the heap: allocates a fresh copy of the object
graph reachable from `a`.  (For atomic objects CPython may return the
same object; allocating a fresh cell is harmless for the frame
property and keeps the model uniform.) -/
def deepcopyH : Nat → Heap → Nat → Option (Heap × Nat)
  | 0, _, _ => none
  | fuel + 1, h, a =>
      match h[a]? with
      | some (Obj.prim s) => some (h ++ [Obj.prim s], h.length)
      | some (Obj.dict es) =>
          match copyEntriesH fuel h es with
          | some (h1, es1) => some (h1 ++ [Obj.dict es1], h1.length)
          | none => none
      | none => none
termination_by fuel => (fuel, 0, 0)

/-- Copy of every value object of a dictionary, in order. -/
def copyEntriesH : Nat → Heap → List (String × Nat) → Option (Heap × List (String × Nat))
  | 0, _, _ => none
  | _ + 1, h, [] => some (h, [])
  | fuel + 1, h, (k, v) :: rest =>
      match deepcopyH (fuel + 1) h v with
      | some (h1, v1) =>
          match copyEntriesH (fuel + 1) h1 rest with
          | some (h2, r) => some (h2, (k, v1) :: r)
          | none => none
      | none => none
termination_by fuel _ l => (fuel, 1, l.length)

/-- `util._merge_dicts(a, b)` on the heap: `c = copy.deepcopy(a)`
followed by the key loop over `b`'s entries. -/
def mergeH : Nat → Heap → Nat → Nat → Option (Heap × Nat)
  | 0, _, _, _ => none
  | fuel + 1, h, a, b =>
      match h[a]?, h[b]? with
      | some (Obj.dict _), some (Obj.dict bes) =>
          match deepcopyH (fuel + 1) h a with
          | some (h1, c) =>
              match mergeLoopH fuel h1 a c bes with
              | some h2 => some (h2, c)
              | none => none
          | none => none
      | _, _ => none
termination_by fuel => (fuel, 2, 0)

/-- `util.merge_dicts(x, y)` (variadic, two arguments) on the heap:
`result = {}` allocates a fresh empty dictionary, then
`result = _merge_dicts(result, x)` and `result = _merge_dicts(result, y)`. -/
def mergeVarH : Nat → Heap → Nat → Nat → Option (Heap × Nat)
  | 0, _, _, _ => none
  | fuel + 1, h, x, y =>
      match mergeH (fuel + 1) (h ++ [Obj.dict []]) h.length x with
      | some (h1, r1) =>
          match mergeH (fuel + 1) h1 r1 y with
          | some (h2, r2) => some (h2, r2)
          | none => none
      | none => none
termination_by fuel => (fuel, 3, 0)

/-- Key loop of `util._merge_dicts(a, b)` on the heap: for every entry
`(k, b[k])` of `b`, store into `c[k]` either the nested
`merge_dicts(a[k], b[k])` (when `k in a` and both values are
dictionaries) or `deepcopy(b[k])`. -/
def mergeLoopH : Nat → Heap → Nat → Nat → List (String × Nat) → Option Heap
  | 0, _, _, _, _ => none
  | _ + 1, h, _, _, [] => some h
  | fuel + 1, h, a, c, (k, vb) :: rest =>
      match lookupAddr h a k with
      | some va =>
          if isDictAtH h va && isDictAtH h vb then
            match mergeVarH (fuel + 1) h va vb with
            | some (h1, m) =>
                match writeKeyH h1 c k m with
                | some h2 => mergeLoopH (fuel + 1) h2 a c rest
                | none => none
            | none => none
          else
            match deepcopyH (fuel + 1) h vb with
            | some (h1, cp) =>
                match writeKeyH h1 c k cp with
                | some h2 => mergeLoopH (fuel + 1) h2 a c rest
                | none => none
            | none => none
      | none =>
          match deepcopyH (fuel + 1) h vb with
          | some (h1, cp) =>
              match writeKeyH h1 c k cp with
              | some h2 => mergeLoopH (fuel + 1) h2 a c rest
              | none => none
          | none => none
termination_by fuel _ _ _ l => (fuel, 4, l.length)

end

/-- Heap `h'` extends `h`: every pre-existing cell is unchanged. -/
def FrameOn (h h' : Heap) : Prop :=
  h.length ≤ h'.length ∧ ∀ i < h.length, h'[i]? = h[i]?

/-- Heap `h'` extends `h` except possibly at address `c`. -/
def FrameExcept (h h' : Heap) (c : Nat) : Prop :=
  h.length ≤ h'.length ∧ ∀ i < h.length, i ≠ c → h'[i]? = h[i]?

theorem frameOn_trans {h1 h2 h3 : Heap} (a : FrameOn h1 h2) (b : FrameOn h2 h3) :
    FrameOn h1 h3 := by
  refine ⟨le_trans a.1 b.1, fun i hi => ?_⟩
  rw [b.2 i (lt_of_lt_of_le hi a.1), a.2 i hi]

theorem frameOn_append (h : Heap) (l : List Obj) : FrameOn h (h ++ l) := by
  refine ⟨by simp, fun i hi => ?_⟩
  rw [List.getElem?_append]
  simp [hi]

theorem frameOn_refl (h : Heap) : FrameOn h h := ⟨le_refl _, fun _ _ => rfl⟩

theorem frameOn_frameExcept {h1 h2 h3 : Heap} {c : Nat}
    (a : FrameOn h1 h2) (b : FrameExcept h2 h3 c) : FrameExcept h1 h3 c := by
  refine ⟨le_trans a.1 b.1, fun i hi hic => ?_⟩
  rw [b.2 i (lt_of_lt_of_le hi a.1) hic, a.2 i hi]

theorem frameExcept_trans {h1 h2 h3 : Heap} {c : Nat}
    (a : FrameExcept h1 h2 c) (b : FrameExcept h2 h3 c) : FrameExcept h1 h3 c := by
  refine ⟨le_trans a.1 b.1, fun i hi hic => ?_⟩
  rw [b.2 i (lt_of_lt_of_le hi a.1) hic, a.2 i hi hic]

theorem frameOn_weaken {h1 h2 : Heap} (c : Nat) (a : FrameOn h1 h2) :
    FrameExcept h1 h2 c := ⟨a.1, fun i hi _ => a.2 i hi⟩

theorem writeKeyH_frameExcept {h : Heap} {c : Nat} {k : String} {v : Nat}
    {h2 : Heap} (hw : writeKeyH h c k v = some h2) : FrameExcept h h2 c := by
  unfold writeKeyH at hw
  rcases hcell : h[c]? with _ | o
  · rw [hcell] at hw; exact absurd hw (by simp)
  · rcases o with s | ces
    · rw [hcell] at hw; exact absurd hw (by simp)
    · rw [hcell] at hw
      simp at hw
      subst hw
      refine ⟨by simp, fun i hi hic => ?_⟩
      exact List.getElem?_set_ne (Ne.symm hic)

/-- Frame statement bundle for the fuelled heap functions: a successful
run only allocates fresh cells (and, for the merge loop, writes into
the accumulator cell `c`); every other pre-existing cell is unchanged,
and results are freshly allocated. -/
def FrameStmt (fuel : Nat) : Prop :=
  (∀ h a h' r, deepcopyH fuel h a = some (h', r) →
      FrameOn h h' ∧ h.length ≤ r ∧ r < h'.length) ∧
  (∀ l h h' l', copyEntriesH fuel h l = some (h', l') → FrameOn h h') ∧
  (∀ h a b h' r, mergeH fuel h a b = some (h', r) →
      FrameOn h h' ∧ h.length ≤ r ∧ r < h'.length) ∧
  (∀ h x y h' r, mergeVarH fuel h x y = some (h', r) →
      FrameOn h h' ∧ h.length ≤ r ∧ r < h'.length) ∧
  (∀ l h a c h', mergeLoopH fuel h a c l = some h' → FrameExcept h h' c)

theorem frameStmt_all : ∀ fuel, FrameStmt fuel := by
  intro fuel
  induction fuel with
  | zero =>
      refine ⟨?_, ?_, ?_, ?_, ?_⟩
      · intro h a h' r hc; rw [deepcopyH] at hc; exact absurd hc (by simp)
      · intro l h h' l' hc; rw [copyEntriesH] at hc; exact absurd hc (by simp)
      · intro h a b h' r hc; rw [mergeH] at hc; exact absurd hc (by simp)
      · intro h x y h' r hc; rw [mergeVarH] at hc; exact absurd hc (by simp)
      · intro l h a c h' hc; rw [mergeLoopH] at hc; exact absurd hc (by simp)
  | succ f ih =>
      obtain ⟨ihCopy, ihCent, ihMerge, ihVar, ihLoop⟩ := ih
      -- deepcopyH at f + 1
      have hCopy : ∀ h a h' r, deepcopyH (f + 1) h a = some (h', r) →
          FrameOn h h' ∧ h.length ≤ r ∧ r < h'.length := by
        intro h a h' r hc
        rw [deepcopyH] at hc
        rcases hcell : h[a]? with _ | o
        · simp only [hcell] at hc; exact absurd hc (by simp)
        · rcases o with s | es
          · simp only [hcell] at hc
            simp at hc
            obtain ⟨hh, hr⟩ := hc
            subst hh; subst hr
            exact ⟨frameOn_append h _, le_refl _, by simp⟩
          · simp only [hcell] at hc
            rcases hce : copyEntriesH f h es with _ | p
            · simp only [hce] at hc; exact absurd hc (by simp)
            · obtain ⟨h1, es1⟩ := p
              simp only [hce] at hc
              simp at hc
              obtain ⟨hh, hr⟩ := hc
              subst hh; subst hr
              have hf1 := ihCent es h h1 es1 hce
              refine ⟨frameOn_trans hf1 (frameOn_append h1 _), ?_, by simp⟩
              calc h.length ≤ h1.length := hf1.1
                _ = h1.length := rfl
      -- copyEntriesH at f + 1, by induction on the entry list
      have hCent : ∀ l h h' l', copyEntriesH (f + 1) h l = some (h', l') →
          FrameOn h h' := by
        intro l
        induction l with
        | nil =>
            intro h h' l' hc
            rw [copyEntriesH] at hc
            simp at hc
            rw [hc.1]
            exact frameOn_refl h'
        | cons e rest ihl =>
            intro h h' l' hc
            obtain ⟨k, v⟩ := e
            rw [copyEntriesH] at hc
            rcases hdc : deepcopyH (f + 1) h v with _ | p
            · simp only [hdc] at hc; exact absurd hc (by simp)
            · obtain ⟨h1, v1⟩ := p
              simp only [hdc] at hc
              rcases hce : copyEntriesH (f + 1) h1 rest with _ | q
              · simp only [hce] at hc; exact absurd hc (by simp)
              · obtain ⟨h2, r⟩ := q
                simp only [hce] at hc
                simp at hc
                have hf1 := (hCopy h v h1 v1 hdc).1
                have hf2 := ihl h1 h2 r hce
                rw [← hc.1]
                exact frameOn_trans hf1 hf2
      -- mergeH at f + 1
      have hMerge : ∀ h a b h' r, mergeH (f + 1) h a b = some (h', r) →
          FrameOn h h' ∧ h.length ≤ r ∧ r < h'.length := by
        intro h a b h' r hc
        rw [mergeH] at hc
        rcases hca : h[a]? with _ | oa
        · simp only [hca] at hc; exact absurd hc (by simp)
        · rcases oa with s | aes
          · simp only [hca] at hc; exact absurd hc (by simp)
          · rcases hcb : h[b]? with _ | ob
            · simp only [hca, hcb] at hc; exact absurd hc (by simp)
            · rcases ob with s | bes
              · simp only [hca, hcb] at hc; exact absurd hc (by simp)
              · simp only [hca, hcb] at hc
                rcases hdc : deepcopyH (f + 1) h a with _ | p
                · simp only [hdc] at hc; exact absurd hc (by simp)
                · obtain ⟨h1, c⟩ := p
                  simp only [hdc] at hc
                  rcases hlp : mergeLoopH f h1 a c bes with _ | h2
                  · simp only [hlp] at hc; exact absurd hc (by simp)
                  · simp only [hlp] at hc
                    simp at hc
                    obtain ⟨hh, hr⟩ := hc
                    subst hh; subst hr
                    obtain ⟨hf1, hc1, hc2⟩ := hCopy h a h1 c hdc
                    have hf2 := ihLoop bes h1 a c _ hlp
                    refine ⟨?_, hc1, lt_of_lt_of_le hc2 hf2.1⟩
                    refine ⟨le_trans hf1.1 hf2.1, fun i hi => ?_⟩
                    have hic : i ≠ c := by omega
                    rw [hf2.2 i (lt_of_lt_of_le hi hf1.1) hic, hf1.2 i hi]
      -- mergeVarH at f + 1
      have hVar : ∀ h x y h' r, mergeVarH (f + 1) h x y = some (h', r) →
          FrameOn h h' ∧ h.length ≤ r ∧ r < h'.length := by
        intro h x y h' r hc
        rw [mergeVarH] at hc
        rcases hm1 : mergeH (f + 1) (h ++ [Obj.dict []]) h.length x with _ | p
        · simp only [hm1] at hc; exact absurd hc (by simp)
        · obtain ⟨h1, r1⟩ := p
          simp only [hm1] at hc
          rcases hm2 : mergeH (f + 1) h1 r1 y with _ | q
          · simp only [hm2] at hc; exact absurd hc (by simp)
          · obtain ⟨h2, r2⟩ := q
            simp only [hm2] at hc
            simp at hc
            obtain ⟨hh, hr⟩ := hc
            subst hh; subst hr
            obtain ⟨hf1, _, _⟩ := hMerge _ _ _ _ _ hm1
            obtain ⟨hf2, hr1, hr2⟩ := hMerge _ _ _ _ _ hm2
            have hfa : FrameOn h h1 := frameOn_trans (frameOn_append h _) hf1
            refine ⟨frameOn_trans hfa hf2, le_trans (le_trans ?_ hfa.1) hr1, hr2⟩
            exact le_refl _
      -- mergeLoopH at f + 1, by induction on the entry list
      have hLoop : ∀ l h a c h', mergeLoopH (f + 1) h a c l = some h' →
          FrameExcept h h' c := by
        intro l
        induction l with
        | nil =>
            intro h a c h' hc
            rw [mergeLoopH] at hc
            simp at hc
            subst hc
            exact frameOn_weaken c (frameOn_refl _)
        | cons e rest ihl =>
            intro h a c h' hc
            obtain ⟨k, vb⟩ := e
            rw [mergeLoopH] at hc
            rcases hla : lookupAddr h a k with _ | va
            · simp only [hla] at hc
              rcases hdc : deepcopyH (f + 1) h vb with _ | p
              · simp only [hdc] at hc; exact absurd hc (by simp)
              · obtain ⟨h1, cp⟩ := p
                simp only [hdc] at hc
                rcases hwk : writeKeyH h1 c k cp with _ | h2
                · simp only [hwk] at hc; exact absurd hc (by simp)
                · simp only [hwk] at hc
                  have hf1 := (hCopy h vb h1 cp hdc).1
                  have hf2 := writeKeyH_frameExcept hwk
                  have hf3 := ihl h2 a c h' hc
                  exact frameExcept_trans
                    (frameOn_frameExcept hf1 hf2) hf3
            · simp only [hla] at hc
              by_cases hcond : (isDictAtH h va && isDictAtH h vb) = true
              · rw [if_pos hcond] at hc
                rcases hmv : mergeVarH (f + 1) h va vb with _ | p
                · simp only [hmv] at hc; exact absurd hc (by simp)
                · obtain ⟨h1, m⟩ := p
                  simp only [hmv] at hc
                  rcases hwk : writeKeyH h1 c k m with _ | h2
                  · simp only [hwk] at hc; exact absurd hc (by simp)
                  · simp only [hwk] at hc
                    have hf1 := (hVar h va vb h1 m hmv).1
                    have hf2 := writeKeyH_frameExcept hwk
                    have hf3 := ihl h2 a c h' hc
                    exact frameExcept_trans
                      (frameOn_frameExcept hf1 hf2) hf3
              · rw [if_neg hcond] at hc
                rcases hdc : deepcopyH (f + 1) h vb with _ | p
                · simp only [hdc] at hc; exact absurd hc (by simp)
                · obtain ⟨h1, cp⟩ := p
                  simp only [hdc] at hc
                  rcases hwk : writeKeyH h1 c k cp with _ | h2
                  · simp only [hwk] at hc; exact absurd hc (by simp)
                  · simp only [hwk] at hc
                    have hf1 := (hCopy h vb h1 cp hdc).1
                    have hf2 := writeKeyH_frameExcept hwk
                    have hf3 := ihl h2 a c h' hc
                    exact frameExcept_trans
                      (frameOn_frameExcept hf1 hf2) hf3
      exact ⟨hCopy, hCent, hMerge, hVar, hLoop⟩

/-- No mutation of pre-existing objects by `util.merge_dicts` on the
heap: every heap cell that existed before the call, including every
object reachable from either argument, is unchanged after a
successful run. -/
theorem mergeVarH_no_mutation {fuel : Nat} {h : Heap} {x y : Nat}
    {h' : Heap} {r : Nat} (hc : mergeVarH fuel h x y = some (h', r)) :
    ∀ i < h.length, h'[i]? = h[i]? := by
  exact ((frameStmt_all fuel).2.2.2.1 h x y h' r hc).1.2

/-!
Embedding of `util.expand_port_ranges`.  Python strings are modelled
as lists of characters.  `str.isdigit` is modelled as "non-empty and
all characters decimal digits", which agrees with CPython on the
ASCII strings that occur in port configuration (CPython additionally
accepts some non-ASCII digit characters, on which `int()` would then
raise; those characters are outside the embedded range).
-/

/-- Python `s.isdigit()` for ASCII strings. -/
def pyIsdigit (s : List Char) : Bool :=
  !s.isEmpty && s.all Char.isDigit

/-- Python `int(s)` for a string of decimal digits. -/
def pyInt (s : List Char) : Nat :=
  s.foldl (fun acc ch => acc * 10 + (ch.toNat - 48)) 0

/-- Python `s.split('-', 1)` on a string containing `'-'`: the part
before the first dash and the part after it. -/
def splitDash : List Char → List Char × List Char
  | [] => ([], [])
  | ch :: rest =>
      if ch = '-' then ([], rest)
      else
        let p := splitDash rest
        (ch :: p.1, p.2)

/-- One iteration of the loop in `util.expand_port_ranges`. -/
def expandStep (acc : Finset Nat) (pr : List Char) : Finset Nat :=
  if pyIsdigit pr then insert (pyInt pr) acc
  else if !pr.contains '-' then acc
  else
    let sp := splitDash pr
    if pyIsdigit sp.1 && pyIsdigit sp.2 then
      acc ∪ Finset.Icc (pyInt sp.1) (pyInt sp.2)
    else acc

/-- `util.expand_port_ranges`: expand a list of port tokens to the set
of ports they denote (`range(int(start), int(end) + 1)` is the closed
interval from `start` to `end`). -/
def expand_port_ranges (port_ranges : List (List Char)) : Finset Nat :=
  port_ranges.foldl expandStep ∅

/-- The ports a single token denotes, phrased as in the specification:
a digit token denotes its value; a token of the shape `m-n` with both
sides digit strings denotes every port from `m` to `n` inclusive; any
other token denotes nothing. -/
def claimTokenPorts (t : List Char) (p : Nat) : Prop :=
  (pyIsdigit t = true ∧ p = pyInt t) ∨
  (∃ m n : List Char, t = m ++ '-' :: n ∧ pyIsdigit m = true ∧
    pyIsdigit n = true ∧ pyInt m ≤ p ∧ p ≤ pyInt n)

theorem splitDash_spec {t : List Char} (h : t.contains '-' = true) :
    t = (splitDash t).1 ++ '-' :: (splitDash t).2 ∧
      (splitDash t).1.contains '-' = false := by
  induction t with
  | nil => simp at h
  | cons ch rest ih =>
      by_cases hch : ch = '-'
      · subst hch
        simp [splitDash]
      · have hrest : rest.contains '-' = true := by
          simp [List.contains_cons] at h
          rcases h with h | h
          · exact absurd h.symm hch
          · simpa using h
        obtain ⟨ih1, ih2⟩ := ih hrest
        constructor
        · simp [splitDash, hch]
          exact ih1
        · simp [splitDash, hch, List.contains_cons]
          exact ⟨fun he => hch he.symm, by simpa using ih2⟩

theorem dash_not_digit : ('-' : Char).isDigit = false := by decide

theorem pyIsdigit_no_dash {s : List Char} (h : pyIsdigit s = true) :
    s.contains '-' = false := by
  simp [pyIsdigit] at h
  by_contra hc
  simp at hc
  have := h.2 '-' (by simpa using hc)
  simp [dash_not_digit] at this

theorem split_at_first_char {ch : Char} {a b m n : List Char}
    (heq : a ++ ch :: b = m ++ ch :: n)
    (ha : a.contains ch = false) (hm : m.contains ch = false) :
    a = m ∧ b = n := by
  induction a generalizing m with
  | nil =>
      cases m with
      | nil => simpa using heq
      | cons mc mrest =>
          simp at heq
          obtain ⟨h1, _⟩ := heq
          rw [← h1] at hm
          simp [List.contains_cons] at hm
  | cons ac arest ih =>
      cases m with
      | nil =>
          simp at heq
          obtain ⟨h1, _⟩ := heq
          rw [h1] at ha
          simp [List.contains_cons] at ha
      | cons mc mrest =>
          simp at heq
          obtain ⟨h1, h2⟩ := heq
          have ha' : arest.contains ch = false := by
            simp [List.contains_cons] at ha
            simpa using ha.2
          have hm' : mrest.contains ch = false := by
            simp [List.contains_cons] at hm
            simpa using hm.2
          obtain ⟨ih1, ih2⟩ := ih h2 ha' hm'
          exact ⟨by rw [h1, ih1], ih2⟩

theorem expandStep_mem (acc : Finset Nat) (t : List Char) (p : Nat) :
    p ∈ expandStep acc t ↔ p ∈ acc ∨ claimTokenPorts t p := by
  by_cases hd : pyIsdigit t = true
  · rw [expandStep, if_pos hd]
    simp [claimTokenPorts, hd]
    constructor
    · intro h
      rcases h with h | h
      · exact Or.inr (Or.inl h)
      · exact Or.inl h
    · intro h
      rcases h with h | h | h
      · exact Or.inr h
      · exact Or.inl h
      · obtain ⟨m, n, hmn, hm, hn, _⟩ := h
        exfalso
        have : t.contains '-' = true := by
          rw [hmn]
          simp [List.contains_cons]
        rw [pyIsdigit_no_dash hd] at this
        exact Bool.noConfusion this
  · by_cases hdash : t.contains '-' = true
    · rw [expandStep, if_neg hd]
      rw [hdash]
      simp only [Bool.not_true, Bool.false_eq_true, if_false]
      obtain ⟨hsp1, hsp2⟩ := splitDash_spec hdash
      by_cases hboth : (pyIsdigit (splitDash t).1 && pyIsdigit (splitDash t).2) = true
      · rw [if_pos hboth]
        simp at hboth
        simp [claimTokenPorts, hd]
        constructor
        · intro h
          rcases h with h | h
          · exact Or.inl h
          · refine Or.inr ⟨(splitDash t).1, (splitDash t).2, hsp1, hboth.1, hboth.2, ?_⟩
            simpa [Finset.mem_Icc] using h
        · intro h
          rcases h with h | h
          · exact Or.inl h
          · obtain ⟨m, n, hmn, hm, hn, hle1, hle2⟩ := h
            have heq : (splitDash t).1 ++ '-' :: (splitDash t).2 = m ++ '-' :: n := by
              rw [← hsp1, ← hmn]
            obtain ⟨e1, e2⟩ := split_at_first_char heq hsp2 (pyIsdigit_no_dash hm)
            right
            rw [e1, e2]
            exact ⟨hle1, hle2⟩
      · rw [if_neg hboth]
        simp at hboth
        simp [claimTokenPorts, hd]
        intro m n hmn hm hn
        have heq : (splitDash t).1 ++ '-' :: (splitDash t).2 = m ++ '-' :: n := by
          rw [← hsp1, ← hmn]
        obtain ⟨e1, e2⟩ := split_at_first_char heq hsp2 (pyIsdigit_no_dash hm)
        rw [e1] at hboth
        rw [e2] at hboth
        exact absurd (hboth hm) (by simp [hn])
    · have hdashf : t.contains '-' = false := by
        simpa using hdash
      rw [expandStep, if_neg hd, hdashf]
      simp only [Bool.not_false, if_true]
      simp [claimTokenPorts, hd]
      intro m n hmn hm _
      have : t.contains '-' = true := by
        rw [hmn]
        simp [List.contains_cons]
      rw [hdashf] at this
      exact Bool.noConfusion this

theorem expand_foldl_mem (l : List (List Char)) :
    ∀ (acc : Finset Nat) (p : Nat),
      p ∈ l.foldl expandStep acc ↔ p ∈ acc ∨ ∃ t ∈ l, claimTokenPorts t p := by
  induction l with
  | nil => intro acc p; simp
  | cons t rest ih =>
      intro acc p
      rw [List.foldl_cons, ih]
      rw [expandStep_mem]
      constructor
      · intro h
        rcases h with (h | h) | h
        · exact Or.inl h
        · exact Or.inr ⟨t, by simp, h⟩
        · obtain ⟨t', ht', hc⟩ := h
          exact Or.inr ⟨t', by simp [ht'], hc⟩
      · intro h
        rcases h with h | h
        · exact Or.inl (Or.inl h)
        · obtain ⟨t', ht', hc⟩ := h
          simp at ht'
          rcases ht' with ht' | ht'
          · subst ht'
            exact Or.inl (Or.inr hc)
          · exact Or.inr ⟨t', ht', hc⟩

theorem expand_port_ranges_mem (l : List (List Char)) (p : Nat) :
    p ∈ expand_port_ranges l ↔ ∃ t ∈ l, claimTokenPorts t p := by
  rw [expand_port_ranges, expand_foldl_mem]
  simp

/-!
Embedding of `util.load_plugin`.  The Python import machinery is an
oracle: an environment maps module names to modules, and modules map
attribute names to classes.  A class is modelled by its constructor
behaviour: a function of the keyword arguments that either raises (an
error message) or succeeds, in which case `load_plugin` returns an
instance of that class carrying the constructing arguments.
-/

/-- Python `s.split('.', 1)`-style first-dot split (used reversed to
express `rsplit`). -/
def splitDot : List Char → List Char × List Char
  | [] => ([], [])
  | ch :: rest =>
      if ch = '.' then ([], rest)
      else
        let p := splitDot rest
        (ch :: p.1, p.2)

/-- Python `s.rsplit('.', 1)`: split at the last dot into two parts,
or return the whole string as a single part when it has no dot. -/
def pyRsplitDot1 (s : List Char) : List (List Char) :=
  if s.contains '.' then
    let p := splitDot s.reverse
    [p.2.reverse, p.1.reverse]
  else [s]

/-- A plugin class, modelled by its constructor: `raises args` is the
error message when `__init__` raises on keyword arguments `args`, and
`none` when construction succeeds. -/
structure ClassDef where
  raises : Entries → Option (List Char)

/-- A module: attribute name to class. -/
abbrev PyModule := List (List Char × ClassDef)

/-- The import environment: module name to module. -/
structure Env where
  modules : List (List Char × PyModule)

/-- Association lookup with `List Char` keys. -/
def assocFind {β : Type} : List (List Char × β) → List Char → Option β
  | [], _ => none
  | (k, v) :: rest, key => if k = key then some v else assocFind rest key

/-- A constructed plugin object: the class it is an instance of
(module and class name) and the keyword arguments its constructor
received. -/
structure PyInstance where
  module : List Char
  cls : List Char
  args : Entries

/-- Outcomes of `util.load_plugin` other than success.  `pluginError`
is raised by `load_plugin` itself; the other three model exceptions
propagated unchanged from `importlib.import_module`, `getattr` and the
plugin constructor. -/
inductive LoadErr where
  | pluginError (cls : List Char)
  | moduleNotFound (m : List Char)
  | attributeError (c : List Char)
  | constructorError (msg : List Char)

/-- A plugin configuration dictionary: the `plugin` key (fully
qualified class name) and the optional `params` key (`none` models an
absent key). -/
structure PluginConfig where
  plugin : List Char
  params : Option Entries

/-- `util.load_plugin`: split the class path at the last dot; raise
`PluginError` when there are fewer than two parts; import the module,
resolve the class, and construct it with the configured parameters
(defaulting to the empty dictionary when the `params` key is absent).
`rsplit('.', 1)` yields at most two parts, so the fewer-than-two-parts
check is exactly the single-part (dot-free) case and the two-part
match below is the `len(parts) >= 2` branch of the source. -/
def load_plugin (env : Env) (cfg : PluginConfig) : Except LoadErr PyInstance :=
  match pyRsplitDot1 cfg.plugin with
  | [moduleName, className] =>
      (match assocFind env.modules moduleName with
      | none => Except.error (LoadErr.moduleNotFound moduleName)
      | some md =>
          match assocFind md className with
          | none => Except.error (LoadErr.attributeError className)
          | some cd =>
              match cd.raises (cfg.params.getD []) with
              | some msg => Except.error (LoadErr.constructorError msg)
              | none => Except.ok ⟨moduleName, className, cfg.params.getD []⟩)
  | _ => Except.error (LoadErr.pluginError cfg.plugin)

theorem contains_append (l1 l2 : List Char) (ch : Char) :
    (l1 ++ l2).contains ch = (l1.contains ch || l2.contains ch) := by
  induction l1 with
  | nil => simp
  | cons a r ih => simp [List.contains_cons, ih, Bool.or_assoc]

theorem splitDot_spec {t : List Char} (h : t.contains '.' = true) :
    t = (splitDot t).1 ++ '.' :: (splitDot t).2 ∧
      (splitDot t).1.contains '.' = false := by
  induction t with
  | nil => simp at h
  | cons ch rest ih =>
      by_cases hch : ch = '.'
      · subst hch
        simp [splitDot]
      · have hrest : rest.contains '.' = true := by
          simp [List.contains_cons] at h
          rcases h with h | h
          · exact absurd h.symm hch
          · simpa using h
        obtain ⟨ih1, ih2⟩ := ih hrest
        constructor
        · simp [splitDot, hch]
          exact ih1
        · simp [splitDot, hch, List.contains_cons]
          exact ⟨fun he => hch he.symm, by simpa using ih2⟩

theorem contains_reverse (l : List Char) (c : Char) :
    l.reverse.contains c = l.contains c := by
  induction l with
  | nil => simp
  | cons ch rest ih =>
      simp [List.contains_cons, contains_append, ih]
      rw [Bool.or_comm]

theorem pyRsplitDot1_eq {m c : List Char} (hc : c.contains '.' = false) :
    pyRsplitDot1 (m ++ '.' :: c) = [m, c] := by
  have hdot : (m ++ '.' :: c).contains '.' = true := by
    simp [contains_append, List.contains_cons]
  have hrev : (m ++ '.' :: c).reverse = c.reverse ++ '.' :: m.reverse := by
    simp
  obtain ⟨hs1, hs2⟩ := splitDot_spec (t := (m ++ '.' :: c).reverse)
    (by rw [contains_reverse]; exact hdot)
  rw [hrev] at hs1 hs2
  have hcrev : c.reverse.contains '.' = false := by
    rw [contains_reverse]; exact hc
  obtain ⟨e1, e2⟩ := split_at_first_char hs1.symm hs2 hcrev
  rw [pyRsplitDot1, if_pos hdot]
  simp only [hrev, e1, e2]
  simp

theorem pyRsplitDot1_no_dot {s : List Char} (h : s.contains '.' = false) :
    pyRsplitDot1 s = [s] := by
  have hnot : ¬ (s.contains '.' = true) := by
    rw [h]
    exact fun hx => Bool.noConfusion hx
  rw [pyRsplitDot1, if_neg hnot]

/-- Every string containing a dot splits as `m ++ "." ++ c` with a
dot-free suffix `c`. -/
theorem dot_decomp {s : List Char} (h : s.contains '.' = true) :
    ∃ m c : List Char, s = m ++ '.' :: c ∧ c.contains '.' = false := by
  obtain ⟨hs1, hs2⟩ := splitDot_spec (t := s.reverse)
    (by rw [contains_reverse]; exact h)
  refine ⟨(splitDot s.reverse).2.reverse, (splitDot s.reverse).1.reverse, ?_, ?_⟩
  · have := congrArg List.reverse hs1
    simpa using this
  · rw [contains_reverse]
    exact hs2

/-- On a class path `m.c` (split at the last dot), `load_plugin`
resolves module `m` and class `c` and constructs the class with the
configured parameters; each resolution or construction failure is
propagated unchanged. -/
theorem load_plugin_resolves (env : Env) (cfg : PluginConfig)
    {m c : List Char} (hc : c.contains '.' = false)
    (hpath : cfg.plugin = m ++ '.' :: c) :
    load_plugin env cfg =
      match assocFind env.modules m with
      | none => Except.error (LoadErr.moduleNotFound m)
      | some md =>
          match assocFind md c with
          | none => Except.error (LoadErr.attributeError c)
          | some cd =>
              match cd.raises (cfg.params.getD []) with
              | some msg => Except.error (LoadErr.constructorError msg)
              | none => Except.ok ⟨m, c, cfg.params.getD []⟩ := by
  rw [load_plugin, hpath, pyRsplitDot1_eq hc]

/-- `load_plugin` raises `PluginError` exactly for class paths with no
dot between module and class. -/
theorem load_plugin_pluginError_iff (env : Env) (cfg : PluginConfig) :
    (∃ msg, load_plugin env cfg = Except.error (LoadErr.pluginError msg)) ↔
      cfg.plugin.contains '.' = false := by
  constructor
  · intro hp
    obtain ⟨msg, hmsg⟩ := hp
    cases hx : cfg.plugin.contains '.'
    · rfl
    · exfalso
      obtain ⟨m, c, hpath, hcfree⟩ := dot_decomp hx
      rw [load_plugin_resolves env cfg hcfree hpath] at hmsg
      rcases h1 : assocFind env.modules m with _ | md
      · simp only [h1] at hmsg
        simp at hmsg
      · simp only [h1] at hmsg
        rcases h2 : assocFind md c with _ | cd
        · simp only [h2] at hmsg
          simp at hmsg
        · simp only [h2] at hmsg
          rcases h3 : cd.raises (cfg.params.getD []) with _ | msg2
          · simp only [h3] at hmsg
            simp at hmsg
          · simp only [h3] at hmsg
            simp at hmsg
  · intro hnod
    refine ⟨cfg.plugin, ?_⟩
    rw [load_plugin, pyRsplitDot1_no_dot hnod]

/-!
Embedding of the worker functions of `workers.py`.  A worker wraps a
plugin object; plugin behaviour (the records `read()` yields, the
records `eval()` yields per input, whether `write()`/`done()` raise)
is an oracle parameter.  Queues are represented by the list of items a
worker dequeues (`none` is the `None` sentinel) and by the list of
`put` operations a worker performs.  A worker's observable behaviour
is its trace of puts, `write` invocations and `done` invocations.
-/

/-- A record on the pipeline: a Python dictionary. -/
abbrev Record := Entries

/-- `record.get('com', {})` as used by the workers: the entry list of
the `com` bucket, `some []` when the key is absent, and `none` when
the stored value is not a dictionary (in which case `merge_dicts`
raises a `TypeError` inside the worker). -/
def comEntries (r : Record) : Option Entries :=
  match lookupK r "com" with
  | none => some []
  | some (Val.dict es) => some es
  | some _ => none

/-- The `com` bucket of a record when it is a dictionary. -/
def lookupCom (r : Record) (k : String) : Option Val :=
  match lookupK r "com" with
  | some (Val.dict es) => lookupK es k
  | _ => none

/-- Identity of a worker: configuration audit key, audit version,
plugin key and the plugin's class name. -/
structure WorkerMeta where
  audit_key : String
  audit_version : String
  plugin_key : String
  plugin_class : String

/-- `worker_name = audit_key + '_' + plugin_key`. -/
def workerName (meta : WorkerMeta) : String :=
  meta.audit_key ++ "_" ++ meta.plugin_key

/-- The engine bookkeeping dictionary merged into `com` by cloud and
event workers (`origin_type` is `'cloud'` or `'event'`). -/
def originCom (meta : WorkerMeta) (otype : String) : Entries :=
  [("audit_key", Val.str meta.audit_key),
   ("audit_version", Val.str meta.audit_version),
   ("origin_key", Val.str meta.plugin_key),
   ("origin_class", Val.str meta.plugin_class),
   ("origin_worker", Val.str (workerName meta)),
   ("origin_type", Val.str otype)]

/-- The engine bookkeeping dictionary merged into `com` by store and
alert workers (`worker_type` is `'store'` or `'alert'`). -/
def targetCom (meta : WorkerMeta) (wtype : String) : Entries :=
  [("audit_key", Val.str meta.audit_key),
   ("audit_version", Val.str meta.audit_version),
   ("target_key", Val.str meta.plugin_key),
   ("target_class", Val.str meta.plugin_class),
   ("target_worker", Val.str (workerName meta)),
   ("target_type", Val.str wtype)]

/-- `record['com'] = util.merge_dicts(record.get('com', {}), eng)`:
`some` of the updated record, or `none` when the stored `com` value is
not a dictionary and the merge raises. -/
def enrichWith (eng : Entries) (r : Record) : Option Record :=
  match comEntries r with
  | some ces => some (setK r "com" (Val.dict (merge_dicts ces eng)))
  | none => none

/-- Observable action of a worker. -/
inductive WEv where
  | put (q : Nat) (r : Record)
  | write (r : Record) (ok : Bool)
  | done (ok : Bool)

/-- The `put` operations of the `read()` loop of
`workers.cloud_worker`: each yielded record is enriched with the
`'cloud'` bookkeeping and put into each of the `nq` output queues in
order.  A record whose `com` value is not a dictionary makes
`merge_dicts` raise inside the `try`, which ends the loop; records
yielded after a `read()` exception never appear in the input list. -/
def cloud_worker_puts (meta : WorkerMeta) (nq : Nat) : List Record → List WEv
  | [] => []
  | r :: rest =>
      match enrichWith (originCom meta "cloud") r with
      | some r2 => ((List.range nq).map (fun q => WEv.put q r2)) ++
          cloud_worker_puts meta nq rest
      | none => []

/-- Trace of `workers.cloud_worker`: the puts of the `read()` loop
followed by exactly one `done()` invocation (in its own `try`, so it
happens even when `read()` or the merge raised). -/
def cloud_worker (meta : WorkerMeta) (readRecs : List Record) (doneOk : Bool)
    (nq : Nat) : List WEv :=
  cloud_worker_puts meta nq readRecs ++ [WEv.done doneOk]

/-- Behaviour of an event plugin's `eval` generator on the `i`-th
input: the records it yields before completing or raising, and whether
iterating it raised after that prefix. -/
structure EvalBeh where
  derived : Nat → List Record
  raisesAfter : Nat → Bool

/-- The `put` operations for the derived records of one input of
`workers.event_worker`: each derived record is enriched with the
`'event'` bookkeeping and put into each of the `nq` output queues.  A
derived record with a non-dictionary `com` makes the merge raise
inside the `try`, dropping the remaining derived records of this input
only. -/
def event_derived_puts (meta : WorkerMeta) (nq : Nat) : List Record → List WEv
  | [] => []
  | d :: rest =>
      match enrichWith (originCom meta "event") d with
      | some d2 => ((List.range nq).map (fun q => WEv.put q d2)) ++
          event_derived_puts meta nq rest
      | none => []

/-- Trace of `workers.event_worker` on the items it dequeues (`none`
is the sentinel): each non-sentinel input is passed to `eval` and the
yielded derived records are enriched and fanned out; an exception from
`eval` (modelled by the yielded prefix in `EvalBeh`) is caught and the
worker continues with the next input; the sentinel triggers exactly
one `done()` and the loop breaks. -/
def event_worker (meta : WorkerMeta) (eb : EvalBeh) (doneOk : Bool)
    (nq : Nat) : Nat → List (Option Record) → List WEv
  | _, [] => []
  | _, none :: _ => [WEv.done doneOk]
  | i, some _ :: rest =>
      event_derived_puts meta nq (eb.derived i) ++
        event_worker meta eb doneOk nq (i + 1) rest

/-- Trace of `workers._write_worker` on the items it dequeues: each
non-sentinel record is enriched with the target bookkeeping (outside
any `try`: a non-dictionary `com` value would kill the worker, ending
the trace without a `done`) and passed to `write` (whose exceptions
are caught, dropping just that record); the sentinel triggers exactly
one `done()` and the loop breaks.  `wb i` tells whether the `i`-th
`write` call succeeds. -/
def write_worker (meta : WorkerMeta) (wtype : String) (wb : Nat → Bool)
    (doneOk : Bool) : Nat → List (Option Record) → List WEv
  | _, [] => []
  | _, none :: _ => [WEv.done doneOk]
  | i, some r :: rest =>
      match enrichWith (targetCom meta wtype) r with
      | some r2 => WEv.write r2 (wb i) :: write_worker meta wtype wb doneOk (i + 1) rest
      | none => []

/-- `workers.store_worker`. -/
def store_worker (meta : WorkerMeta) (wb : Nat → Bool) (doneOk : Bool)
    (queue : List (Option Record)) : List WEv :=
  write_worker meta "store" wb doneOk 0 queue

/-- `workers.alert_worker`. -/
def alert_worker (meta : WorkerMeta) (wb : Nat → Bool) (doneOk : Bool)
    (queue : List (Option Record)) : List WEv :=
  write_worker meta "alert" wb doneOk 0 queue

/-- A record whose `com` bucket is absent or a dictionary (every
record built by the engine satisfies this). -/
def GoodCom (r : Record) : Prop := (comEntries r).isSome = true

instance (r : Record) : Decidable (GoodCom r) := by
  unfold GoodCom; infer_instance

theorem merge_dicts_nondict_right {a b : Entries} (hb : NodupK b)
    {k : String} {vb : Val} (hkb : lookupK b k = some vb)
    (hv : vb.isDict = false) :
    lookupK (merge_dicts a b) k = some vb := by
  unfold merge_dicts mergeTwo
  rw [mergeLoop_lookup_some (copyD a) hb hkb]
  rw [mergeValInto_not_dicts]
  intro hc
  rw [hv] at hc
  exact Bool.noConfusion hc.2

theorem merge_dicts_lookup_left {a b : Entries} (ha : NodupK a)
    {k : String} (h : lookupK b k = none) :
    lookupK (merge_dicts a b) k = lookupK a k := by
  unfold merge_dicts mergeTwo
  rw [mergeLoop_lookup_none (copyD a) h, copyD_eq_self ha]

theorem enrichWith_lookup {eng : Entries} (heng : NodupK eng) {r r2 : Record}
    (he : enrichWith eng r = some r2) {k : String} {v : Val}
    (hk : lookupK eng k = some v) (hv : v.isDict = false) :
    lookupCom r2 k = some v := by
  unfold enrichWith at he
  rcases hce : comEntries r with _ | ces
  · rw [hce] at he; exact Option.noConfusion he
  · simp only [hce] at he
    have h2 : r2 = setK r "com" (Val.dict (merge_dicts ces eng)) := by
      exact (Option.some.inj he).symm
    subst h2
    unfold lookupCom
    rw [lookupK_setK_self]
    exact merge_dicts_nondict_right heng hk hv

theorem enrichWith_lookup_absent {eng : Entries} {r r2 : Record}
    (he : enrichWith eng r = some r2) {k : String}
    (hk : lookupK eng k = none) {ces : Entries}
    (hce : comEntries r = some ces) (hnd : NodupK ces) :
    lookupCom r2 k = lookupK ces k := by
  unfold enrichWith at he
  simp only [hce] at he
  have h2 : r2 = setK r "com" (Val.dict (merge_dicts ces eng)) := by
    exact (Option.some.inj he).symm
  subst h2
  unfold lookupCom
  rw [lookupK_setK_self]
  exact merge_dicts_lookup_left hnd hk

theorem nodupK_originCom (meta : WorkerMeta) (otype : String) :
    NodupK (originCom meta otype) := by
  simp [NodupK, keysOf, originCom]

theorem nodupK_targetCom (meta : WorkerMeta) (wtype : String) :
    NodupK (targetCom meta wtype) := by
  simp [NodupK, keysOf, targetCom]

/-- Conjunction of the six identity fields carried by records leaving
a cloud or event worker. -/
def OriginFields (meta : WorkerMeta) (otype : String) (r : Record) : Prop :=
  lookupCom r "origin_type" = some (Val.str otype) ∧
  lookupCom r "audit_key" = some (Val.str meta.audit_key) ∧
  lookupCom r "audit_version" = some (Val.str meta.audit_version) ∧
  lookupCom r "origin_key" = some (Val.str meta.plugin_key) ∧
  lookupCom r "origin_class" = some (Val.str meta.plugin_class) ∧
  lookupCom r "origin_worker" = some (Val.str (workerName meta))

/-- Conjunction of the six identity fields merged in by a store or
alert worker. -/
def TargetFields (meta : WorkerMeta) (wtype : String) (r : Record) : Prop :=
  lookupCom r "target_type" = some (Val.str wtype) ∧
  lookupCom r "audit_key" = some (Val.str meta.audit_key) ∧
  lookupCom r "audit_version" = some (Val.str meta.audit_version) ∧
  lookupCom r "target_key" = some (Val.str meta.plugin_key) ∧
  lookupCom r "target_class" = some (Val.str meta.plugin_class) ∧
  lookupCom r "target_worker" = some (Val.str (workerName meta))

theorem enrichWith_originFields {meta : WorkerMeta} {otype : String}
    {r r2 : Record} (he : enrichWith (originCom meta otype) r = some r2) :
    OriginFields meta otype r2 := by
  have hnd := nodupK_originCom meta otype
  exact ⟨enrichWith_lookup hnd he rfl rfl, enrichWith_lookup hnd he rfl rfl,
    enrichWith_lookup hnd he rfl rfl, enrichWith_lookup hnd he rfl rfl,
    enrichWith_lookup hnd he rfl rfl, enrichWith_lookup hnd he rfl rfl⟩

theorem enrichWith_targetFields {meta : WorkerMeta} {wtype : String}
    {r r2 : Record} (he : enrichWith (targetCom meta wtype) r = some r2) :
    TargetFields meta wtype r2 := by
  have hnd := nodupK_targetCom meta wtype
  exact ⟨enrichWith_lookup hnd he rfl rfl, enrichWith_lookup hnd he rfl rfl,
    enrichWith_lookup hnd he rfl rfl, enrichWith_lookup hnd he rfl rfl,
    enrichWith_lookup hnd he rfl rfl, enrichWith_lookup hnd he rfl rfl⟩

theorem cloud_worker_puts_mem {meta : WorkerMeta} {nq : Nat}
    {recs : List Record} {q : Nat} {r : Record}
    (h : WEv.put q r ∈ cloud_worker_puts meta nq recs) :
    ∃ r0, enrichWith (originCom meta "cloud") r0 = some r := by
  induction recs with
  | nil => simp [cloud_worker_puts] at h
  | cons r0 rest ih =>
      rw [cloud_worker_puts] at h
      rcases he : enrichWith (originCom meta "cloud") r0 with _ | r2
      · simp only [he] at h
        simp at h
      · simp only [he] at h
        rcases List.mem_append.mp h with h1 | h1
        · simp at h1
          obtain ⟨a, _, _, hr⟩ := h1
          exact ⟨r0, by rw [he, hr]⟩
        · exact ih h1

theorem event_derived_puts_mem {meta : WorkerMeta} {nq : Nat}
    {ds : List Record} {q : Nat} {r : Record}
    (h : WEv.put q r ∈ event_derived_puts meta nq ds) :
    ∃ r0, enrichWith (originCom meta "event") r0 = some r := by
  induction ds with
  | nil => simp [event_derived_puts] at h
  | cons d rest ih =>
      rw [event_derived_puts] at h
      rcases he : enrichWith (originCom meta "event") d with _ | d2
      · simp only [he] at h
        simp at h
      · simp only [he] at h
        rcases List.mem_append.mp h with h1 | h1
        · simp at h1
          obtain ⟨a, _, _, hr⟩ := h1
          exact ⟨d, by rw [he, hr]⟩
        · exact ih h1

theorem event_worker_put_mem {meta : WorkerMeta} {eb : EvalBeh} {dOk : Bool}
    {nq : Nat} {q : Nat} {r : Record} :
    ∀ {i : Nat} {queue : List (Option Record)},
      WEv.put q r ∈ event_worker meta eb dOk nq i queue →
      ∃ r0, enrichWith (originCom meta "event") r0 = some r := by
  intro i queue
  induction queue generalizing i with
  | nil => intro h; simp [event_worker] at h
  | cons item rest ih =>
      intro h
      rcases item with _ | r1
      · rw [event_worker] at h
        simp at h
      · rw [event_worker] at h
        rcases List.mem_append.mp h with h1 | h1
        · exact event_derived_puts_mem h1
        · exact ih h1

/-- The sequence of `write` invocations a store/alert worker performs
for a run of good-`com` records: one invocation per record, in order,
with the enriched record; `wb` tells which invocations raise. -/
def writeEvs (meta : WorkerMeta) (wtype : String) (wb : Nat → Bool) :
    Nat → List Record → List WEv
  | _, [] => []
  | i, r :: rest =>
      WEv.write ((enrichWith (targetCom meta wtype) r).getD r) (wb i) ::
        writeEvs meta wtype wb (i + 1) rest

theorem goodCom_enrich (eng : Entries) {r : Record} (h : GoodCom r) :
    ∃ r2, enrichWith eng r = some r2 := by
  unfold GoodCom at h
  unfold enrichWith
  rcases hce : comEntries r with _ | ces
  · rw [hce] at h; exact Bool.noConfusion h
  · exact ⟨_, rfl⟩

/-- Full-trace equation for `workers._write_worker`: on a queue of
good-`com` records followed by the sentinel, the worker performs one
`write` invocation per record (regardless of earlier `write`
failures) and then exactly one `done` invocation; items after the
first sentinel are never dequeued. -/
theorem write_worker_trace_eq (meta : WorkerMeta) (wtype : String)
    (wb : Nat → Bool) (dOk : Bool) :
    ∀ (rs : List Record) (i : Nat) (rest : List (Option Record)),
      (∀ r ∈ rs, GoodCom r) →
      write_worker meta wtype wb dOk i (rs.map some ++ none :: rest) =
        writeEvs meta wtype wb i rs ++ [WEv.done dOk] := by
  intro rs
  induction rs with
  | nil =>
      intro i rest _
      rw [List.map_nil, List.nil_append, write_worker, writeEvs, List.nil_append]
  | cons r rs2 ih =>
      intro i rest hgood
      obtain ⟨r2, he⟩ := goodCom_enrich (targetCom meta wtype)
        (hgood r (by simp))
      rw [List.map_cons, List.cons_append, write_worker]
      simp only [he]
      rw [ih (i + 1) rest (fun x hx => hgood x (by simp [hx]))]
      rw [writeEvs]
      simp [he]

/-- The puts an event worker performs for `n` consecutive inputs
starting at input index `i`. -/
def eventSegs (meta : WorkerMeta) (nq : Nat) (eb : EvalBeh) :
    Nat → Nat → List WEv
  | _, 0 => []
  | i, n + 1 =>
      event_derived_puts meta nq (eb.derived i) ++ eventSegs meta nq eb (i + 1) n

/-- Full-trace equation for `workers.event_worker`: on a queue of
records followed by the sentinel, the worker processes each input in
isolation (an `eval` exception only cuts off that input's remaining
derived records) and then performs exactly one `done` invocation;
items after the first sentinel are never dequeued. -/
theorem event_worker_trace_eq (meta : WorkerMeta) (eb : EvalBeh)
    (dOk : Bool) (nq : Nat) :
    ∀ (rs : List Record) (i : Nat) (rest : List (Option Record)),
      event_worker meta eb dOk nq i (rs.map some ++ none :: rest) =
        eventSegs meta nq eb i rs.length ++ [WEv.done dOk] := by
  intro rs
  induction rs with
  | nil =>
      intro i rest
      rw [List.map_nil, List.nil_append, event_worker, List.length_nil, eventSegs, List.nil_append]
  | cons r rs2 ih =>
      intro i rest
      rw [List.map_cons, List.cons_append, event_worker]
      rw [ih (i + 1) rest]
      rw [List.length_cons, eventSegs]
      rw [List.append_assoc]

/-- Number of `done` invocations in a trace. -/
def doneCount (tr : List WEv) : Nat :=
  tr.countP (fun e => match e with | WEv.done _ => true | _ => false)

theorem doneCount_append (a b : List WEv) :
    doneCount (a ++ b) = doneCount a + doneCount b := by
  unfold doneCount
  exact List.countP_append _ _ _

theorem doneCount_writeEvs (meta : WorkerMeta) (wtype : String)
    (wb : Nat → Bool) : ∀ i rs, doneCount (writeEvs meta wtype wb i rs) = 0 := by
  intro i rs
  induction rs generalizing i with
  | nil => rw [writeEvs]; rfl
  | cons r rest ih =>
      rw [writeEvs]
      unfold doneCount at *
      rw [List.countP_cons]
      simp [ih]

theorem doneCount_event_derived_puts (meta : WorkerMeta) (nq : Nat) :
    ∀ ds, doneCount (event_derived_puts meta nq ds) = 0 := by
  intro ds
  induction ds with
  | nil => rw [event_derived_puts]; rfl
  | cons d rest ih =>
      rw [event_derived_puts]
      rcases he : enrichWith (originCom meta "event") d with _ | d2
      · rfl
      · rw [doneCount_append, ih]
        unfold doneCount
        simp [List.countP_map]

theorem doneCount_eventSegs (meta : WorkerMeta) (nq : Nat) (eb : EvalBeh) :
    ∀ n i, doneCount (eventSegs meta nq eb i n) = 0 := by
  intro n
  induction n with
  | zero => intro i; rw [eventSegs]; rfl
  | succ n ih =>
      intro i
      rw [eventSegs, doneCount_append, ih, doneCount_event_derived_puts]

theorem doneCount_cloud_worker_puts (meta : WorkerMeta) (nq : Nat) :
    ∀ recs, doneCount (cloud_worker_puts meta nq recs) = 0 := by
  intro recs
  induction recs with
  | nil => rw [cloud_worker_puts]; rfl
  | cons r rest ih =>
      rw [cloud_worker_puts]
      rcases he : enrichWith (originCom meta "cloud") r with _ | r2
      · rfl
      · rw [doneCount_append, ih]
        unfold doneCount
        simp [List.countP_map]

/-!
Transition-system model of `ioworkers.run`.  The process/thread
hierarchy collapses observationally to `P * T` worker threads sharing
one input and one output queue, which is how `run` itself counts
sentinels (`processes * threads`).  The main generator first starts
the workers, then enqueues every task the producer yields, then
`P * T` sentinels, then consumes the output queue; the worker threads
run concurrently with all of it.  Queues are modelled by their put
history plus a dequeue cursor (FIFO); each enqueue and dequeue is one
atomic step, and thread interleaving is arbitrary.  The task callback
is assumed (as in the claim) to return exactly `k` records per task
and not to raise.  The producer may raise at any point
(`prodCrash`), after which `run` propagates the exception: the
sentinel-enqueueing loop after the producer loop is skipped.
-/

/-- Items on the input queue of the I/O worker pool. -/
inductive IMsg where
  | task
  | sentinel
deriving DecidableEq, Repr

/-- Items on the output queue of the I/O worker pool. -/
inductive OMsg where
  | record
  | sentinel
deriving DecidableEq, Repr

/-- State of a worker thread of the pool. -/
inductive ThreadSt where
  | idle
  | working (m : Nat)
  | gotSentinel
  | exited
deriving DecidableEq, Repr

/-- Phase of the main generator of `ioworkers.run`. -/
inductive RPhase where
  | producing (remaining : Nat)
  | crashed
  | sentineling (remaining : Nat)
  | consuming
deriving DecidableEq, Repr

/-- Global state of the I/O worker pool model. -/
structure IOSys where
  phase : RPhase
  inQ : List IMsg
  taken : Nat
  threads : List ThreadSt
  outQ : List OMsg
  pos : Nat
  yielded : Nat
  stopped : Nat
  finished : Bool
deriving DecidableEq, Repr

/-- Initial state of `ioworkers.run`: the producer still has `N` tasks
to yield, both queues are empty and all `W` worker threads are idle. -/
def ioInit (N W : Nat) : IOSys :=
  { phase := RPhase.producing N, inQ := [], taken := 0,
    threads := List.replicate W ThreadSt.idle, outQ := [],
    pos := 0, yielded := 0, stopped := 0, finished := false }

/-- One step of the I/O worker pool.  `k` is the number of records the
task callback returns per task; `W = P * T` is the number of worker
threads. -/
inductive IOStep (k W : Nat) : IOSys → IOSys → Prop where
  | produce (s : IOSys) (n : Nat) (h : s.phase = RPhase.producing (n + 1)) :
      IOStep k W s { s with phase := RPhase.producing n,
                            inQ := s.inQ ++ [IMsg.task] }
  | prodCrash (s : IOSys) (n : Nat) (h : s.phase = RPhase.producing n) :
      IOStep k W s { s with phase := RPhase.crashed }
  | prodDone (s : IOSys) (h : s.phase = RPhase.producing 0) :
      IOStep k W s { s with phase := RPhase.sentineling W }
  | putSent (s : IOSys) (n : Nat) (h : s.phase = RPhase.sentineling (n + 1)) :
      IOStep k W s { s with phase := RPhase.sentineling n,
                            inQ := s.inQ ++ [IMsg.sentinel] }
  | sentDone (s : IOSys) (h : s.phase = RPhase.sentineling 0) :
      IOStep k W s { s with phase := RPhase.consuming }
  | threadGetTask (s : IOSys) (i : Nat)
      (hi : s.threads[i]? = some ThreadSt.idle)
      (hq : s.inQ[s.taken]? = some IMsg.task) :
      IOStep k W s { s with taken := s.taken + 1,
                            threads := s.threads.set i (ThreadSt.working k) }
  | threadGetSent (s : IOSys) (i : Nat)
      (hi : s.threads[i]? = some ThreadSt.idle)
      (hq : s.inQ[s.taken]? = some IMsg.sentinel) :
      IOStep k W s { s with taken := s.taken + 1,
                            threads := s.threads.set i ThreadSt.gotSentinel }
  | threadPut (s : IOSys) (i : Nat) (m : Nat)
      (hi : s.threads[i]? = some (ThreadSt.working (m + 1))) :
      IOStep k W s { s with outQ := s.outQ ++ [OMsg.record],
                            threads := s.threads.set i (ThreadSt.working m) }
  | threadTaskEnd (s : IOSys) (i : Nat)
      (hi : s.threads[i]? = some (ThreadSt.working 0)) :
      IOStep k W s { s with threads := s.threads.set i ThreadSt.idle }
  | threadPutSent (s : IOSys) (i : Nat)
      (hi : s.threads[i]? = some ThreadSt.gotSentinel) :
      IOStep k W s { s with outQ := s.outQ ++ [OMsg.sentinel],
                            threads := s.threads.set i ThreadSt.exited }
  | consumeRec (s : IOSys) (h : s.phase = RPhase.consuming)
      (hf : s.finished = false) (hq : s.outQ[s.pos]? = some OMsg.record) :
      IOStep k W s { s with pos := s.pos + 1, yielded := s.yielded + 1 }
  | consumeSentCont (s : IOSys) (h : s.phase = RPhase.consuming)
      (hf : s.finished = false) (hq : s.outQ[s.pos]? = some OMsg.sentinel)
      (hc : s.stopped + 1 ≠ W) :
      IOStep k W s { s with pos := s.pos + 1, stopped := s.stopped + 1 }
  | consumeSentLast (s : IOSys) (h : s.phase = RPhase.consuming)
      (hf : s.finished = false) (hq : s.outQ[s.pos]? = some OMsg.sentinel)
      (hc : s.stopped + 1 = W) :
      IOStep k W s { s with pos := s.pos + 1, stopped := s.stopped + 1,
                            finished := true }

/-- Reachability for the I/O worker pool model. -/
def IOReach (k W : Nat) : IOSys → IOSys → Prop :=
  Relation.ReflTransGen (IOStep k W)

/-- Records a thread still owes for its current task. -/
def pendOf : ThreadSt → Nat
  | ThreadSt.working m => m
  | _ => 0

/-- Indicator: thread has exited. -/
def exitedOf : ThreadSt → Nat
  | ThreadSt.exited => 1
  | _ => 0

/-- Indicator: thread holds a dequeued sentinel it has not yet passed
on. -/
def gotSentOf : ThreadSt → Nat
  | ThreadSt.gotSentinel => 1
  | _ => 0

/-- Count weight of an input item: tasks. -/
def taskWt : IMsg → Nat
  | IMsg.task => 1
  | IMsg.sentinel => 0

/-- Count weight of an input item: sentinels. -/
def isentWt : IMsg → Nat
  | IMsg.task => 0
  | IMsg.sentinel => 1

/-- Count weight of an output item: records. -/
def recWt : OMsg → Nat
  | OMsg.record => 1
  | OMsg.sentinel => 0

/-- Count weight of an output item: sentinels. -/
def osentWt : OMsg → Nat
  | OMsg.record => 0
  | OMsg.sentinel => 1

/-- Weighted count over a list. -/
def wcount {α : Type} (f : α → Nat) (l : List α) : Nat := (l.map f).sum

theorem wcount_append {α : Type} (f : α → Nat) (l1 l2 : List α) :
    wcount f (l1 ++ l2) = wcount f l1 + wcount f l2 := by
  simp [wcount]

theorem wcount_replicate {α : Type} (f : α → Nat) (n : Nat) (x : α) :
    wcount f (List.replicate n x) = n * f x := by
  induction n with
  | zero => simp [wcount]
  | succ n ih =>
      rw [List.replicate_succ]
      have hstep : wcount f (x :: List.replicate n x) =
          f x + wcount f (List.replicate n x) := by simp [wcount]
      rw [hstep, ih]
      ring

theorem wcount_le_length_mul {α : Type} (f : α → Nat) (l : List α)
    (hb : ∀ x, f x ≤ 1) : wcount f l ≤ l.length := by
  induction l with
  | nil => simp [wcount]
  | cons x rest ih =>
      simp [wcount] at *
      have := hb x
      omega

theorem wcount_take_succ {α : Type} (f : α → Nat) (l : List α) (n : Nat)
    {x : α} (h : l[n]? = some x) :
    wcount f (l.take (n + 1)) = wcount f (l.take n) + f x := by
  rw [List.take_succ, h]
  simp [wcount_append, wcount]

theorem wcount_set {α : Type} (f : α → Nat) (l : List α) (i : Nat)
    {x : α} (x' : α) (h : l[i]? = some x) :
    wcount f (l.set i x') + f x = wcount f l + f x' := by
  induction l generalizing i with
  | nil => simp at h
  | cons y rest ih =>
      cases i with
      | zero =>
          simp at h
          subst h
          simp [List.set, wcount]
          omega
      | succ j =>
          simp at h
          have := ih j h
          simp [List.set, wcount] at *
          omega

theorem wcount_take_le {α : Type} (f : α → Nat) (l : List α) (n : Nat) :
    wcount f (l.take n) ≤ wcount f l := by
  conv_rhs => rw [← List.take_append_drop n l]
  rw [wcount_append]
  omega

theorem take_append_le {α : Type} (l l2 : List α) (n : Nat)
    (h : n ≤ l.length) : (l ++ l2).take n = l.take n := by
  induction l generalizing n with
  | nil =>
      have : n = 0 := by simpa using h
      subst this
      simp
  | cons x rest ih =>
      cases n with
      | zero => simp
      | succ m =>
          simp at h
          simp [List.take_succ_cons, ih m h]

theorem getElemQ_lt {α : Type} {l : List α} {n : Nat} {x : α}
    (h : l[n]? = some x) : n < l.length := by
  by_contra h2
  push_neg at h2
  rw [List.getElem?_eq_none h2] at h
  exact Option.noConfusion h

theorem memQ_of_getElemQ {α : Type} {l : List α} {n : Nat} {x : α}
    (h : l[n]? = some x) : x ∈ l := by
  induction l generalizing n with
  | nil => simp at h
  | cons y rest ih =>
      cases n with
      | zero =>
          simp at h
          simp [h]
      | succ m =>
          simp at h
          exact List.mem_cons_of_mem _ (ih h)

theorem wcount_eq_length_all {α : Type} (f : α → Nat) (l : List α)
    (hb : ∀ x, f x ≤ 1) (h : wcount f l = l.length) :
    ∀ x ∈ l, f x = 1 := by
  induction l with
  | nil => simp
  | cons y rest ih =>
      have hy := hb y
      have hrest := wcount_le_length_mul f rest hb
      have hcons : wcount f (y :: rest) = f y + wcount f rest := by
        simp [wcount]
      rw [hcons, List.length_cons] at h
      intro x hx
      rcases List.mem_cons.mp hx with hx | hx
      · subst hx
        omega
      · exact ih (by omega) x hx

/-- Tasks among the dequeued prefix of the input queue. -/
def takenTasks (s : IOSys) : Nat := wcount taskWt (s.inQ.take s.taken)

/-- Sentinels among the dequeued prefix of the input queue. -/
def takenSents (s : IOSys) : Nat := wcount isentWt (s.inQ.take s.taken)

/-- Inductive invariant of the I/O worker pool model. -/
structure IOInv (N k W : Nat) (s : IOSys) : Prop where
  hlen : s.threads.length = W
  htaken : s.taken ≤ s.inQ.length
  hprod : ∀ n, s.phase = RPhase.producing n →
    n ≤ N ∧ s.inQ = List.replicate (N - n) IMsg.task
  hcrash : s.phase = RPhase.crashed →
    ∃ d, d ≤ N ∧ s.inQ = List.replicate d IMsg.task
  hsent : ∀ m, s.phase = RPhase.sentineling m →
    m ≤ W ∧ s.inQ = List.replicate N IMsg.task ++
      List.replicate (W - m) IMsg.sentinel
  hcons : s.phase = RPhase.consuming →
    s.inQ = List.replicate N IMsg.task ++ List.replicate W IMsg.sentinel
  hrecbal : wcount recWt s.outQ + wcount pendOf s.threads = k * takenTasks s
  hsentbal : wcount osentWt s.outQ = wcount exitedOf s.threads
  hsentbal2 : takenSents s =
    wcount gotSentOf s.threads + wcount exitedOf s.threads
  hpos : s.pos ≤ s.outQ.length
  hyield : s.yielded = wcount recWt (s.outQ.take s.pos)
  hstop : s.stopped = wcount osentWt (s.outQ.take s.pos)
  hfin : s.finished = true → s.stopped = W ∧ s.phase = RPhase.consuming
  hlast : wcount exitedOf s.threads = W → 1 ≤ W →
    s.outQ.getLast? = some OMsg.sentinel

theorem wcount_snoc {α : Type} (f : α → Nat) (l : List α) (x : α) :
    wcount f (l ++ [x]) = wcount f l + f x := by
  rw [wcount_append]
  simp [wcount]

theorem ioInv_init (N k W : Nat) : IOInv N k W (ioInit N W) := by
  refine ⟨?_, ?_, ?_, ?_, ?_, ?_, ?_, ?_, ?_, ?_, ?_, ?_, ?_, ?_⟩
  · simp [ioInit]
  · exact Nat.le_refl 0
  · intro n hn
    simp [ioInit] at hn
    subst hn
    simp [ioInit]
  · intro hc; simp [ioInit] at hc
  · intro m hm; simp [ioInit] at hm
  · intro hc; simp [ioInit] at hc
  · show wcount recWt [] + wcount pendOf (List.replicate W ThreadSt.idle) =
      k * takenTasks (ioInit N W)
    rw [wcount_replicate]
    simp [wcount, takenTasks, ioInit, pendOf]
  · show wcount osentWt [] = wcount exitedOf (List.replicate W ThreadSt.idle)
    rw [wcount_replicate]
    simp [wcount, exitedOf]
  · show takenSents (ioInit N W) = wcount gotSentOf (List.replicate W ThreadSt.idle) +
      wcount exitedOf (List.replicate W ThreadSt.idle)
    rw [wcount_replicate, wcount_replicate]
    simp [takenSents, ioInit, wcount, gotSentOf, exitedOf]
  · exact Nat.le_refl 0
  · rfl
  · rfl
  · intro hc; simp [ioInit] at hc
  · intro hx h1
    exfalso
    rw [show (ioInit N W).threads = List.replicate W ThreadSt.idle from rfl,
      wcount_replicate] at hx
    simp [exitedOf] at hx
    omega

theorem ioInv_step {N k W : Nat} {s s' : IOSys}
    (inv : IOInv N k W s) (st : IOStep k W s s') : IOInv N k W s' := by
  obtain ⟨hlen, htaken, hprod, hcrash, hsent, hcons, hrecbal, hsentbal,
    hsentbal2, hpos, hyield, hstop, hfin, hlast⟩ := inv
  cases st with
  | produce n h =>
      obtain ⟨hn, hq⟩ := hprod (n + 1) h
      have htk : (s.inQ ++ [IMsg.task]).take s.taken = s.inQ.take s.taken :=
        take_append_le _ _ _ htaken
      refine ⟨hlen, by simp; omega, ?_, ?_, ?_, ?_, ?_, hsentbal, ?_, hpos,
        hyield, hstop, ?_, hlast⟩
      · intro n2 hn2
        simp at hn2
        subst hn2
        constructor
        · omega
        · rw [hq]
          have he : N - n = (N - (n + 1)) + 1 := by omega
          rw [he, List.replicate_succ']
      · intro hc; simp at hc
      · intro m hm; simp at hm
      · intro hc; simp at hc
      · simpa [takenTasks, htk] using hrecbal
      · simpa [takenSents, htk] using hsentbal2
      · intro hf
        obtain ⟨h1, h2⟩ := hfin hf
        rw [h] at h2
        exact absurd h2 (by simp)
  | prodCrash n h =>
      obtain ⟨hn, hq⟩ := hprod n h
      refine ⟨hlen, htaken, ?_, ?_, ?_, ?_, hrecbal, hsentbal, hsentbal2,
        hpos, hyield, hstop, ?_, hlast⟩
      · intro n2 hn2; simp at hn2
      · intro _
        exact ⟨N - n, by omega, hq⟩
      · intro m hm; simp at hm
      · intro hc; simp at hc
      · intro hf
        obtain ⟨h1, h2⟩ := hfin hf
        rw [h] at h2
        exact absurd h2 (by simp)
  | prodDone h =>
      obtain ⟨hn, hq⟩ := hprod 0 h
      refine ⟨hlen, htaken, ?_, ?_, ?_, ?_, hrecbal, hsentbal, hsentbal2,
        hpos, hyield, hstop, ?_, hlast⟩
      · intro n2 hn2; simp at hn2
      · intro hc; simp at hc
      · intro m hm
        simp at hm
        subst hm
        constructor
        · exact le_refl W
        · rw [hq]
          simp
      · intro hc; simp at hc
      · intro hf
        obtain ⟨h1, h2⟩ := hfin hf
        rw [h] at h2
        exact absurd h2 (by simp)
  | putSent n h =>
      obtain ⟨hn, hq⟩ := hsent (n + 1) h
      have htk : (s.inQ ++ [IMsg.sentinel]).take s.taken = s.inQ.take s.taken :=
        take_append_le _ _ _ htaken
      refine ⟨hlen, by simp; omega, ?_, ?_, ?_, ?_, ?_, hsentbal, ?_, hpos,
        hyield, hstop, ?_, hlast⟩
      · intro n2 hn2; simp at hn2
      · intro hc; simp at hc
      · intro m hm
        simp at hm
        subst hm
        constructor
        · omega
        · rw [hq, List.append_assoc]
          have he : W - n = (W - (n + 1)) + 1 := by omega
          rw [he, List.replicate_succ']
      · intro hc; simp at hc
      · simpa [takenTasks, htk] using hrecbal
      · simpa [takenSents, htk] using hsentbal2
      · intro hf
        obtain ⟨h1, h2⟩ := hfin hf
        rw [h] at h2
        exact absurd h2 (by simp)
  | sentDone h =>
      obtain ⟨hn, hq⟩ := hsent 0 h
      refine ⟨hlen, htaken, ?_, ?_, ?_, ?_, hrecbal, hsentbal, hsentbal2,
        hpos, hyield, hstop, ?_, hlast⟩
      · intro n2 hn2; simp at hn2
      · intro hc; simp at hc
      · intro m hm; simp at hm
      · intro _
        rw [hq]
        simp
      · intro hf
        obtain ⟨h1, h2⟩ := hfin hf
        rw [h] at h2
        exact absurd h2 (by simp)
  | threadGetTask i hi hq =>
      have hlt : s.taken < s.inQ.length := getElemQ_lt hq
      have htt := wcount_take_succ taskWt s.inQ s.taken hq
      have hts := wcount_take_succ isentWt s.inQ s.taken hq
      have hpend := wcount_set pendOf s.threads i (ThreadSt.working k) hi
      have hexit := wcount_set exitedOf s.threads i (ThreadSt.working k) hi
      have hgot := wcount_set gotSentOf s.threads i (ThreadSt.working k) hi
      rw [show pendOf ThreadSt.idle = 0 from rfl,
        show pendOf (ThreadSt.working k) = k from rfl] at hpend
      rw [show exitedOf ThreadSt.idle = 0 from rfl,
        show exitedOf (ThreadSt.working k) = 0 from rfl] at hexit
      rw [show gotSentOf ThreadSt.idle = 0 from rfl,
        show gotSentOf (ThreadSt.working k) = 0 from rfl] at hgot
      rw [show taskWt IMsg.task = 1 from rfl] at htt
      rw [show isentWt IMsg.task = 0 from rfl] at hts
      refine ⟨by simp [hlen], by simp; omega, ?_, ?_, ?_, ?_, ?_, ?_, ?_,
        hpos, hyield, hstop, ?_, ?_⟩
      · intro n hn; simp at hn; exact hprod n hn
      · intro hc; simp at hc; exact hcrash hc
      · intro m hm; simp at hm; exact hsent m hm
      · intro hc; simp at hc; exact hcons hc
      · show wcount recWt s.outQ +
          wcount pendOf (s.threads.set i (ThreadSt.working k)) =
          k * wcount taskWt (s.inQ.take (s.taken + 1))
        rw [htt]
        rw [takenTasks] at hrecbal
        have hmul : k * (wcount taskWt (s.inQ.take s.taken) + 1) =
            k * wcount taskWt (s.inQ.take s.taken) + k := by ring
        rw [hmul]
        omega
      · show wcount osentWt s.outQ =
          wcount exitedOf (s.threads.set i (ThreadSt.working k))
        omega
      · show wcount isentWt (s.inQ.take (s.taken + 1)) =
          wcount gotSentOf (s.threads.set i (ThreadSt.working k)) +
          wcount exitedOf (s.threads.set i (ThreadSt.working k))
        rw [takenSents] at hsentbal2
        omega
      · intro hf
        obtain ⟨h1, h2⟩ := hfin hf
        exact ⟨h1, by simp [h2]⟩
      · intro hx h1
        apply hlast ?_ h1
        simp at hx
        omega
  | threadGetSent i hi hq =>
      have hlt : s.taken < s.inQ.length := getElemQ_lt hq
      have htt := wcount_take_succ taskWt s.inQ s.taken hq
      have hts := wcount_take_succ isentWt s.inQ s.taken hq
      have hpend := wcount_set pendOf s.threads i ThreadSt.gotSentinel hi
      have hexit := wcount_set exitedOf s.threads i ThreadSt.gotSentinel hi
      have hgot := wcount_set gotSentOf s.threads i ThreadSt.gotSentinel hi
      rw [show pendOf ThreadSt.idle = 0 from rfl,
        show pendOf ThreadSt.gotSentinel = 0 from rfl] at hpend
      rw [show exitedOf ThreadSt.idle = 0 from rfl,
        show exitedOf ThreadSt.gotSentinel = 0 from rfl] at hexit
      rw [show gotSentOf ThreadSt.idle = 0 from rfl,
        show gotSentOf ThreadSt.gotSentinel = 1 from rfl] at hgot
      rw [show taskWt IMsg.sentinel = 0 from rfl, Nat.add_zero] at htt
      rw [show isentWt IMsg.sentinel = 1 from rfl] at hts
      refine ⟨by simp [hlen], by simp; omega, ?_, ?_, ?_, ?_, ?_, ?_, ?_,
        hpos, hyield, hstop, ?_, ?_⟩
      · intro n hn; simp at hn; exact hprod n hn
      · intro hc; simp at hc; exact hcrash hc
      · intro m hm; simp at hm; exact hsent m hm
      · intro hc; simp at hc; exact hcons hc
      · show wcount recWt s.outQ +
          wcount pendOf (s.threads.set i ThreadSt.gotSentinel) =
          k * wcount taskWt (s.inQ.take (s.taken + 1))
        rw [htt]
        rw [takenTasks] at hrecbal
        have hclean : k * (wcount taskWt (s.inQ.take s.taken) + 0) =
            k * wcount taskWt (s.inQ.take s.taken) := by ring
        rw [hclean]
        omega
      · show wcount osentWt s.outQ =
          wcount exitedOf (s.threads.set i ThreadSt.gotSentinel)
        omega
      · show wcount isentWt (s.inQ.take (s.taken + 1)) =
          wcount gotSentOf (s.threads.set i ThreadSt.gotSentinel) +
          wcount exitedOf (s.threads.set i ThreadSt.gotSentinel)
        rw [takenSents] at hsentbal2
        omega
      · intro hf
        obtain ⟨h1, h2⟩ := hfin hf
        exact ⟨h1, by simp [h2]⟩
      · intro hx h1
        apply hlast ?_ h1
        simp at hx
        omega
  | threadPut i m hi =>
      have hpend := wcount_set pendOf s.threads i (ThreadSt.working m) hi
      have hexit := wcount_set exitedOf s.threads i (ThreadSt.working m) hi
      have hgot := wcount_set gotSentOf s.threads i (ThreadSt.working m) hi
      rw [show pendOf (ThreadSt.working (m + 1)) = m + 1 from rfl,
        show pendOf (ThreadSt.working m) = m from rfl] at hpend
      rw [show exitedOf (ThreadSt.working (m + 1)) = 0 from rfl,
        show exitedOf (ThreadSt.working m) = 0 from rfl] at hexit
      rw [show gotSentOf (ThreadSt.working (m + 1)) = 0 from rfl,
        show gotSentOf (ThreadSt.working m) = 0 from rfl] at hgot
      have hrec := wcount_snoc recWt s.outQ OMsg.record
      have hosent := wcount_snoc osentWt s.outQ OMsg.record
      rw [show recWt OMsg.record = 1 from rfl] at hrec
      rw [show osentWt OMsg.record = 0 from rfl] at hosent
      have htk : (s.outQ ++ [OMsg.record]).take s.pos = s.outQ.take s.pos :=
        take_append_le _ _ _ hpos
      refine ⟨by simp [hlen], htaken, ?_, ?_, ?_, ?_, ?_, ?_, ?_,
        by simp; omega, ?_, ?_, ?_, ?_⟩
      · intro n hn; simp at hn; exact hprod n hn
      · intro hc; simp at hc; exact hcrash hc
      · intro m2 hm; simp at hm; exact hsent m2 hm
      · intro hc; simp at hc; exact hcons hc
      · show wcount recWt (s.outQ ++ [OMsg.record]) +
          wcount pendOf (s.threads.set i (ThreadSt.working m)) =
          k * takenTasks s
        rw [takenTasks] at hrecbal ⊢
        omega
      · show wcount osentWt (s.outQ ++ [OMsg.record]) =
          wcount exitedOf (s.threads.set i (ThreadSt.working m))
        omega
      · show takenSents s =
          wcount gotSentOf (s.threads.set i (ThreadSt.working m)) +
          wcount exitedOf (s.threads.set i (ThreadSt.working m))
        rw [takenSents] at hsentbal2 ⊢
        omega
      · show s.yielded = wcount recWt ((s.outQ ++ [OMsg.record]).take s.pos)
        rw [htk]
        exact hyield
      · show s.stopped = wcount osentWt ((s.outQ ++ [OMsg.record]).take s.pos)
        rw [htk]
        exact hstop
      · intro hf
        obtain ⟨h1, h2⟩ := hfin hf
        exact ⟨h1, by simp [h2]⟩
      · intro hx h1
        exfalso
        simp at hx
        have hx2 : wcount exitedOf s.threads = W := by omega
        have hall := wcount_eq_length_all exitedOf s.threads
          (by intro x; cases x <;> simp [exitedOf]) (by rw [hx2, hlen])
        have hmem := memQ_of_getElemQ hi
        have := hall _ hmem
        rw [show exitedOf (ThreadSt.working (m + 1)) = 0 from rfl] at this
        exact Nat.noConfusion this
  | threadTaskEnd i hi =>
      have hpend := wcount_set pendOf s.threads i ThreadSt.idle hi
      have hexit := wcount_set exitedOf s.threads i ThreadSt.idle hi
      have hgot := wcount_set gotSentOf s.threads i ThreadSt.idle hi
      rw [show pendOf (ThreadSt.working 0) = 0 from rfl,
        show pendOf ThreadSt.idle = 0 from rfl] at hpend
      rw [show exitedOf (ThreadSt.working 0) = 0 from rfl,
        show exitedOf ThreadSt.idle = 0 from rfl] at hexit
      rw [show gotSentOf (ThreadSt.working 0) = 0 from rfl,
        show gotSentOf ThreadSt.idle = 0 from rfl] at hgot
      refine ⟨by simp [hlen], htaken, ?_, ?_, ?_, ?_, ?_, ?_, ?_,
        hpos, hyield, hstop, ?_, ?_⟩
      · intro n hn; simp at hn; exact hprod n hn
      · intro hc; simp at hc; exact hcrash hc
      · intro m2 hm; simp at hm; exact hsent m2 hm
      · intro hc; simp at hc; exact hcons hc
      · show wcount recWt s.outQ +
          wcount pendOf (s.threads.set i ThreadSt.idle) = k * takenTasks s
        rw [takenTasks] at hrecbal ⊢
        omega
      · show wcount osentWt s.outQ =
          wcount exitedOf (s.threads.set i ThreadSt.idle)
        omega
      · show takenSents s = wcount gotSentOf (s.threads.set i ThreadSt.idle) +
          wcount exitedOf (s.threads.set i ThreadSt.idle)
        rw [takenSents] at hsentbal2 ⊢
        omega
      · intro hf
        obtain ⟨h1, h2⟩ := hfin hf
        exact ⟨h1, by simp [h2]⟩
      · intro hx h1
        apply hlast ?_ h1
        simp at hx
        omega
  | threadPutSent i hi =>
      have hpend := wcount_set pendOf s.threads i ThreadSt.exited hi
      have hexit := wcount_set exitedOf s.threads i ThreadSt.exited hi
      have hgot := wcount_set gotSentOf s.threads i ThreadSt.exited hi
      rw [show pendOf ThreadSt.gotSentinel = 0 from rfl,
        show pendOf ThreadSt.exited = 0 from rfl] at hpend
      rw [show exitedOf ThreadSt.gotSentinel = 0 from rfl,
        show exitedOf ThreadSt.exited = 1 from rfl] at hexit
      rw [show gotSentOf ThreadSt.gotSentinel = 1 from rfl,
        show gotSentOf ThreadSt.exited = 0 from rfl] at hgot
      have hrec := wcount_snoc recWt s.outQ OMsg.sentinel
      have hosent := wcount_snoc osentWt s.outQ OMsg.sentinel
      rw [show recWt OMsg.sentinel = 0 from rfl] at hrec
      rw [show osentWt OMsg.sentinel = 1 from rfl] at hosent
      have htk : (s.outQ ++ [OMsg.sentinel]).take s.pos = s.outQ.take s.pos :=
        take_append_le _ _ _ hpos
      refine ⟨by simp [hlen], htaken, ?_, ?_, ?_, ?_, ?_, ?_, ?_,
        by simp; omega, ?_, ?_, ?_, ?_⟩
      · intro n hn; simp at hn; exact hprod n hn
      · intro hc; simp at hc; exact hcrash hc
      · intro m2 hm; simp at hm; exact hsent m2 hm
      · intro hc; simp at hc; exact hcons hc
      · show wcount recWt (s.outQ ++ [OMsg.sentinel]) +
          wcount pendOf (s.threads.set i ThreadSt.exited) = k * takenTasks s
        rw [takenTasks] at hrecbal ⊢
        omega
      · show wcount osentWt (s.outQ ++ [OMsg.sentinel]) =
          wcount exitedOf (s.threads.set i ThreadSt.exited)
        omega
      · show takenSents s =
          wcount gotSentOf (s.threads.set i ThreadSt.exited) +
          wcount exitedOf (s.threads.set i ThreadSt.exited)
        rw [takenSents] at hsentbal2 ⊢
        omega
      · show s.yielded = wcount recWt ((s.outQ ++ [OMsg.sentinel]).take s.pos)
        rw [htk]
        exact hyield
      · show s.stopped = wcount osentWt ((s.outQ ++ [OMsg.sentinel]).take s.pos)
        rw [htk]
        exact hstop
      · intro hf
        obtain ⟨h1, h2⟩ := hfin hf
        exact ⟨h1, by simp [h2]⟩
      · intro _ _
        simp
  | consumeRec h hf hq =>
      have hlt : s.pos < s.outQ.length := getElemQ_lt hq
      have hty := wcount_take_succ recWt s.outQ s.pos hq
      have hts := wcount_take_succ osentWt s.outQ s.pos hq
      rw [show recWt OMsg.record = 1 from rfl] at hty
      rw [show osentWt OMsg.record = 0 from rfl] at hts
      refine ⟨hlen, htaken, ?_, ?_, ?_, ?_, hrecbal, hsentbal, hsentbal2,
        by simp; omega, ?_, ?_, ?_, hlast⟩
      · intro n hn; simp at hn; exact hprod n hn
      · intro hc; simp at hc; exact hcrash hc
      · intro m2 hm; simp at hm; exact hsent m2 hm
      · intro hc; simp at hc; exact hcons hc
      · show s.yielded + 1 = wcount recWt (s.outQ.take (s.pos + 1))
        omega
      · show s.stopped = wcount osentWt (s.outQ.take (s.pos + 1))
        omega
      · intro hfin2
        simp at hfin2
        obtain ⟨h1, h2⟩ := hfin hfin2
        exact ⟨h1, by simp [h2]⟩
  | consumeSentCont h hf hq hc =>
      have hlt : s.pos < s.outQ.length := getElemQ_lt hq
      have hty := wcount_take_succ recWt s.outQ s.pos hq
      have hts := wcount_take_succ osentWt s.outQ s.pos hq
      rw [show recWt OMsg.sentinel = 0 from rfl] at hty
      rw [show osentWt OMsg.sentinel = 1 from rfl] at hts
      refine ⟨hlen, htaken, ?_, ?_, ?_, ?_, hrecbal, hsentbal, hsentbal2,
        by simp; omega, ?_, ?_, ?_, hlast⟩
      · intro n hn; simp at hn; exact hprod n hn
      · intro hc2; simp at hc2; exact hcrash hc2
      · intro m2 hm; simp at hm; exact hsent m2 hm
      · intro hc2; simp at hc2; exact hcons hc2
      · show s.yielded = wcount recWt (s.outQ.take (s.pos + 1))
        omega
      · show s.stopped + 1 = wcount osentWt (s.outQ.take (s.pos + 1))
        omega
      · intro hfin2
        simp at hfin2
        rw [hf] at hfin2
        exact Bool.noConfusion hfin2
  | consumeSentLast h hf hq hc =>
      have hlt : s.pos < s.outQ.length := getElemQ_lt hq
      have hty := wcount_take_succ recWt s.outQ s.pos hq
      have hts := wcount_take_succ osentWt s.outQ s.pos hq
      rw [show recWt OMsg.sentinel = 0 from rfl] at hty
      rw [show osentWt OMsg.sentinel = 1 from rfl] at hts
      refine ⟨hlen, htaken, ?_, ?_, ?_, ?_, hrecbal, hsentbal, hsentbal2,
        by simp; omega, ?_, ?_, ?_, hlast⟩
      · intro n hn; simp at hn; exact hprod n hn
      · intro hc2; simp at hc2; exact hcrash hc2
      · intro m2 hm; simp at hm; exact hsent m2 hm
      · intro hc2; simp at hc2; exact hcons hc2
      · show s.yielded = wcount recWt (s.outQ.take (s.pos + 1))
        omega
      · show s.stopped + 1 = wcount osentWt (s.outQ.take (s.pos + 1))
        omega
      · intro _
        exact ⟨hc, h⟩

theorem ioInv_reach {N k W : Nat} {s : IOSys}
    (hr : IOReach k W (ioInit N W) s) : IOInv N k W s := by
  induction hr with
  | refl => exact ioInv_init N k W
  | tail _ hstep ih => exact ioInv_step ih hstep

theorem mem_wcount_le {α : Type} (f : α → Nat) {l : List α} {x : α}
    (h : x ∈ l) : f x ≤ wcount f l := by
  induction l with
  | nil => simp at h
  | cons y rest ih =>
      have hc : wcount f (y :: rest) = f y + wcount f rest := by simp [wcount]
      rw [hc]
      rcases List.mem_cons.mp h with h1 | h1
      · subst h1; omega
      · have := ih h1; omega

theorem wcount_zero_of_all {α : Type} (f : α → Nat) {l : List α}
    (h : ∀ x ∈ l, f x = 0) : wcount f l = 0 := by
  induction l with
  | nil => rfl
  | cons y rest ih =>
      have hc : wcount f (y :: rest) = f y + wcount f rest := by simp [wcount]
      rw [hc, h y (by simp), ih (fun x hx => h x (by simp [hx]))]

theorem getLast_mem_drop {α : Type} {l : List α} {x : α}
    (h : l.getLast? = some x) {n : Nat} (hn : n < l.length) :
    x ∈ l.drop n := by
  have h1 : l[l.length - 1]? = some x := by
    rw [List.getLast?_eq_getElem?] at h
    exact h
  have h2 : (l.drop n)[l.length - 1 - n]? = some x := by
    rw [List.getElem?_drop]
    have he : n + (l.length - 1 - n) = l.length - 1 := by omega
    rw [he]
    exact h1
  exact memQ_of_getElemQ h2

theorem exited_of_indicator {x : ThreadSt} (h : exitedOf x = 1) :
    x = ThreadSt.exited := by
  cases x with
  | idle => simp [exitedOf] at h
  | working m => simp [exitedOf] at h
  | gotSentinel => simp [exitedOf] at h
  | exited => rfl

/-- C2: end-to-end counts for `ioworkers.run` with `P, T >= 1`, a
producer yielding `N` tasks and a task callback returning `k` records
per task: in any reachable state in which the output consumer has
terminated, the caller has been yielded exactly `N * k` records; the
input queue received the `N` tasks followed by exactly `P * T`
sentinels enqueued after the producer was exhausted; every worker
thread dequeued one sentinel, enqueued exactly one output sentinel and
exited, so the output queue holds exactly `P * T` sentinels, all of
which the consumer observed and none of which were yielded; and the
consumer drained the entire output queue. -/
theorem c2_io_pool_counts {P T N k : Nat} (hP : 1 ≤ P) (hT : 1 ≤ T) {s : IOSys}
    (hr : IOReach k (P * T) (ioInit N (P * T)) s)
    (hfin : s.finished = true) :
    s.yielded = N * k ∧
    s.inQ = List.replicate N IMsg.task ++ List.replicate (P * T) IMsg.sentinel ∧
    wcount osentWt s.outQ = P * T ∧
    s.stopped = P * T ∧
    wcount exitedOf s.threads = P * T ∧
    s.pos = s.outQ.length ∧
    wcount recWt s.outQ = N * k := by
  have hW : 1 ≤ P * T := Nat.one_le_iff_ne_zero.mpr (by positivity)
  have inv := ioInv_reach hr
  obtain ⟨hstopW, hphase⟩ := inv.hfin hfin
  have hinQ := inv.hcons hphase
  -- the consumer saw P * T output sentinels, so all threads exited
  have hchain1 : wcount osentWt (s.outQ.take s.pos) ≤ wcount osentWt s.outQ :=
    wcount_take_le _ _ _
  have hchain2 : wcount exitedOf s.threads ≤ s.threads.length :=
    wcount_le_length_mul _ _ (by intro x; cases x <;> simp [exitedOf])
  have hexited : wcount exitedOf s.threads = P * T := by
    have h1 := inv.hstop
    have h2 := inv.hsentbal
    have h3 := inv.hlen
    omega
  have hosent : wcount osentWt s.outQ = P * T := by
    have h2 := inv.hsentbal
    omega
  have hall : ∀ x ∈ s.threads, x = ThreadSt.exited := by
    intro x hx
    exact exited_of_indicator
      (wcount_eq_length_all exitedOf s.threads
        (by intro y; cases y <;> simp [exitedOf])
        (by rw [hexited, inv.hlen]) x hx)
  have hpend : wcount pendOf s.threads = 0 :=
    wcount_zero_of_all _ (fun x hx => by rw [hall x hx]; rfl)
  have hgot : wcount gotSentOf s.threads = 0 :=
    wcount_zero_of_all _ (fun x hx => by rw [hall x hx]; rfl)
  -- all input items were dequeued
  have hlenQ : s.inQ.length = N + P * T := by
    rw [hinQ]
    simp
  have htksents : takenSents s = min (s.taken - N) (P * T) := by
    rw [takenSents, hinQ, List.take_append_eq_append_take, wcount_append]
    rw [List.take_replicate, List.take_replicate]
    rw [wcount_replicate, wcount_replicate]
    rw [List.length_replicate]
    rw [show isentWt IMsg.task = 0 from rfl, show isentWt IMsg.sentinel = 1 from rfl]
    omega
  have htaken : s.taken = N + P * T := by
    have h1 := inv.hsentbal2
    have h2 := inv.htaken
    rw [htksents] at h1
    rw [hlenQ] at h2
    omega
  have htktasks : takenTasks s = N := by
    rw [takenTasks, hinQ, List.take_append_eq_append_take, wcount_append]
    rw [List.take_replicate, List.take_replicate]
    rw [wcount_replicate, wcount_replicate]
    rw [List.length_replicate]
    rw [show taskWt IMsg.task = 1 from rfl, show taskWt IMsg.sentinel = 0 from rfl]
    rw [htaken]
    omega
  have hrec : wcount recWt s.outQ = N * k := by
    have h1 := inv.hrecbal
    rw [htktasks] at h1
    have : k * N = N * k := Nat.mul_comm k N
    omega
  -- the consumer drained the whole output queue
  have hlast := inv.hlast hexited hW
  have hposfull : s.pos = s.outQ.length := by
    by_contra hne
    have hlt : s.pos < s.outQ.length := lt_of_le_of_ne inv.hpos hne
    have hmem : OMsg.sentinel ∈ s.outQ.drop s.pos := getLast_mem_drop hlast hlt
    have hge : 1 ≤ wcount osentWt (s.outQ.drop s.pos) := by
      have := mem_wcount_le osentWt hmem
      simpa using this
    have hsplit : wcount osentWt s.outQ =
        wcount osentWt (s.outQ.take s.pos) + wcount osentWt (s.outQ.drop s.pos) := by
      conv_lhs => rw [← List.take_append_drop s.pos s.outQ]
      rw [wcount_append]
    have h1 := inv.hstop
    omega
  have hyieldN : s.yielded = N * k := by
    have h1 := inv.hyield
    rw [hposfull, List.take_length] at h1
    omega
  exact ⟨hyieldN, hinQ, hosent, hstopW, hexited, hposfull, hrec⟩

/-- A reachable state in which the producer has raised: no sentinel
was or ever will be enqueued, no thread exits, and the consumer never
terminates. -/
def CrashState (s : IOSys) : Prop :=
  s.phase = RPhase.crashed ∧ wcount isentWt s.inQ = 0 ∧
  wcount gotSentOf s.threads = 0 ∧ wcount exitedOf s.threads = 0 ∧
  s.finished = false

theorem crashState_of_inv {N k W : Nat} {s : IOSys} (inv : IOInv N k W s)
    (hc : s.phase = RPhase.crashed) : CrashState s := by
  obtain ⟨d, hd, hq⟩ := inv.hcrash hc
  have hisent : wcount isentWt s.inQ = 0 := by
    rw [hq, wcount_replicate]
    rfl
  have htksent : takenSents s = 0 := by
    have h1 : takenSents s ≤ wcount isentWt s.inQ := wcount_take_le _ _ _
    omega
  have h2 := inv.hsentbal2
  have hfin : s.finished = false := by
    cases hx : s.finished with
    | false => rfl
    | true =>
        obtain ⟨_, hph⟩ := inv.hfin hx
        rw [hc] at hph
        exact absurd hph (by simp)
  exact ⟨hc, hisent, by omega, by omega, hfin⟩

theorem crashState_step {k W : Nat} {s s' : IOSys} (hcs : CrashState s)
    (st : IOStep k W s s') : CrashState s' := by
  obtain ⟨hph, hisent, hgot, hexit, hfin⟩ := hcs
  cases st with
  | produce n h => rw [hph] at h; exact absurd h (by simp)
  | prodCrash n h => rw [hph] at h; exact absurd h (by simp)
  | prodDone h => rw [hph] at h; exact absurd h (by simp)
  | putSent n h => rw [hph] at h; exact absurd h (by simp)
  | sentDone h => rw [hph] at h; exact absurd h (by simp)
  | threadGetTask i hi hq =>
      have he := wcount_set exitedOf s.threads i (ThreadSt.working k) hi
      have hg := wcount_set gotSentOf s.threads i (ThreadSt.working k) hi
      rw [show exitedOf ThreadSt.idle = 0 from rfl,
        show exitedOf (ThreadSt.working k) = 0 from rfl] at he
      rw [show gotSentOf ThreadSt.idle = 0 from rfl,
        show gotSentOf (ThreadSt.working k) = 0 from rfl] at hg
      refine ⟨hph, hisent, ?_, ?_, hfin⟩
      · show wcount gotSentOf (s.threads.set i (ThreadSt.working k)) = 0
        omega
      · show wcount exitedOf (s.threads.set i (ThreadSt.working k)) = 0
        omega
  | threadGetSent i hi hq =>
      exfalso
      have hmem := memQ_of_getElemQ hq
      have := mem_wcount_le isentWt hmem
      rw [hisent] at this
      simp [isentWt] at this
  | threadPut i m hi =>
      have he := wcount_set exitedOf s.threads i (ThreadSt.working m) hi
      have hg := wcount_set gotSentOf s.threads i (ThreadSt.working m) hi
      rw [show exitedOf (ThreadSt.working (m + 1)) = 0 from rfl,
        show exitedOf (ThreadSt.working m) = 0 from rfl] at he
      rw [show gotSentOf (ThreadSt.working (m + 1)) = 0 from rfl,
        show gotSentOf (ThreadSt.working m) = 0 from rfl] at hg
      refine ⟨hph, hisent, ?_, ?_, hfin⟩
      · show wcount gotSentOf (s.threads.set i (ThreadSt.working m)) = 0
        omega
      · show wcount exitedOf (s.threads.set i (ThreadSt.working m)) = 0
        omega
  | threadTaskEnd i hi =>
      have he := wcount_set exitedOf s.threads i ThreadSt.idle hi
      have hg := wcount_set gotSentOf s.threads i ThreadSt.idle hi
      rw [show exitedOf (ThreadSt.working 0) = 0 from rfl,
        show exitedOf ThreadSt.idle = 0 from rfl] at he
      rw [show gotSentOf (ThreadSt.working 0) = 0 from rfl,
        show gotSentOf ThreadSt.idle = 0 from rfl] at hg
      refine ⟨hph, hisent, ?_, ?_, hfin⟩
      · show wcount gotSentOf (s.threads.set i ThreadSt.idle) = 0
        omega
      · show wcount exitedOf (s.threads.set i ThreadSt.idle) = 0
        omega
  | threadPutSent i hi =>
      exfalso
      have hmem := memQ_of_getElemQ hi
      have := mem_wcount_le gotSentOf hmem
      rw [hgot] at this
      simp [gotSentOf] at this
  | consumeRec h hf hq => rw [hph] at h; exact absurd h (by simp)
  | consumeSentCont h hf hq hc => rw [hph] at h; exact absurd h (by simp)
  | consumeSentLast h hf hq hc => rw [hph] at h; exact absurd h (by simp)

theorem crashState_reach {k W : Nat} {s t : IOSys} (hcs : CrashState s)
    (hr : IOReach k W s t) : CrashState t := by
  induction hr with
  | refl => exact hcs
  | tail _ hstep ih => exact crashState_step ih hstep

/-- After a producer exception, in every future state of the pool no
sentinel is ever enqueued on the input queue, no worker thread ever
exits, and the output consumer never terminates. -/
theorem io_crash_persists {N k W : Nat} {s t : IOSys}
    (hr : IOReach k W (ioInit N W) s) (hc : s.phase = RPhase.crashed)
    (hrt : IOReach k W s t) :
    wcount isentWt t.inQ = 0 ∧ wcount exitedOf t.threads = 0 ∧
    t.finished = false := by
  have hcs := crashState_of_inv (ioInv_reach hr) hc
  obtain ⟨_, h1, _, h2, h3⟩ := crashState_reach hcs hrt
  exact ⟨h1, h2, h3⟩

/-!
Transition-system model of a single audit run (`manager.Audit.start`
and `manager.Audit.join` together with the workers of `workers.py`).

The runner starts store and alert workers, puts one `begin_audit`
record on every store and alert queue, starts the cloud and event
workers, joins the cloud workers, puts `end_audit` and a sentinel on
every store queue, a sentinel on every event queue, joins store and
event workers, puts `end_audit` and a sentinel on every alert queue,
and joins the alert workers.  Cloud workers put each of their records
on every store queue and every event queue (in that order); event
workers consume their queue and fan each derived record out to every
alert queue.  Each queue `put` is one atomic step and workers
interleave arbitrarily.  Store and alert workers only consume, so
queue put-histories (the sequences those sinks observe, FIFO) are the
objects of interest; record payloads are abstracted to `Msg.data`
(the runner-injected control records are the tagged `ctrlBegin` /
`ctrlEnd`), and the record-level behaviour of the sink worker on such
a history is given by `write_worker`.
-/

/-- Abstract message on an audit queue. -/
inductive Msg where
  | ctrlBegin
  | ctrlEnd
  | data
  | sentinel
deriving DecidableEq, Repr

/-- Append a message to the queue at the given index. -/
def appAt : List (List Msg) → Nat → Msg → List (List Msg)
  | [], _, _ => []
  | q :: rest, 0, m => (q ++ [m]) :: rest
  | q :: rest, n + 1, m => q :: appAt rest n m

/-- State of one cloud worker: whether the runner has started it, the
number of records its `read()` will still yield, the queue indices
(stores then events, combined) still owed a copy of the current
record, and whether the worker function has returned. -/
structure CloudW where
  started : Bool
  pending : Nat
  outs : List Nat
  fin : Bool
deriving DecidableEq, Repr

/-- State of one event worker: whether started, how many items of its
input queue it has dequeued, the alert-queue indices still owed a put
for the current input's derived records, and whether it has returned
(which it does only after dequeuing the sentinel and calling
`done`). -/
structure EventW where
  started : Bool
  pos : Nat
  outs : List Nat
  fin : Bool
deriving DecidableEq, Repr

/-- Program counter of the runner (`Audit.start` then `Audit.join`). -/
inductive Phase where
  | startSinks
  | putBegin (j : Nat)
  | startWorkers (w : Nat)
  | joinClouds (c : Nat)
  | endStores (q : Nat) (second : Bool)
  | noneEvents (q : Nat)
  | joinStores
  | joinEvents (q : Nat)
  | endAlerts (q : Nat) (second : Bool)
  | joinAlerts
  | finished
deriving DecidableEq, Repr

/-- Global state of one audit run. -/
structure AuditSys where
  pc : Phase
  clouds : List CloudW
  events : List EventW
  storeQs : List (List Msg)
  eventQs : List (List Msg)
  alertQs : List (List Msg)
deriving DecidableEq, Repr

/-- Initial state: one cloud worker per entry of `recs` (the entry is
the number of records that cloud's `read()` yields), `E` event
workers, and empty store/event/alert queues. -/
def aInit (S E A : Nat) (recs : List Nat) : AuditSys :=
  { pc := Phase.startSinks,
    clouds := recs.map (fun n => ⟨false, n, [], false⟩),
    events := List.replicate E ⟨false, 0, [], false⟩,
    storeQs := List.replicate S [],
    eventQs := List.replicate E [],
    alertQs := List.replicate A [] }

/-- One step of an audit run.  `S`, `E`, `A` are the numbers of store,
event and alert queues; `C` is the number of cloud workers. -/
inductive AStep (S E A C : Nat) : AuditSys → AuditSys → Prop where
  | startSinksDone (s : AuditSys) (h : s.pc = Phase.startSinks) :
      AStep S E A C s { s with pc := Phase.putBegin 0 }
  | putBeginStore (s : AuditSys) (j : Nat) (h : s.pc = Phase.putBegin j)
      (hj : j < S) :
      AStep S E A C s { s with pc := Phase.putBegin (j + 1),
                               storeQs := appAt s.storeQs j Msg.ctrlBegin }
  | putBeginAlert (s : AuditSys) (j : Nat) (h : s.pc = Phase.putBegin j)
      (hj1 : S ≤ j) (hj2 : j < S + A) :
      AStep S E A C s { s with pc := Phase.putBegin (j + 1),
                               alertQs := appAt s.alertQs (j - S) Msg.ctrlBegin }
  | putBeginDone (s : AuditSys) (h : s.pc = Phase.putBegin (S + A)) :
      AStep S E A C s { s with pc := Phase.startWorkers 0 }
  | startCloud (s : AuditSys) (w : Nat) (cw : CloudW)
      (h : s.pc = Phase.startWorkers w) (hw : w < C)
      (hcw : s.clouds[w]? = some cw) :
      AStep S E A C s { s with pc := Phase.startWorkers (w + 1),
                               clouds := s.clouds.set w { cw with started := true } }
  | startEvent (s : AuditSys) (w : Nat) (ew : EventW)
      (h : s.pc = Phase.startWorkers w) (hw1 : C ≤ w) (hw2 : w < C + E)
      (hew : s.events[w - C]? = some ew) :
      AStep S E A C s { s with pc := Phase.startWorkers (w + 1),
                               events := s.events.set (w - C) { ew with started := true } }
  | startWorkersDone (s : AuditSys) (h : s.pc = Phase.startWorkers (C + E)) :
      AStep S E A C s { s with pc := Phase.joinClouds 0 }
  | joinCloud (s : AuditSys) (c : Nat) (cw : CloudW)
      (h : s.pc = Phase.joinClouds c) (hc : c < C)
      (hcw : s.clouds[c]? = some cw) (hfin : cw.fin = true) :
      AStep S E A C s { s with pc := Phase.joinClouds (c + 1) }
  | joinCloudsDone (s : AuditSys) (h : s.pc = Phase.joinClouds C) :
      AStep S E A C s { s with pc := Phase.endStores 0 false }
  | endStorePut (s : AuditSys) (q : Nat) (h : s.pc = Phase.endStores q false)
      (hq : q < S) :
      AStep S E A C s { s with pc := Phase.endStores q true,
                               storeQs := appAt s.storeQs q Msg.ctrlEnd }
  | endStoreNone (s : AuditSys) (q : Nat) (h : s.pc = Phase.endStores q true) :
      AStep S E A C s { s with pc := Phase.endStores (q + 1) false,
                               storeQs := appAt s.storeQs q Msg.sentinel }
  | endStoresDone (s : AuditSys) (h : s.pc = Phase.endStores S false) :
      AStep S E A C s { s with pc := Phase.noneEvents 0 }
  | noneEventPut (s : AuditSys) (q : Nat) (h : s.pc = Phase.noneEvents q)
      (hq : q < E) :
      AStep S E A C s { s with pc := Phase.noneEvents (q + 1),
                               eventQs := appAt s.eventQs q Msg.sentinel }
  | noneEventsDone (s : AuditSys) (h : s.pc = Phase.noneEvents E) :
      AStep S E A C s { s with pc := Phase.joinStores }
  | joinStoresDone (s : AuditSys) (h : s.pc = Phase.joinStores) :
      AStep S E A C s { s with pc := Phase.joinEvents 0 }
  | joinEvent (s : AuditSys) (q : Nat) (ew : EventW)
      (h : s.pc = Phase.joinEvents q) (hq : q < E)
      (hew : s.events[q]? = some ew) (hfin : ew.fin = true) :
      AStep S E A C s { s with pc := Phase.joinEvents (q + 1) }
  | joinEventsDone (s : AuditSys) (h : s.pc = Phase.joinEvents E) :
      AStep S E A C s { s with pc := Phase.endAlerts 0 false }
  | endAlertPut (s : AuditSys) (q : Nat) (h : s.pc = Phase.endAlerts q false)
      (hq : q < A) :
      AStep S E A C s { s with pc := Phase.endAlerts q true,
                               alertQs := appAt s.alertQs q Msg.ctrlEnd }
  | endAlertNone (s : AuditSys) (q : Nat) (h : s.pc = Phase.endAlerts q true) :
      AStep S E A C s { s with pc := Phase.endAlerts (q + 1) false,
                               alertQs := appAt s.alertQs q Msg.sentinel }
  | endAlertsDone (s : AuditSys) (h : s.pc = Phase.endAlerts A false) :
      AStep S E A C s { s with pc := Phase.joinAlerts }
  | joinAlertsDone (s : AuditSys) (h : s.pc = Phase.joinAlerts) :
      AStep S E A C s { s with pc := Phase.finished }
  | cloudTake (s : AuditSys) (i : Nat) (cw : CloudW) (n : Nat)
      (hcw : s.clouds[i]? = some cw) (hs : cw.started = true)
      (hf : cw.fin = false) (ho : cw.outs = []) (hp : cw.pending = n + 1) :
      AStep S E A C s
        { s with clouds := s.clouds.set i
                   { cw with pending := n, outs := List.range (S + E) } }
  | cloudPutStore (s : AuditSys) (i : Nat) (cw : CloudW) (q : Nat)
      (rest : List Nat) (hcw : s.clouds[i]? = some cw)
      (ho : cw.outs = q :: rest) (hq : q < S) :
      AStep S E A C s
        { s with storeQs := appAt s.storeQs q Msg.data,
                 clouds := s.clouds.set i { cw with outs := rest } }
  | cloudPutEvent (s : AuditSys) (i : Nat) (cw : CloudW) (q : Nat)
      (rest : List Nat) (hcw : s.clouds[i]? = some cw)
      (ho : cw.outs = q :: rest) (hq : S ≤ q) :
      AStep S E A C s
        { s with eventQs := appAt s.eventQs (q - S) Msg.data,
                 clouds := s.clouds.set i { cw with outs := rest } }
  | cloudFin (s : AuditSys) (i : Nat) (cw : CloudW)
      (hcw : s.clouds[i]? = some cw) (hs : cw.started = true)
      (hf : cw.fin = false) (ho : cw.outs = []) (hp : cw.pending = 0) :
      AStep S E A C s
        { s with clouds := s.clouds.set i { cw with fin := true } }
  | eventConsume (s : AuditSys) (i : Nat) (ew : EventW) (qc : List Msg)
      (m : Msg) (kDerived : Nat)
      (hew : s.events[i]? = some ew) (hs : ew.started = true)
      (hf : ew.fin = false) (ho : ew.outs = [])
      (hqc : s.eventQs[i]? = some qc) (hm : qc[ew.pos]? = some m)
      (hns : m ≠ Msg.sentinel) :
      AStep S E A C s
        { s with events := s.events.set i
                   { ew with pos := ew.pos + 1,
                             outs := (List.replicate kDerived (List.range A)).join } }
  | eventPut (s : AuditSys) (i : Nat) (ew : EventW) (q : Nat)
      (rest : List Nat) (hew : s.events[i]? = some ew)
      (ho : ew.outs = q :: rest) :
      AStep S E A C s
        { s with alertQs := appAt s.alertQs q Msg.data,
                 events := s.events.set i { ew with outs := rest } }
  | eventFin (s : AuditSys) (i : Nat) (ew : EventW) (qc : List Msg)
      (hew : s.events[i]? = some ew) (hs : ew.started = true)
      (hf : ew.fin = false) (ho : ew.outs = [])
      (hqc : s.eventQs[i]? = some qc)
      (hm : qc[ew.pos]? = some Msg.sentinel) :
      AStep S E A C s
        { s with events := s.events.set i { ew with fin := true } }

/-- Reachability for the audit model. -/
def AReach (S E A C : Nat) : AuditSys → AuditSys → Prop :=
  Relation.ReflTransGen (AStep S E A C)

theorem appAt_length (l : List (List Msg)) (q : Nat) (m : Msg) :
    (appAt l q m).length = l.length := by
  induction l generalizing q with
  | nil => rfl
  | cons x rest ih =>
      cases q with
      | zero => rfl
      | succ n => simp [appAt, ih]

theorem appAt_getElem_self {l : List (List Msg)} {q : Nat} {Q : List Msg}
    (h : l[q]? = some Q) (m : Msg) : (appAt l q m)[q]? = some (Q ++ [m]) := by
  induction l generalizing q with
  | nil => simp at h
  | cons x rest ih =>
      cases q with
      | zero =>
          simp at h
          subst h
          simp [appAt]
      | succ n =>
          simp at h
          simp [appAt]
          exact ih h

theorem appAt_getElem_ne (l : List (List Msg)) (q : Nat) (m : Msg)
    {j : Nat} (hne : j ≠ q) : (appAt l q m)[j]? = l[j]? := by
  induction l generalizing q j with
  | nil => rfl
  | cons x rest ih =>
      cases q with
      | zero =>
          cases j with
          | zero => exact absurd rfl hne
          | succ j2 => simp [appAt]
      | succ n =>
          cases j with
          | zero => simp [appAt]
          | succ j2 =>
              simp [appAt]
              have hj2 : j2 ≠ n := by omega
              exact ih n hj2

/-- Has the runner already put `begin_audit` on combined sink queue
`j` (stores `0..S-1`, then alerts `S..S+A-1`)? -/
def sinkBeg : Phase → Nat → Bool
  | Phase.startSinks, _ => false
  | Phase.putBegin k, j => j < k
  | _, _ => true

/-- Has the runner already started worker `w` (clouds `0..C-1`, then
events `C..C+E-1`)? -/
def wStart : Phase → Nat → Bool
  | Phase.startSinks, _ => false
  | Phase.putBegin _, _ => false
  | Phase.startWorkers k, w => w < k
  | _, _ => true

/-- Has the runner already joined cloud worker `i`? -/
def cFinReq : Phase → Nat → Bool
  | Phase.joinClouds k, i => i < k
  | Phase.endStores _ _, _ => true
  | Phase.noneEvents _, _ => true
  | Phase.joinStores, _ => true
  | Phase.joinEvents _, _ => true
  | Phase.endAlerts _ _, _ => true
  | Phase.joinAlerts, _ => true
  | Phase.finished, _ => true
  | _, _ => false

/-- Has the runner already put `end_audit` on store queue `q`? -/
def sEndS : Phase → Nat → Bool
  | Phase.endStores k b, q => q < k || (q == k && b)
  | Phase.noneEvents _, _ => true
  | Phase.joinStores, _ => true
  | Phase.joinEvents _, _ => true
  | Phase.endAlerts _ _, _ => true
  | Phase.joinAlerts, _ => true
  | Phase.finished, _ => true
  | _, _ => false

/-- Has the runner already put the sentinel on store queue `q`? -/
def sNoneS : Phase → Nat → Bool
  | Phase.endStores k _, q => q < k
  | Phase.noneEvents _, _ => true
  | Phase.joinStores, _ => true
  | Phase.joinEvents _, _ => true
  | Phase.endAlerts _ _, _ => true
  | Phase.joinAlerts, _ => true
  | Phase.finished, _ => true
  | _, _ => false

/-- Has the runner already put the sentinel on event queue `q`? -/
def sNoneE : Phase → Nat → Bool
  | Phase.noneEvents k, q => q < k
  | Phase.joinStores, _ => true
  | Phase.joinEvents _, _ => true
  | Phase.endAlerts _ _, _ => true
  | Phase.joinAlerts, _ => true
  | Phase.finished, _ => true
  | _, _ => false

/-- Has the runner already joined event worker `i`? -/
def eFinReq : Phase → Nat → Bool
  | Phase.joinEvents k, i => i < k
  | Phase.endAlerts _ _, _ => true
  | Phase.joinAlerts, _ => true
  | Phase.finished, _ => true
  | _, _ => false

/-- Has the runner already put `end_audit` on alert queue `q`? -/
def sEndA : Phase → Nat → Bool
  | Phase.endAlerts k b, q => q < k || (q == k && b)
  | Phase.joinAlerts, _ => true
  | Phase.finished, _ => true
  | _, _ => false

/-- Has the runner already put the sentinel on alert queue `q`? -/
def sNoneA : Phase → Nat → Bool
  | Phase.endAlerts k _, q => q < k
  | Phase.joinAlerts, _ => true
  | Phase.finished, _ => true
  | _, _ => false

/-- Optional one-message segment of a queue shape. -/
def optMsg (b : Bool) (m : Msg) : List Msg := if b then [m] else []

/-- Shape of a store/alert queue history: an optional `begin_audit`,
a run of data records, an optional `end_audit`, an optional
sentinel. -/
def sinkShape (hasB : Bool) (n : Nat) (hasE hasN : Bool) : List Msg :=
  optMsg hasB Msg.ctrlBegin ++ List.replicate n Msg.data ++
    optMsg hasE Msg.ctrlEnd ++ optMsg hasN Msg.sentinel

theorem sinkShape_empty : sinkShape false 0 false false = [] := rfl

theorem sinkShape_put_begin (n : Nat) :
    sinkShape false n false false ++ [Msg.ctrlBegin] =
      List.replicate n Msg.data ++ [Msg.ctrlBegin] := by
  simp [sinkShape, optMsg]

theorem sinkShape_put_data (b : Bool) (n : Nat) :
    sinkShape b n false false ++ [Msg.data] = sinkShape b (n + 1) false false := by
  simp [sinkShape, optMsg, List.replicate_succ']

theorem sinkShape_put_end (b : Bool) (n : Nat) :
    sinkShape b n false false ++ [Msg.ctrlEnd] = sinkShape b n true false := by
  simp [sinkShape, optMsg]

theorem sinkShape_put_none (b e : Bool) (n : Nat) :
    sinkShape b n e false ++ [Msg.sentinel] = sinkShape b n e true := by
  simp [sinkShape, optMsg]

/-- Shape of an event queue history: a run of data records and an
optional sentinel. -/
def evShape (n : Nat) (hasN : Bool) : List Msg :=
  List.replicate n Msg.data ++ optMsg hasN Msg.sentinel

theorem evShape_put_data (n : Nat) :
    evShape n false ++ [Msg.data] = evShape (n + 1) false := by
  simp [evShape, optMsg, List.replicate_succ']

theorem evShape_put_none (n : Nat) :
    evShape n false ++ [Msg.sentinel] = evShape n true := by
  simp [evShape, optMsg]

theorem getElemQ_set_self {α : Type} {l : List α} {i : Nat} {x : α}
    (a : α) (h : l[i]? = some x) : (l.set i a)[i]? = some a :=
  List.getElem?_set_eq_of_lt a (getElemQ_lt h)

theorem getElemQ_set_ne {α : Type} (l : List α) (i : Nat) (a : α)
    {j : Nat} (h : j ≠ i) : (l.set i a)[j]? = l[j]? :=
  List.getElem?_set_ne (Ne.symm h)

theorem getElemQ_replicate {α : Type} (n : Nat) (x : α) {q : Nat}
    (h : q < n) : (List.replicate n x)[q]? = some x := by
  rw [List.getElem?_replicate]
  simp [h]

/-- Invariant clause for store queue `q`: its history has the shape
determined by the runner flags, with no data before `begin_audit`. -/
def storeOk (pc : Phase) (qs : List (List Msg)) (q : Nat) : Prop :=
  ∃ n, qs[q]? = some (sinkShape (sinkBeg pc q) n (sEndS pc q) (sNoneS pc q)) ∧
    (sinkBeg pc q = false → n = 0)

/-- Invariant clause for alert queue `q` (its combined sink index is
`S + q`). -/
def alertOk (S : Nat) (pc : Phase) (qs : List (List Msg)) (q : Nat) : Prop :=
  ∃ n, qs[q]? = some (sinkShape (sinkBeg pc (S + q)) n (sEndA pc q) (sNoneA pc q)) ∧
    (sinkBeg pc (S + q) = false → n = 0)

/-- Invariant clause for event queue `q`. -/
def evOk (pc : Phase) (qs : List (List Msg)) (q : Nat) : Prop :=
  ∃ n, qs[q]? = some (evShape n (sNoneE pc q))

/-- Invariant clause for cloud worker `i`. -/
def cloudOk (S E : Nat) (pc : Phase) (cs : List CloudW) (i : Nat) : Prop :=
  ∀ cw, cs[i]? = some cw →
    cw.started = wStart pc i ∧
    (cw.started = false → cw.outs = []) ∧
    (cw.fin = true → cw.outs = []) ∧
    (cFinReq pc i = true → cw.fin = true) ∧
    (∀ x ∈ cw.outs, x < S + E)

/-- Invariant clause for event worker `i` (its combined worker index
is `C + i`). -/
def eventOk (A C : Nat) (pc : Phase) (es : List EventW) (i : Nat) : Prop :=
  ∀ ew, es[i]? = some ew →
    ew.started = wStart pc (C + i) ∧
    (ew.started = false → ew.outs = []) ∧
    (ew.fin = true → ew.outs = []) ∧
    (eFinReq pc i = true → ew.fin = true) ∧
    (∀ x ∈ ew.outs, x < A)

theorem storeOk_congr {pc pc' : Phase} {qs qs' : List (List Msg)} {q : Nat}
    (hb : sinkBeg pc' q = sinkBeg pc q) (he : sEndS pc' q = sEndS pc q)
    (hn : sNoneS pc' q = sNoneS pc q) (hqe : qs'[q]? = qs[q]?)
    (h : storeOk pc qs q) : storeOk pc' qs' q := by
  obtain ⟨n, h1, h2⟩ := h
  refine ⟨n, ?_, ?_⟩
  · rw [hqe, hb, he, hn]
    exact h1
  · rw [hb]
    exact h2

theorem alertOk_congr {S : Nat} {pc pc' : Phase} {qs qs' : List (List Msg)}
    {q : Nat} (hb : sinkBeg pc' (S + q) = sinkBeg pc (S + q))
    (he : sEndA pc' q = sEndA pc q) (hn : sNoneA pc' q = sNoneA pc q)
    (hqe : qs'[q]? = qs[q]?) (h : alertOk S pc qs q) : alertOk S pc' qs' q := by
  obtain ⟨n, h1, h2⟩ := h
  refine ⟨n, ?_, ?_⟩
  · rw [hqe, hb, he, hn]
    exact h1
  · rw [hb]
    exact h2

theorem evOk_congr {pc pc' : Phase} {qs qs' : List (List Msg)} {q : Nat}
    (hn : sNoneE pc' q = sNoneE pc q) (hqe : qs'[q]? = qs[q]?)
    (h : evOk pc qs q) : evOk pc' qs' q := by
  obtain ⟨n, h1⟩ := h
  refine ⟨n, ?_⟩
  rw [hqe, hn]
  exact h1

theorem cloudOk_congr {S E : Nat} {pc pc' : Phase} {cs cs' : List CloudW}
    {i : Nat} (hst : wStart pc' i = wStart pc i)
    (hfr : cFinReq pc' i = cFinReq pc i) (hce : cs'[i]? = cs[i]?)
    (h : cloudOk S E pc cs i) : cloudOk S E pc' cs' i := by
  intro cw hcw
  rw [hce] at hcw
  obtain ⟨h1, h2, h3, h4, h5⟩ := h cw hcw
  exact ⟨by rw [hst]; exact h1, h2, h3, by rw [hfr]; exact h4, h5⟩

theorem eventOk_congr {A C : Nat} {pc pc' : Phase} {es es' : List EventW}
    {i : Nat} (hst : wStart pc' (C + i) = wStart pc (C + i))
    (hfr : eFinReq pc' i = eFinReq pc i) (hee : es'[i]? = es[i]?)
    (h : eventOk A C pc es i) : eventOk A C pc' es' i := by
  intro ew hew
  rw [hee] at hew
  obtain ⟨h1, h2, h3, h4, h5⟩ := h ew hew
  exact ⟨by rw [hst]; exact h1, h2, h3, by rw [hfr]; exact h4, h5⟩

/-- Inductive invariant of the audit model. -/
structure AInv (S E A C : Nat) (s : AuditSys) : Prop where
  hSlen : s.storeQs.length = S
  hElen : s.eventQs.length = E
  hAlen : s.alertQs.length = A
  hClen : s.clouds.length = C
  hEvlen : s.events.length = E
  hstore : ∀ q, q < S → storeOk s.pc s.storeQs q
  halert : ∀ q, q < A → alertOk S s.pc s.alertQs q
  hevq : ∀ q, q < E → evOk s.pc s.eventQs q
  hcw : ∀ i, cloudOk S E s.pc s.clouds i
  hew : ∀ i, eventOk A C s.pc s.events i
  hpcS : ∀ q, s.pc = Phase.endStores q true → q < S
  hpcA : ∀ q, s.pc = Phase.endAlerts q true → q < A

/-- Flags seen by a running (started, not yet joined) cloud worker:
`begin_audit` is on every sink queue, and no `end_audit` or sentinel
has been put anywhere. -/
theorem cloudActive_flags {pc : Phase} {i : Nat}
    (hs : wStart pc i = true) (hf : cFinReq pc i = false) :
    (∀ q, sinkBeg pc q = true) ∧ (∀ q, sEndS pc q = false) ∧
    (∀ q, sNoneS pc q = false) ∧ (∀ q, sNoneE pc q = false) := by
  cases pc <;> simp_all [wStart, cFinReq, sinkBeg, sEndS, sNoneS, sNoneE]

/-- Flags seen by a running (started, not yet joined) event worker:
`begin_audit` is on every alert queue, and no `end_audit` or sentinel
has been put on any alert queue. -/
theorem eventActive_flags {pc : Phase} {w i : Nat}
    (hs : wStart pc w = true) (hf : eFinReq pc i = false) :
    (∀ q, sinkBeg pc q = true) ∧ (∀ q, sEndA pc q = false) ∧
    (∀ q, sNoneA pc q = false) := by
  cases pc <;> simp_all [wStart, eFinReq, sinkBeg, sEndA, sNoneA]

theorem aInv_init (S E A : Nat) (recs : List Nat) :
    AInv S E A recs.length (aInit S E A recs) := by
  refine ⟨?_, ?_, ?_, ?_, ?_, ?_, ?_, ?_, ?_, ?_, ?_, ?_⟩
  · simp [aInit]
  · simp [aInit]
  · simp [aInit]
  · simp [aInit]
  · simp [aInit]
  · intro q hq
    refine ⟨0, ?_, fun _ => rfl⟩
    rw [show (aInit S E A recs).storeQs = List.replicate S [] from rfl]
    rw [getElemQ_replicate S [] hq]
    rfl
  · intro q hq
    refine ⟨0, ?_, fun _ => rfl⟩
    rw [show (aInit S E A recs).alertQs = List.replicate A [] from rfl]
    rw [getElemQ_replicate A [] hq]
    rfl
  · intro q hq
    refine ⟨0, ?_⟩
    rw [show (aInit S E A recs).eventQs = List.replicate E [] from rfl]
    rw [getElemQ_replicate E [] hq]
    rfl
  · intro i cw hcw
    rw [show (aInit S E A recs).clouds =
      recs.map (fun n => ⟨false, n, [], false⟩) from rfl] at hcw
    rw [List.getElem?_map] at hcw
    rcases hr : recs[i]? with _ | n
    · rw [hr] at hcw; exact Option.noConfusion hcw
    · rw [hr] at hcw
      simp at hcw
      subst hcw
      refine ⟨rfl, fun _ => rfl, ?_, ?_, ?_⟩
      · intro h; exact absurd h (by simp)
      · intro h; simp [cFinReq, aInit] at h
      · intro x hx; simp at hx
  · intro i ew hew
    rw [show (aInit S E A recs).events =
      List.replicate E ⟨false, 0, [], false⟩ from rfl] at hew
    by_cases hi : i < E
    · rw [getElemQ_replicate E _ hi] at hew
      simp at hew
      subst hew
      refine ⟨rfl, fun _ => rfl, ?_, ?_, ?_⟩
      · intro h; exact absurd h (by simp)
      · intro h; simp [eFinReq, aInit] at h
      · intro x hx; simp at hx
    · rw [List.getElem?_eq_none (by simp; omega)] at hew
      exact Option.noConfusion hew
  · intro q h; simp [aInit] at h
  · intro q h; simp [aInit] at h

theorem cloudOk_active {S E : Nat} {pc : Phase} {cs : List CloudW} {i : Nat}
    {cw : CloudW} (hok : cloudOk S E pc cs i) (hcw : cs[i]? = some cw)
    {q : Nat} {rest : List Nat} (ho : cw.outs = q :: rest) :
    cw.started = true ∧ cw.fin = false ∧ wStart pc i = true ∧
      cFinReq pc i = false := by
  obtain ⟨o1, o2, o3, o4, o5⟩ := hok cw hcw
  have hsT : cw.started = true := by
    cases hx : cw.started with
    | true => rfl
    | false => rw [o2 hx] at ho; exact List.noConfusion ho
  have hfF : cw.fin = false := by
    cases hx : cw.fin with
    | false => rfl
    | true => rw [o3 hx] at ho; exact List.noConfusion ho
  have hcfF : cFinReq pc i = false := by
    cases hx : cFinReq pc i with
    | false => rfl
    | true => rw [o4 hx] at hfF; exact Bool.noConfusion hfF
  exact ⟨hsT, hfF, by rw [← o1]; exact hsT, hcfF⟩

theorem eventOk_active {A C : Nat} {pc : Phase} {es : List EventW} {i : Nat}
    {ew : EventW} (hok : eventOk A C pc es i) (hew : es[i]? = some ew)
    {q : Nat} {rest : List Nat} (ho : ew.outs = q :: rest) :
    ew.started = true ∧ ew.fin = false ∧ wStart pc (C + i) = true ∧
      eFinReq pc i = false := by
  obtain ⟨o1, o2, o3, o4, o5⟩ := hok ew hew
  have hsT : ew.started = true := by
    cases hx : ew.started with
    | true => rfl
    | false => rw [o2 hx] at ho; exact List.noConfusion ho
  have hfF : ew.fin = false := by
    cases hx : ew.fin with
    | false => rfl
    | true => rw [o3 hx] at ho; exact List.noConfusion ho
  have hefF : eFinReq pc i = false := by
    cases hx : eFinReq pc i with
    | false => rfl
    | true => rw [o4 hx] at hfF; exact Bool.noConfusion hfF
  exact ⟨hsT, hfF, by rw [← o1]; exact hsT, hefF⟩

theorem bool_eq_of_iff {a b : Bool} (h : a = true ↔ b = true) : a = b := by
  cases a <;> cases b <;> simp_all

theorem aInv_step {S E A C : Nat} {s s' : AuditSys} (inv : AInv S E A C s)
    (st : AStep S E A C s s') : AInv S E A C s' := by
  obtain ⟨ihS, ihE, ihA, ihC, ihEv, ihst, ihal, ihev, ihcw, ihew, ihpS, ihpA⟩ := inv
  cases st with
  | startSinksDone h =>
      rw [h] at ihst ihal ihev ihcw ihew
      refine ⟨ihS, ihE, ihA, ihC, ihEv, ?_, ?_, ?_, ?_, ?_, ?_, ?_⟩
      · intro q hq
        show storeOk (Phase.putBegin 0) s.storeQs q
        exact storeOk_congr (by simp [sinkBeg]) (by simp [sEndS])
          (by simp [sNoneS]) rfl (ihst q hq)
      · intro q hq
        show alertOk S (Phase.putBegin 0) s.alertQs q
        exact alertOk_congr (by simp [sinkBeg]) (by simp [sEndA])
          (by simp [sNoneA]) rfl (ihal q hq)
      · intro q hq
        show evOk (Phase.putBegin 0) s.eventQs q
        exact evOk_congr (by simp [sNoneE]) rfl (ihev q hq)
      · intro i
        show cloudOk S E (Phase.putBegin 0) s.clouds i
        exact cloudOk_congr (by simp [wStart]) (by simp [cFinReq]) rfl (ihcw i)
      · intro i
        show eventOk A C (Phase.putBegin 0) s.events i
        exact eventOk_congr (by simp [wStart]) (by simp [eFinReq]) rfl (ihew i)
      · intro q2 hq2
        exact Phase.noConfusion hq2
      · intro q2 hq2
        exact Phase.noConfusion hq2
  | putBeginStore j h hj =>
      rw [h] at ihst ihal ihev ihcw ihew
      refine ⟨?_, ihE, ihA, ihC, ihEv, ?_, ?_, ?_, ?_, ?_, ?_, ?_⟩
      · show (appAt s.storeQs j Msg.ctrlBegin).length = S
        rw [appAt_length]; exact ihS
      · intro q hq
        show storeOk (Phase.putBegin (j + 1)) (appAt s.storeQs j Msg.ctrlBegin) q
        by_cases hqj : q = j
        · subst hqj
          obtain ⟨n, h1, h2⟩ := ihst q hq
          have hb : sinkBeg (Phase.putBegin q) q = false := by simp [sinkBeg]
          have hn0 : n = 0 := h2 hb
          subst hn0
          rw [hb, show sEndS (Phase.putBegin q) q = false from by simp [sEndS],
            show sNoneS (Phase.putBegin q) q = false from by simp [sNoneS],
            sinkShape_empty] at h1
          refine ⟨0, ?_, fun _ => rfl⟩
          rw [appAt_getElem_self h1,
            show sinkBeg (Phase.putBegin (q + 1)) q = true from by simp [sinkBeg],
            show sEndS (Phase.putBegin (q + 1)) q = false from by simp [sEndS],
            show sNoneS (Phase.putBegin (q + 1)) q = false from by simp [sNoneS]]
          rfl
        · exact storeOk_congr (by simp [sinkBeg, decide_eq_decide] <;> omega)
            (by simp [sEndS]) (by simp [sNoneS])
            (appAt_getElem_ne _ _ _ hqj) (ihst q hq)
      · intro q hq
        show alertOk S (Phase.putBegin (j + 1)) s.alertQs q
        exact alertOk_congr (by simp [sinkBeg, decide_eq_decide] <;> omega)
          (by simp [sEndA]) (by simp [sNoneA]) rfl (ihal q hq)
      · intro q hq
        show evOk (Phase.putBegin (j + 1)) s.eventQs q
        exact evOk_congr (by simp [sNoneE]) rfl (ihev q hq)
      · intro i
        show cloudOk S E (Phase.putBegin (j + 1)) s.clouds i
        exact cloudOk_congr (by simp [wStart]) (by simp [cFinReq]) rfl (ihcw i)
      · intro i
        show eventOk A C (Phase.putBegin (j + 1)) s.events i
        exact eventOk_congr (by simp [wStart]) (by simp [eFinReq]) rfl (ihew i)
      · intro q2 hq2
        exact Phase.noConfusion hq2
      · intro q2 hq2
        exact Phase.noConfusion hq2
  | putBeginAlert j h hj1 hj2 =>
      rw [h] at ihst ihal ihev ihcw ihew
      refine ⟨ihS, ihE, ?_, ihC, ihEv, ?_, ?_, ?_, ?_, ?_, ?_, ?_⟩
      · show (appAt s.alertQs (j - S) Msg.ctrlBegin).length = A
        rw [appAt_length]; exact ihA
      · intro q hq
        show storeOk (Phase.putBegin (j + 1)) s.storeQs q
        exact storeOk_congr (by simp [sinkBeg, decide_eq_decide] <;> omega)
          (by simp [sEndS]) (by simp [sNoneS]) rfl (ihst q hq)
      · intro q hq
        show alertOk S (Phase.putBegin (j + 1))
          (appAt s.alertQs (j - S) Msg.ctrlBegin) q
        by_cases hqj : q = j - S
        · subst hqj
          obtain ⟨n, h1, h2⟩ := ihal (j - S) hq
          have hb : sinkBeg (Phase.putBegin j) (S + (j - S)) = false := by
            simp [sinkBeg] <;> omega
          have hn0 : n = 0 := h2 hb
          subst hn0
          rw [hb, show sEndA (Phase.putBegin j) (j - S) = false from by simp [sEndA],
            show sNoneA (Phase.putBegin j) (j - S) = false from by simp [sNoneA],
            sinkShape_empty] at h1
          refine ⟨0, ?_, fun _ => rfl⟩
          rw [appAt_getElem_self h1,
            show sinkBeg (Phase.putBegin (j + 1)) (S + (j - S)) = true from by
              simp [sinkBeg] <;> omega,
            show sEndA (Phase.putBegin (j + 1)) (j - S) = false from by simp [sEndA],
            show sNoneA (Phase.putBegin (j + 1)) (j - S) = false from by simp [sNoneA]]
          rfl
        · exact alertOk_congr (by simp [sinkBeg, decide_eq_decide] <;> omega)
            (by simp [sEndA]) (by simp [sNoneA])
            (appAt_getElem_ne _ _ _ hqj) (ihal q hq)
      · intro q hq
        show evOk (Phase.putBegin (j + 1)) s.eventQs q
        exact evOk_congr (by simp [sNoneE]) rfl (ihev q hq)
      · intro i
        show cloudOk S E (Phase.putBegin (j + 1)) s.clouds i
        exact cloudOk_congr (by simp [wStart]) (by simp [cFinReq]) rfl (ihcw i)
      · intro i
        show eventOk A C (Phase.putBegin (j + 1)) s.events i
        exact eventOk_congr (by simp [wStart]) (by simp [eFinReq]) rfl (ihew i)
      · intro q2 hq2
        exact Phase.noConfusion hq2
      · intro q2 hq2
        exact Phase.noConfusion hq2
  | putBeginDone h =>
      rw [h] at ihst ihal ihev ihcw ihew
      refine ⟨ihS, ihE, ihA, ihC, ihEv, ?_, ?_, ?_, ?_, ?_, ?_, ?_⟩
      · intro q hq
        show storeOk (Phase.startWorkers 0) s.storeQs q
        exact storeOk_congr (by simp [sinkBeg] <;> omega)
          (by simp [sEndS]) (by simp [sNoneS]) rfl (ihst q hq)
      · intro q hq
        show alertOk S (Phase.startWorkers 0) s.alertQs q
        exact alertOk_congr (by simp [sinkBeg] <;> omega)
          (by simp [sEndA]) (by simp [sNoneA]) rfl (ihal q hq)
      · intro q hq
        show evOk (Phase.startWorkers 0) s.eventQs q
        exact evOk_congr (by simp [sNoneE]) rfl (ihev q hq)
      · intro i
        show cloudOk S E (Phase.startWorkers 0) s.clouds i
        exact cloudOk_congr (by simp [wStart]) (by simp [cFinReq]) rfl (ihcw i)
      · intro i
        show eventOk A C (Phase.startWorkers 0) s.events i
        exact eventOk_congr (by simp [wStart]) (by simp [eFinReq]) rfl (ihew i)
      · intro q2 hq2
        exact Phase.noConfusion hq2
      · intro q2 hq2
        exact Phase.noConfusion hq2
  | startCloud w cw h hw hcwq =>
      rw [h] at ihst ihal ihev ihcw ihew
      refine ⟨ihS, ihE, ihA, ?_, ihEv, ?_, ?_, ?_, ?_, ?_, ?_, ?_⟩
      · show (s.clouds.set w { cw with started := true }).length = C
        rw [List.length_set]; exact ihC
      · intro q hq
        show storeOk (Phase.startWorkers (w + 1)) s.storeQs q
        exact storeOk_congr (by simp [sinkBeg]) (by simp [sEndS])
          (by simp [sNoneS]) rfl (ihst q hq)
      · intro q hq
        show alertOk S (Phase.startWorkers (w + 1)) s.alertQs q
        exact alertOk_congr (by simp [sinkBeg]) (by simp [sEndA])
          (by simp [sNoneA]) rfl (ihal q hq)
      · intro q hq
        show evOk (Phase.startWorkers (w + 1)) s.eventQs q
        exact evOk_congr (by simp [sNoneE]) rfl (ihev q hq)
      · intro i
        show cloudOk S E (Phase.startWorkers (w + 1))
          (s.clouds.set w { cw with started := true }) i
        by_cases hiw : i = w
        · subst hiw
          intro cw2 hq2
          rw [getElemQ_set_self _ hcwq] at hq2
          obtain rfl := Option.some.inj hq2
          obtain ⟨o1, o2, o3, o4, o5⟩ := ihcw i cw hcwq
          refine ⟨?_, ?_, ?_, ?_, ?_⟩
          · show true = wStart (Phase.startWorkers (i + 1)) i
            simp [wStart]
          · intro hfalse
            exact Bool.noConfusion hfalse
          · exact o3
          · intro hcf
            simp [cFinReq] at hcf
          · exact o5
        · exact cloudOk_congr (by simp [wStart, decide_eq_decide] <;> omega)
            (by simp [cFinReq]) (getElemQ_set_ne _ _ _ hiw) (ihcw i)
      · intro i
        show eventOk A C (Phase.startWorkers (w + 1)) s.events i
        exact eventOk_congr (by simp [wStart, decide_eq_decide] <;> omega)
          (by simp [eFinReq]) rfl (ihew i)
      · intro q2 hq2
        exact Phase.noConfusion hq2
      · intro q2 hq2
        exact Phase.noConfusion hq2
  | startEvent w ew h hw1 hw2 hewq =>
      rw [h] at ihst ihal ihev ihcw ihew
      refine ⟨ihS, ihE, ihA, ihC, ?_, ?_, ?_, ?_, ?_, ?_, ?_, ?_⟩
      · show (s.events.set (w - C) { ew with started := true }).length = E
        rw [List.length_set]; exact ihEv
      · intro q hq
        show storeOk (Phase.startWorkers (w + 1)) s.storeQs q
        exact storeOk_congr (by simp [sinkBeg]) (by simp [sEndS])
          (by simp [sNoneS]) rfl (ihst q hq)
      · intro q hq
        show alertOk S (Phase.startWorkers (w + 1)) s.alertQs q
        exact alertOk_congr (by simp [sinkBeg]) (by simp [sEndA])
          (by simp [sNoneA]) rfl (ihal q hq)
      · intro q hq
        show evOk (Phase.startWorkers (w + 1)) s.eventQs q
        exact evOk_congr (by simp [sNoneE]) rfl (ihev q hq)
      · intro i
        show cloudOk S E (Phase.startWorkers (w + 1)) s.clouds i
        by_cases hiw : i = w
        · subst hiw
          intro cw2 hq2
          rw [List.getElem?_eq_none (by omega)] at hq2
          exact Option.noConfusion hq2
        · exact cloudOk_congr (by simp [wStart, decide_eq_decide] <;> omega)
            (by simp [cFinReq]) rfl (ihcw i)
      · intro i
        show eventOk A C (Phase.startWorkers (w + 1))
          (s.events.set (w - C) { ew with started := true }) i
        by_cases hie : i = w - C
        · subst hie
          intro ew2 hq2
          rw [getElemQ_set_self _ hewq] at hq2
          obtain rfl := Option.some.inj hq2
          obtain ⟨o1, o2, o3, o4, o5⟩ := ihew (w - C) ew hewq
          refine ⟨?_, ?_, ?_, ?_, ?_⟩
          · show true = wStart (Phase.startWorkers (w + 1)) (C + (w - C))
            simp [wStart]
            omega
          · intro hfalse
            exact Bool.noConfusion hfalse
          · exact o3
          · intro hef
            simp [eFinReq] at hef
          · exact o5
        · exact eventOk_congr (by simp [wStart, decide_eq_decide] <;> omega)
            (by simp [eFinReq]) (getElemQ_set_ne _ _ _ hie) (ihew i)
      · intro q2 hq2
        exact Phase.noConfusion hq2
      · intro q2 hq2
        exact Phase.noConfusion hq2
  | startWorkersDone h =>
      rw [h] at ihst ihal ihev ihcw ihew
      refine ⟨ihS, ihE, ihA, ihC, ihEv, ?_, ?_, ?_, ?_, ?_, ?_, ?_⟩
      · intro q hq
        show storeOk (Phase.joinClouds 0) s.storeQs q
        exact storeOk_congr (by simp [sinkBeg]) (by simp [sEndS])
          (by simp [sNoneS]) rfl (ihst q hq)
      · intro q hq
        show alertOk S (Phase.joinClouds 0) s.alertQs q
        exact alertOk_congr (by simp [sinkBeg]) (by simp [sEndA])
          (by simp [sNoneA]) rfl (ihal q hq)
      · intro q hq
        show evOk (Phase.joinClouds 0) s.eventQs q
        exact evOk_congr (by simp [sNoneE]) rfl (ihev q hq)
      · intro i
        show cloudOk S E (Phase.joinClouds 0) s.clouds i
        by_cases hi : i < C
        · exact cloudOk_congr (by simp [wStart] <;> omega)
            (by simp [cFinReq]) rfl (ihcw i)
        · intro cw2 hq2
          rw [List.getElem?_eq_none (by omega)] at hq2
          exact Option.noConfusion hq2
      · intro i
        show eventOk A C (Phase.joinClouds 0) s.events i
        by_cases hi : i < E
        · exact eventOk_congr (by simp [wStart] <;> omega)
            (by simp [eFinReq]) rfl (ihew i)
        · intro ew2 hq2
          rw [List.getElem?_eq_none (by omega)] at hq2
          exact Option.noConfusion hq2
      · intro q2 hq2
        exact Phase.noConfusion hq2
      · intro q2 hq2
        exact Phase.noConfusion hq2
  | joinCloud c cw h hc hcwq hfin =>
      rw [h] at ihst ihal ihev ihcw ihew
      refine ⟨ihS, ihE, ihA, ihC, ihEv, ?_, ?_, ?_, ?_, ?_, ?_, ?_⟩
      · intro q hq
        show storeOk (Phase.joinClouds (c + 1)) s.storeQs q
        exact storeOk_congr (by simp [sinkBeg]) (by simp [sEndS])
          (by simp [sNoneS]) rfl (ihst q hq)
      · intro q hq
        show alertOk S (Phase.joinClouds (c + 1)) s.alertQs q
        exact alertOk_congr (by simp [sinkBeg]) (by simp [sEndA])
          (by simp [sNoneA]) rfl (ihal q hq)
      · intro q hq
        show evOk (Phase.joinClouds (c + 1)) s.eventQs q
        exact evOk_congr (by simp [sNoneE]) rfl (ihev q hq)
      · intro i
        show cloudOk S E (Phase.joinClouds (c + 1)) s.clouds i
        by_cases hic : i = c
        · subst hic
          intro cw2 hq2
          rw [hcwq] at hq2
          obtain rfl := Option.some.inj hq2
          obtain ⟨o1, o2, o3, o4, o5⟩ := ihcw i cw hcwq
          refine ⟨?_, o2, o3, fun _ => hfin, o5⟩
          rw [o1]
          simp [wStart]
        · exact cloudOk_congr (by simp [wStart])
            (by simp [cFinReq, decide_eq_decide] <;> omega) rfl (ihcw i)
      · intro i
        show eventOk A C (Phase.joinClouds (c + 1)) s.events i
        exact eventOk_congr (by simp [wStart]) (by simp [eFinReq]) rfl (ihew i)
      · intro q2 hq2
        exact Phase.noConfusion hq2
      · intro q2 hq2
        exact Phase.noConfusion hq2
  | joinCloudsDone h =>
      rw [h] at ihst ihal ihev ihcw ihew
      refine ⟨ihS, ihE, ihA, ihC, ihEv, ?_, ?_, ?_, ?_, ?_, ?_, ?_⟩
      · intro q hq
        show storeOk (Phase.endStores 0 false) s.storeQs q
        exact storeOk_congr (by simp [sinkBeg]) (by simp [sEndS])
          (by simp [sNoneS]) rfl (ihst q hq)
      · intro q hq
        show alertOk S (Phase.endStores 0 false) s.alertQs q
        exact alertOk_congr (by simp [sinkBeg]) (by simp [sEndA])
          (by simp [sNoneA]) rfl (ihal q hq)
      · intro q hq
        show evOk (Phase.endStores 0 false) s.eventQs q
        exact evOk_congr (by simp [sNoneE]) rfl (ihev q hq)
      · intro i
        show cloudOk S E (Phase.endStores 0 false) s.clouds i
        by_cases hi : i < C
        · exact cloudOk_congr (by simp [wStart])
            (by simp [cFinReq] <;> omega) rfl (ihcw i)
        · intro cw2 hq2
          rw [List.getElem?_eq_none (by omega)] at hq2
          exact Option.noConfusion hq2
      · intro i
        show eventOk A C (Phase.endStores 0 false) s.events i
        exact eventOk_congr (by simp [wStart]) (by simp [eFinReq]) rfl (ihew i)
      · intro q2 hq2
        simp at hq2
      · intro q2 hq2
        exact Phase.noConfusion hq2
  | endStorePut q h hq =>
      rw [h] at ihst ihal ihev ihcw ihew
      refine ⟨?_, ihE, ihA, ihC, ihEv, ?_, ?_, ?_, ?_, ?_, ?_, ?_⟩
      · show (appAt s.storeQs q Msg.ctrlEnd).length = S
        rw [appAt_length]; exact ihS
      · intro q2 hq2
        show storeOk (Phase.endStores q true) (appAt s.storeQs q Msg.ctrlEnd) q2
        by_cases hqq : q2 = q
        · subst hqq
          obtain ⟨n, h1, h2⟩ := ihst q2 hq2
          rw [show sinkBeg (Phase.endStores q2 false) q2 = true from by simp [sinkBeg],
            show sEndS (Phase.endStores q2 false) q2 = false from by simp [sEndS],
            show sNoneS (Phase.endStores q2 false) q2 = false from by simp [sNoneS]]
            at h1
          refine ⟨n, ?_, ?_⟩
          · rw [appAt_getElem_self h1,
              show sinkBeg (Phase.endStores q2 true) q2 = true from by simp [sinkBeg],
              show sEndS (Phase.endStores q2 true) q2 = true from by simp [sEndS],
              show sNoneS (Phase.endStores q2 true) q2 = false from by simp [sNoneS],
              sinkShape_put_end]
          · intro hF
            rw [show sinkBeg (Phase.endStores q2 true) q2 = true from by
              simp [sinkBeg]] at hF
            exact Bool.noConfusion hF
        · exact storeOk_congr (by simp [sinkBeg])
            (by simp [sEndS, hqq]) (by simp [sNoneS])
            (appAt_getElem_ne _ _ _ hqq) (ihst q2 hq2)
      · intro q2 hq2
        show alertOk S (Phase.endStores q true) s.alertQs q2
        exact alertOk_congr (by simp [sinkBeg]) (by simp [sEndA])
          (by simp [sNoneA]) rfl (ihal q2 hq2)
      · intro q2 hq2
        show evOk (Phase.endStores q true) s.eventQs q2
        exact evOk_congr (by simp [sNoneE]) rfl (ihev q2 hq2)
      · intro i
        show cloudOk S E (Phase.endStores q true) s.clouds i
        exact cloudOk_congr (by simp [wStart]) (by simp [cFinReq]) rfl (ihcw i)
      · intro i
        show eventOk A C (Phase.endStores q true) s.events i
        exact eventOk_congr (by simp [wStart]) (by simp [eFinReq]) rfl (ihew i)
      · intro q2 hq2
        simp at hq2
        omega
      · intro q2 hq2
        exact Phase.noConfusion hq2
  | endStoreNone q h =>
      have hq : q < S := ihpS q h
      rw [h] at ihst ihal ihev ihcw ihew
      refine ⟨?_, ihE, ihA, ihC, ihEv, ?_, ?_, ?_, ?_, ?_, ?_, ?_⟩
      · show (appAt s.storeQs q Msg.sentinel).length = S
        rw [appAt_length]; exact ihS
      · intro q2 hq2
        show storeOk (Phase.endStores (q + 1) false) (appAt s.storeQs q Msg.sentinel) q2
        by_cases hqq : q2 = q
        · subst hqq
          obtain ⟨n, h1, h2⟩ := ihst q2 hq2
          rw [show sinkBeg (Phase.endStores q2 true) q2 = true from by simp [sinkBeg],
            show sEndS (Phase.endStores q2 true) q2 = true from by simp [sEndS],
            show sNoneS (Phase.endStores q2 true) q2 = false from by simp [sNoneS]]
            at h1
          refine ⟨n, ?_, ?_⟩
          · rw [appAt_getElem_self h1,
              show sinkBeg (Phase.endStores (q2 + 1) false) q2 = true from by
                simp [sinkBeg],
              show sEndS (Phase.endStores (q2 + 1) false) q2 = true from by
                simp [sEndS],
              show sNoneS (Phase.endStores (q2 + 1) false) q2 = true from by
                simp [sNoneS],
              sinkShape_put_none]
          · intro hF
            rw [show sinkBeg (Phase.endStores (q2 + 1) false) q2 = true from by
              simp [sinkBeg]] at hF
            exact Bool.noConfusion hF
        · exact storeOk_congr (by simp [sinkBeg])
            (by apply bool_eq_of_iff; simp [sEndS]; omega)
            (by apply bool_eq_of_iff; simp [sNoneS]; omega)
            (appAt_getElem_ne _ _ _ hqq) (ihst q2 hq2)
      · intro q2 hq2
        show alertOk S (Phase.endStores (q + 1) false) s.alertQs q2
        exact alertOk_congr (by simp [sinkBeg]) (by simp [sEndA])
          (by simp [sNoneA]) rfl (ihal q2 hq2)
      · intro q2 hq2
        show evOk (Phase.endStores (q + 1) false) s.eventQs q2
        exact evOk_congr (by simp [sNoneE]) rfl (ihev q2 hq2)
      · intro i
        show cloudOk S E (Phase.endStores (q + 1) false) s.clouds i
        exact cloudOk_congr (by simp [wStart]) (by simp [cFinReq]) rfl (ihcw i)
      · intro i
        show eventOk A C (Phase.endStores (q + 1) false) s.events i
        exact eventOk_congr (by simp [wStart]) (by simp [eFinReq]) rfl (ihew i)
      · intro q2 hq2
        simp at hq2
      · intro q2 hq2
        exact Phase.noConfusion hq2
  | endStoresDone h =>
      rw [h] at ihst ihal ihev ihcw ihew
      refine ⟨ihS, ihE, ihA, ihC, ihEv, ?_, ?_, ?_, ?_, ?_, ?_, ?_⟩
      · intro q hq
        show storeOk (Phase.noneEvents 0) s.storeQs q
        exact storeOk_congr (by simp [sinkBeg])
          (by simp [sEndS] <;> omega) (by simp [sNoneS] <;> omega)
          rfl (ihst q hq)
      · intro q hq
        show alertOk S (Phase.noneEvents 0) s.alertQs q
        exact alertOk_congr (by simp [sinkBeg]) (by simp [sEndA])
          (by simp [sNoneA]) rfl (ihal q hq)
      · intro q hq
        show evOk (Phase.noneEvents 0) s.eventQs q
        exact evOk_congr (by simp [sNoneE]) rfl (ihev q hq)
      · intro i
        show cloudOk S E (Phase.noneEvents 0) s.clouds i
        exact cloudOk_congr (by simp [wStart]) (by simp [cFinReq]) rfl (ihcw i)
      · intro i
        show eventOk A C (Phase.noneEvents 0) s.events i
        exact eventOk_congr (by simp [wStart]) (by simp [eFinReq]) rfl (ihew i)
      · intro q2 hq2
        exact Phase.noConfusion hq2
      · intro q2 hq2
        exact Phase.noConfusion hq2
  | noneEventPut q h hq =>
      rw [h] at ihst ihal ihev ihcw ihew
      refine ⟨ihS, ?_, ihA, ihC, ihEv, ?_, ?_, ?_, ?_, ?_, ?_, ?_⟩
      · show (appAt s.eventQs q Msg.sentinel).length = E
        rw [appAt_length]; exact ihE
      · intro q2 hq2
        show storeOk (Phase.noneEvents (q + 1)) s.storeQs q2
        exact storeOk_congr (by simp [sinkBeg]) (by simp [sEndS])
          (by simp [sNoneS]) rfl (ihst q2 hq2)
      · intro q2 hq2
        show alertOk S (Phase.noneEvents (q + 1)) s.alertQs q2
        exact alertOk_congr (by simp [sinkBeg]) (by simp [sEndA])
          (by simp [sNoneA]) rfl (ihal q2 hq2)
      · intro q2 hq2
        show evOk (Phase.noneEvents (q + 1)) (appAt s.eventQs q Msg.sentinel) q2
        by_cases hqq : q2 = q
        · subst hqq
          obtain ⟨n, h1⟩ := ihev q2 hq2
          rw [show sNoneE (Phase.noneEvents q2) q2 = false from by simp [sNoneE]]
            at h1
          refine ⟨n, ?_⟩
          rw [appAt_getElem_self h1,
            show sNoneE (Phase.noneEvents (q2 + 1)) q2 = true from by simp [sNoneE],
            evShape_put_none]
        · exact evOk_congr (by simp [sNoneE, decide_eq_decide] <;> omega)
            (appAt_getElem_ne _ _ _ hqq) (ihev q2 hq2)
      · intro i
        show cloudOk S E (Phase.noneEvents (q + 1)) s.clouds i
        exact cloudOk_congr (by simp [wStart]) (by simp [cFinReq]) rfl (ihcw i)
      · intro i
        show eventOk A C (Phase.noneEvents (q + 1)) s.events i
        exact eventOk_congr (by simp [wStart]) (by simp [eFinReq]) rfl (ihew i)
      · intro q2 hq2
        exact Phase.noConfusion hq2
      · intro q2 hq2
        exact Phase.noConfusion hq2
  | noneEventsDone h =>
      rw [h] at ihst ihal ihev ihcw ihew
      refine ⟨ihS, ihE, ihA, ihC, ihEv, ?_, ?_, ?_, ?_, ?_, ?_, ?_⟩
      · intro q hq
        show storeOk Phase.joinStores s.storeQs q
        exact storeOk_congr (by simp [sinkBeg]) (by simp [sEndS])
          (by simp [sNoneS]) rfl (ihst q hq)
      · intro q hq
        show alertOk S Phase.joinStores s.alertQs q
        exact alertOk_congr (by simp [sinkBeg]) (by simp [sEndA])
          (by simp [sNoneA]) rfl (ihal q hq)
      · intro q hq
        show evOk Phase.joinStores s.eventQs q
        exact evOk_congr (by simp [sNoneE] <;> omega) rfl (ihev q hq)
      · intro i
        show cloudOk S E Phase.joinStores s.clouds i
        exact cloudOk_congr (by simp [wStart]) (by simp [cFinReq]) rfl (ihcw i)
      · intro i
        show eventOk A C Phase.joinStores s.events i
        exact eventOk_congr (by simp [wStart]) (by simp [eFinReq]) rfl (ihew i)
      · intro q2 hq2
        exact Phase.noConfusion hq2
      · intro q2 hq2
        exact Phase.noConfusion hq2
  | joinStoresDone h =>
      rw [h] at ihst ihal ihev ihcw ihew
      refine ⟨ihS, ihE, ihA, ihC, ihEv, ?_, ?_, ?_, ?_, ?_, ?_, ?_⟩
      · intro q hq
        show storeOk (Phase.joinEvents 0) s.storeQs q
        exact storeOk_congr (by simp [sinkBeg]) (by simp [sEndS])
          (by simp [sNoneS]) rfl (ihst q hq)
      · intro q hq
        show alertOk S (Phase.joinEvents 0) s.alertQs q
        exact alertOk_congr (by simp [sinkBeg]) (by simp [sEndA])
          (by simp [sNoneA]) rfl (ihal q hq)
      · intro q hq
        show evOk (Phase.joinEvents 0) s.eventQs q
        exact evOk_congr (by simp [sNoneE]) rfl (ihev q hq)
      · intro i
        show cloudOk S E (Phase.joinEvents 0) s.clouds i
        exact cloudOk_congr (by simp [wStart]) (by simp [cFinReq]) rfl (ihcw i)
      · intro i
        show eventOk A C (Phase.joinEvents 0) s.events i
        exact eventOk_congr (by simp [wStart]) (by simp [eFinReq]) rfl (ihew i)
      · intro q2 hq2
        exact Phase.noConfusion hq2
      · intro q2 hq2
        exact Phase.noConfusion hq2
  | joinEvent q ew h hq hewq hfin =>
      rw [h] at ihst ihal ihev ihcw ihew
      refine ⟨ihS, ihE, ihA, ihC, ihEv, ?_, ?_, ?_, ?_, ?_, ?_, ?_⟩
      · intro q2 hq2
        show storeOk (Phase.joinEvents (q + 1)) s.storeQs q2
        exact storeOk_congr (by simp [sinkBeg]) (by simp [sEndS])
          (by simp [sNoneS]) rfl (ihst q2 hq2)
      · intro q2 hq2
        show alertOk S (Phase.joinEvents (q + 1)) s.alertQs q2
        exact alertOk_congr (by simp [sinkBeg]) (by simp [sEndA])
          (by simp [sNoneA]) rfl (ihal q2 hq2)
      · intro q2 hq2
        show evOk (Phase.joinEvents (q + 1)) s.eventQs q2
        exact evOk_congr (by simp [sNoneE]) rfl (ihev q2 hq2)
      · intro i
        show cloudOk S E (Phase.joinEvents (q + 1)) s.clouds i
        exact cloudOk_congr (by simp [wStart]) (by simp [cFinReq]) rfl (ihcw i)
      · intro i
        show eventOk A C (Phase.joinEvents (q + 1)) s.events i
        by_cases hiq : i = q
        · subst hiq
          intro ew2 hq2
          rw [hewq] at hq2
          obtain rfl := Option.some.inj hq2
          obtain ⟨o1, o2, o3, o4, o5⟩ := ihew i ew hewq
          refine ⟨?_, o2, o3, fun _ => hfin, o5⟩
          rw [o1]
          simp [wStart]
        · exact eventOk_congr (by simp [wStart])
            (by simp [eFinReq, decide_eq_decide] <;> omega) rfl (ihew i)
      · intro q2 hq2
        exact Phase.noConfusion hq2
      · intro q2 hq2
        exact Phase.noConfusion hq2
  | joinEventsDone h =>
      rw [h] at ihst ihal ihev ihcw ihew
      refine ⟨ihS, ihE, ihA, ihC, ihEv, ?_, ?_, ?_, ?_, ?_, ?_, ?_⟩
      · intro q hq
        show storeOk (Phase.endAlerts 0 false) s.storeQs q
        exact storeOk_congr (by simp [sinkBeg]) (by simp [sEndS])
          (by simp [sNoneS]) rfl (ihst q hq)
      · intro q hq
        show alertOk S (Phase.endAlerts 0 false) s.alertQs q
        exact alertOk_congr (by simp [sinkBeg]) (by simp [sEndA])
          (by simp [sNoneA]) rfl (ihal q hq)
      · intro q hq
        show evOk (Phase.endAlerts 0 false) s.eventQs q
        exact evOk_congr (by simp [sNoneE]) rfl (ihev q hq)
      · intro i
        show cloudOk S E (Phase.endAlerts 0 false) s.clouds i
        exact cloudOk_congr (by simp [wStart]) (by simp [cFinReq]) rfl (ihcw i)
      · intro i
        show eventOk A C (Phase.endAlerts 0 false) s.events i
        by_cases hi : i < E
        · exact eventOk_congr (by simp [wStart])
            (by simp [eFinReq] <;> omega) rfl (ihew i)
        · intro ew2 hq2
          rw [List.getElem?_eq_none (by omega)] at hq2
          exact Option.noConfusion hq2
      · intro q2 hq2
        exact Phase.noConfusion hq2
      · intro q2 hq2
        simp at hq2
  | endAlertPut q h hq =>
      rw [h] at ihst ihal ihev ihcw ihew
      refine ⟨ihS, ihE, ?_, ihC, ihEv, ?_, ?_, ?_, ?_, ?_, ?_, ?_⟩
      · show (appAt s.alertQs q Msg.ctrlEnd).length = A
        rw [appAt_length]; exact ihA
      · intro q2 hq2
        show storeOk (Phase.endAlerts q true) s.storeQs q2
        exact storeOk_congr (by simp [sinkBeg]) (by simp [sEndS])
          (by simp [sNoneS]) rfl (ihst q2 hq2)
      · intro q2 hq2
        show alertOk S (Phase.endAlerts q true) (appAt s.alertQs q Msg.ctrlEnd) q2
        by_cases hqq : q2 = q
        · subst hqq
          obtain ⟨n, h1, h2⟩ := ihal q2 hq2
          rw [show sinkBeg (Phase.endAlerts q2 false) (S + q2) = true from by
              simp [sinkBeg],
            show sEndA (Phase.endAlerts q2 false) q2 = false from by simp [sEndA],
            show sNoneA (Phase.endAlerts q2 false) q2 = false from by simp [sNoneA]]
            at h1
          refine ⟨n, ?_, ?_⟩
          · rw [appAt_getElem_self h1,
              show sinkBeg (Phase.endAlerts q2 true) (S + q2) = true from by
                simp [sinkBeg],
              show sEndA (Phase.endAlerts q2 true) q2 = true from by simp [sEndA],
              show sNoneA (Phase.endAlerts q2 true) q2 = false from by simp [sNoneA],
              sinkShape_put_end]
          · intro hF
            rw [show sinkBeg (Phase.endAlerts q2 true) (S + q2) = true from by
              simp [sinkBeg]] at hF
            exact Bool.noConfusion hF
        · exact alertOk_congr (by simp [sinkBeg])
            (by simp [sEndA, hqq]) (by simp [sNoneA])
            (appAt_getElem_ne _ _ _ hqq) (ihal q2 hq2)
      · intro q2 hq2
        show evOk (Phase.endAlerts q true) s.eventQs q2
        exact evOk_congr (by simp [sNoneE]) rfl (ihev q2 hq2)
      · intro i
        show cloudOk S E (Phase.endAlerts q true) s.clouds i
        exact cloudOk_congr (by simp [wStart]) (by simp [cFinReq]) rfl (ihcw i)
      · intro i
        show eventOk A C (Phase.endAlerts q true) s.events i
        exact eventOk_congr (by simp [wStart]) (by simp [eFinReq]) rfl (ihew i)
      · intro q2 hq2
        exact Phase.noConfusion hq2
      · intro q2 hq2
        simp at hq2
        omega
  | endAlertNone q h =>
      have hq : q < A := ihpA q h
      rw [h] at ihst ihal ihev ihcw ihew
      refine ⟨ihS, ihE, ?_, ihC, ihEv, ?_, ?_, ?_, ?_, ?_, ?_, ?_⟩
      · show (appAt s.alertQs q Msg.sentinel).length = A
        rw [appAt_length]; exact ihA
      · intro q2 hq2
        show storeOk (Phase.endAlerts (q + 1) false) s.storeQs q2
        exact storeOk_congr (by simp [sinkBeg]) (by simp [sEndS])
          (by simp [sNoneS]) rfl (ihst q2 hq2)
      · intro q2 hq2
        show alertOk S (Phase.endAlerts (q + 1) false) (appAt s.alertQs q Msg.sentinel) q2
        by_cases hqq : q2 = q
        · subst hqq
          obtain ⟨n, h1, h2⟩ := ihal q2 hq2
          rw [show sinkBeg (Phase.endAlerts q2 true) (S + q2) = true from by
              simp [sinkBeg],
            show sEndA (Phase.endAlerts q2 true) q2 = true from by simp [sEndA],
            show sNoneA (Phase.endAlerts q2 true) q2 = false from by simp [sNoneA]]
            at h1
          refine ⟨n, ?_, ?_⟩
          · rw [appAt_getElem_self h1,
              show sinkBeg (Phase.endAlerts (q2 + 1) false) (S + q2) = true from by
                simp [sinkBeg],
              show sEndA (Phase.endAlerts (q2 + 1) false) q2 = true from by
                simp [sEndA],
              show sNoneA (Phase.endAlerts (q2 + 1) false) q2 = true from by
                simp [sNoneA],
              sinkShape_put_none]
          · intro hF
            rw [show sinkBeg (Phase.endAlerts (q2 + 1) false) (S + q2) = true from by
              simp [sinkBeg]] at hF
            exact Bool.noConfusion hF
        · exact alertOk_congr (by simp [sinkBeg])
            (by apply bool_eq_of_iff; simp [sEndA]; omega)
            (by apply bool_eq_of_iff; simp [sNoneA]; omega)
            (appAt_getElem_ne _ _ _ hqq) (ihal q2 hq2)
      · intro q2 hq2
        show evOk (Phase.endAlerts (q + 1) false) s.eventQs q2
        exact evOk_congr (by simp [sNoneE]) rfl (ihev q2 hq2)
      · intro i
        show cloudOk S E (Phase.endAlerts (q + 1) false) s.clouds i
        exact cloudOk_congr (by simp [wStart]) (by simp [cFinReq]) rfl (ihcw i)
      · intro i
        show eventOk A C (Phase.endAlerts (q + 1) false) s.events i
        exact eventOk_congr (by simp [wStart]) (by simp [eFinReq]) rfl (ihew i)
      · intro q2 hq2
        exact Phase.noConfusion hq2
      · intro q2 hq2
        simp at hq2
  | endAlertsDone h =>
      rw [h] at ihst ihal ihev ihcw ihew
      refine ⟨ihS, ihE, ihA, ihC, ihEv, ?_, ?_, ?_, ?_, ?_, ?_, ?_⟩
      · intro q hq
        show storeOk Phase.joinAlerts s.storeQs q
        exact storeOk_congr (by simp [sinkBeg]) (by simp [sEndS])
          (by simp [sNoneS]) rfl (ihst q hq)
      · intro q hq
        show alertOk S Phase.joinAlerts s.alertQs q
        exact alertOk_congr (by simp [sinkBeg])
          (by simp [sEndA] <;> omega) (by simp [sNoneA] <;> omega)
          rfl (ihal q hq)
      · intro q hq
        show evOk Phase.joinAlerts s.eventQs q
        exact evOk_congr (by simp [sNoneE]) rfl (ihev q hq)
      · intro i
        show cloudOk S E Phase.joinAlerts s.clouds i
        exact cloudOk_congr (by simp [wStart]) (by simp [cFinReq]) rfl (ihcw i)
      · intro i
        show eventOk A C Phase.joinAlerts s.events i
        exact eventOk_congr (by simp [wStart]) (by simp [eFinReq]) rfl (ihew i)
      · intro q2 hq2
        exact Phase.noConfusion hq2
      · intro q2 hq2
        exact Phase.noConfusion hq2
  | joinAlertsDone h =>
      rw [h] at ihst ihal ihev ihcw ihew
      refine ⟨ihS, ihE, ihA, ihC, ihEv, ?_, ?_, ?_, ?_, ?_, ?_, ?_⟩
      · intro q hq
        show storeOk Phase.finished s.storeQs q
        exact storeOk_congr (by simp [sinkBeg]) (by simp [sEndS])
          (by simp [sNoneS]) rfl (ihst q hq)
      · intro q hq
        show alertOk S Phase.finished s.alertQs q
        exact alertOk_congr (by simp [sinkBeg]) (by simp [sEndA])
          (by simp [sNoneA]) rfl (ihal q hq)
      · intro q hq
        show evOk Phase.finished s.eventQs q
        exact evOk_congr (by simp [sNoneE]) rfl (ihev q hq)
      · intro i
        show cloudOk S E Phase.finished s.clouds i
        exact cloudOk_congr (by simp [wStart]) (by simp [cFinReq]) rfl (ihcw i)
      · intro i
        show eventOk A C Phase.finished s.events i
        exact eventOk_congr (by simp [wStart]) (by simp [eFinReq]) rfl (ihew i)
      · intro q2 hq2
        exact Phase.noConfusion hq2
      · intro q2 hq2
        exact Phase.noConfusion hq2
  | cloudTake i cw n hcwq hs hf ho hp =>
      refine ⟨ihS, ihE, ihA, ?_, ihEv, ?_, ?_, ?_, ?_, ?_, ?_, ?_⟩
      · show (s.clouds.set i { cw with pending := n, outs := List.range (S + E) }).length = C
        rw [List.length_set]; exact ihC
      · intro q hq
        exact ihst q hq
      · intro q hq
        exact ihal q hq
      · intro q hq
        exact ihev q hq
      · intro i2
        show cloudOk S E s.pc (s.clouds.set i { cw with pending := n, outs := List.range (S + E) }) i2
        by_cases hii : i2 = i
        · subst hii
          intro cw2 hq2
          rw [getElemQ_set_self _ hcwq] at hq2
          obtain rfl := Option.some.inj hq2
          obtain ⟨o1, o2, o3, o4, o5⟩ := ihcw i2 cw hcwq
          refine ⟨o1, ?_, ?_, ?_, ?_⟩
          · intro hfalse
            have hx : cw.started = false := hfalse
            rw [hs] at hx
            exact Bool.noConfusion hx
          · intro hfin
            have hx : cw.fin = true := hfin
            rw [hf] at hx
            exact Bool.noConfusion hx
          · intro hcf
            exact absurd (o4 hcf) (by rw [hf]; simp)
          · intro x hx
            have hx2 : x ∈ List.range (S + E) := hx
            exact List.mem_range.mp hx2
        · intro cw2 hq2
          rw [getElemQ_set_ne _ _ _ hii] at hq2
          exact ihcw i2 cw2 hq2
      · intro i2
        exact ihew i2
      · intro q2 hq2
        exact ihpS q2 hq2
      · intro q2 hq2
        exact ihpA q2 hq2
  | cloudPutStore i cw q rest hcwq ho hq =>
      obtain ⟨hsT, hfF, hwS, hcfF⟩ := cloudOk_active (ihcw i) hcwq ho
      obtain ⟨fb, fe, fs, fe2⟩ := cloudActive_flags hwS hcfF
      refine ⟨?_, ihE, ihA, ?_, ihEv, ?_, ?_, ?_, ?_, ?_, ?_, ?_⟩
      · show (appAt s.storeQs q Msg.data).length = S
        rw [appAt_length]; exact ihS
      · show (s.clouds.set i { cw with outs := rest }).length = C
        rw [List.length_set]; exact ihC
      · intro q2 hq2
        show storeOk s.pc (appAt s.storeQs q Msg.data) q2
        by_cases hqq : q2 = q
        · subst hqq
          obtain ⟨n, h1, h2⟩ := ihst q2 hq2
          rw [fb q2, fe q2, fs q2] at h1
          refine ⟨n + 1, ?_, ?_⟩
          · rw [appAt_getElem_self h1, fb q2, fe q2, fs q2, sinkShape_put_data]
          · intro hF
            rw [fb q2] at hF
            exact Bool.noConfusion hF
        · exact storeOk_congr rfl rfl rfl (appAt_getElem_ne _ _ _ hqq) (ihst q2 hq2)
      · intro q2 hq2
        exact ihal q2 hq2
      · intro q2 hq2
        exact ihev q2 hq2
      · intro i2
        show cloudOk S E s.pc (s.clouds.set i { cw with outs := rest }) i2
        by_cases hii : i2 = i
        · subst hii
          intro cw2 hq2
          rw [getElemQ_set_self _ hcwq] at hq2
          obtain rfl := Option.some.inj hq2
          obtain ⟨o1, o2, o3, o4, o5⟩ := ihcw i2 cw hcwq
          refine ⟨o1, ?_, ?_, ?_, ?_⟩
          · intro hfalse
            have hx : cw.started = false := hfalse
            rw [hsT] at hx
            exact Bool.noConfusion hx
          · intro hfin
            have hx : cw.fin = true := hfin
            rw [hfF] at hx
            exact Bool.noConfusion hx
          · intro hcf
            rw [hcf] at hcfF
            exact Bool.noConfusion hcfF
          · intro x hx
            have hx2 : x ∈ rest := hx
            exact o5 x (by rw [ho]; exact List.mem_cons_of_mem q hx2)
        · intro cw2 hq2
          rw [getElemQ_set_ne _ _ _ hii] at hq2
          exact ihcw i2 cw2 hq2
      · intro i2
        exact ihew i2
      · intro q2 hq2
        exact ihpS q2 hq2
      · intro q2 hq2
        exact ihpA q2 hq2
  | cloudPutEvent i cw q rest hcwq ho hq =>
      obtain ⟨hsT, hfF, hwS, hcfF⟩ := cloudOk_active (ihcw i) hcwq ho
      obtain ⟨fb, fe, fs, fe2⟩ := cloudActive_flags hwS hcfF
      obtain ⟨o1, o2, o3, o4, o5⟩ := ihcw i cw hcwq
      have hqSE : q < S + E := o5 q (by rw [ho]; exact List.mem_cons_self q rest)
      refine ⟨ihS, ?_, ihA, ?_, ihEv, ?_, ?_, ?_, ?_, ?_, ?_, ?_⟩
      · show (appAt s.eventQs (q - S) Msg.data).length = E
        rw [appAt_length]; exact ihE
      · show (s.clouds.set i { cw with outs := rest }).length = C
        rw [List.length_set]; exact ihC
      · intro q2 hq2
        exact ihst q2 hq2
      · intro q2 hq2
        exact ihal q2 hq2
      · intro q2 hq2
        show evOk s.pc (appAt s.eventQs (q - S) Msg.data) q2
        by_cases hqq : q2 = q - S
        · subst hqq
          obtain ⟨n, h1⟩ := ihev (q - S) hq2
          rw [fe2 (q - S)] at h1
          refine ⟨n + 1, ?_⟩
          rw [appAt_getElem_self h1, fe2 (q - S), evShape_put_data]
        · exact evOk_congr rfl (appAt_getElem_ne _ _ _ hqq) (ihev q2 hq2)
      · intro i2
        show cloudOk S E s.pc (s.clouds.set i { cw with outs := rest }) i2
        by_cases hii : i2 = i
        · subst hii
          intro cw2 hq2
          rw [getElemQ_set_self _ hcwq] at hq2
          obtain rfl := Option.some.inj hq2
          refine ⟨o1, ?_, ?_, ?_, ?_⟩
          · intro hfalse
            have hx : cw.started = false := hfalse
            rw [hsT] at hx
            exact Bool.noConfusion hx
          · intro hfin
            have hx : cw.fin = true := hfin
            rw [hfF] at hx
            exact Bool.noConfusion hx
          · intro hcf
            rw [hcf] at hcfF
            exact Bool.noConfusion hcfF
          · intro x hx
            have hx2 : x ∈ rest := hx
            exact o5 x (by rw [ho]; exact List.mem_cons_of_mem q hx2)
        · intro cw2 hq2
          rw [getElemQ_set_ne _ _ _ hii] at hq2
          exact ihcw i2 cw2 hq2
      · intro i2
        exact ihew i2
      · intro q2 hq2
        exact ihpS q2 hq2
      · intro q2 hq2
        exact ihpA q2 hq2
  | cloudFin i cw hcwq hs hf ho hp =>
      refine ⟨ihS, ihE, ihA, ?_, ihEv, ?_, ?_, ?_, ?_, ?_, ?_, ?_⟩
      · show (s.clouds.set i { cw with fin := true }).length = C
        rw [List.length_set]; exact ihC
      · intro q hq
        exact ihst q hq
      · intro q hq
        exact ihal q hq
      · intro q hq
        exact ihev q hq
      · intro i2
        show cloudOk S E s.pc (s.clouds.set i { cw with fin := true }) i2
        by_cases hii : i2 = i
        · subst hii
          intro cw2 hq2
          rw [getElemQ_set_self _ hcwq] at hq2
          obtain rfl := Option.some.inj hq2
          obtain ⟨o1, o2, o3, o4, o5⟩ := ihcw i2 cw hcwq
          refine ⟨o1, ?_, fun _ => ho, fun _ => rfl, o5⟩
          intro hfalse
          have hx : cw.started = false := hfalse
          rw [hs] at hx
          exact Bool.noConfusion hx
        · intro cw2 hq2
          rw [getElemQ_set_ne _ _ _ hii] at hq2
          exact ihcw i2 cw2 hq2
      · intro i2
        exact ihew i2
      · intro q2 hq2
        exact ihpS q2 hq2
      · intro q2 hq2
        exact ihpA q2 hq2
  | eventConsume i ew qc m kDerived hewq hs hf ho hqc hm hns =>
      refine ⟨ihS, ihE, ihA, ihC, ?_, ?_, ?_, ?_, ?_, ?_, ?_, ?_⟩
      · show (s.events.set i { ew with pos := ew.pos + 1, outs := (List.replicate kDerived (List.range A)).join }).length = E
        rw [List.length_set]; exact ihEv
      · intro q hq
        exact ihst q hq
      · intro q hq
        exact ihal q hq
      · intro q hq
        exact ihev q hq
      · intro i2
        exact ihcw i2
      · intro i2
        show eventOk A C s.pc (s.events.set i { ew with pos := ew.pos + 1, outs := (List.replicate kDerived (List.range A)).join }) i2
        by_cases hii : i2 = i
        · subst hii
          intro ew2 hq2
          rw [getElemQ_set_self _ hewq] at hq2
          obtain rfl := Option.some.inj hq2
          obtain ⟨o1, o2, o3, o4, o5⟩ := ihew i2 ew hewq
          refine ⟨o1, ?_, ?_, ?_, ?_⟩
          · intro hfalse
            have hx : ew.started = false := hfalse
            rw [hs] at hx
            exact Bool.noConfusion hx
          · intro hfin
            have hx : ew.fin = true := hfin
            rw [hf] at hx
            exact Bool.noConfusion hx
          · intro hef
            exact absurd (o4 hef) (by rw [hf]; simp)
          · intro x hx
            have hx2 : x ∈ (List.replicate kDerived (List.range A)).join := hx
            obtain ⟨l, hl, hxl⟩ := List.mem_join.mp hx2
            rw [List.eq_of_mem_replicate hl] at hxl
            exact List.mem_range.mp hxl
        · intro ew2 hq2
          rw [getElemQ_set_ne _ _ _ hii] at hq2
          exact ihew i2 ew2 hq2
      · intro q2 hq2
        exact ihpS q2 hq2
      · intro q2 hq2
        exact ihpA q2 hq2
  | eventPut i ew q rest hewq ho =>
      obtain ⟨hsT, hfF, hwS, hefF⟩ := eventOk_active (ihew i) hewq ho
      obtain ⟨fb, fe, fn⟩ := eventActive_flags hwS hefF
      obtain ⟨o1, o2, o3, o4, o5⟩ := ihew i ew hewq
      have hqA : q < A := o5 q (by rw [ho]; exact List.mem_cons_self q rest)
      refine ⟨ihS, ihE, ?_, ihC, ?_, ?_, ?_, ?_, ?_, ?_, ?_, ?_⟩
      · show (appAt s.alertQs q Msg.data).length = A
        rw [appAt_length]; exact ihA
      · show (s.events.set i { ew with outs := rest }).length = E
        rw [List.length_set]; exact ihEv
      · intro q2 hq2
        exact ihst q2 hq2
      · intro q2 hq2
        show alertOk S s.pc (appAt s.alertQs q Msg.data) q2
        by_cases hqq : q2 = q
        · subst hqq
          obtain ⟨n, h1, h2⟩ := ihal q2 hq2
          rw [fb (S + q2), fe q2, fn q2] at h1
          refine ⟨n + 1, ?_, ?_⟩
          · rw [appAt_getElem_self h1, fb (S + q2), fe q2, fn q2, sinkShape_put_data]
          · intro hF
            rw [fb (S + q2)] at hF
            exact Bool.noConfusion hF
        · exact alertOk_congr rfl rfl rfl (appAt_getElem_ne _ _ _ hqq) (ihal q2 hq2)
      · intro q2 hq2
        exact ihev q2 hq2
      · intro i2
        exact ihcw i2
      · intro i2
        show eventOk A C s.pc (s.events.set i { ew with outs := rest }) i2
        by_cases hii : i2 = i
        · subst hii
          intro ew2 hq2
          rw [getElemQ_set_self _ hewq] at hq2
          obtain rfl := Option.some.inj hq2
          refine ⟨o1, ?_, ?_, ?_, ?_⟩
          · intro hfalse
            have hx : ew.started = false := hfalse
            rw [hsT] at hx
            exact Bool.noConfusion hx
          · intro hfin
            have hx : ew.fin = true := hfin
            rw [hfF] at hx
            exact Bool.noConfusion hx
          · intro hef
            rw [hef] at hefF
            exact Bool.noConfusion hefF
          · intro x hx
            have hx2 : x ∈ rest := hx
            exact o5 x (by rw [ho]; exact List.mem_cons_of_mem q hx2)
        · intro ew2 hq2
          rw [getElemQ_set_ne _ _ _ hii] at hq2
          exact ihew i2 ew2 hq2
      · intro q2 hq2
        exact ihpS q2 hq2
      · intro q2 hq2
        exact ihpA q2 hq2
  | eventFin i ew qc hewq hs hf ho hqc hm =>
      refine ⟨ihS, ihE, ihA, ihC, ?_, ?_, ?_, ?_, ?_, ?_, ?_, ?_⟩
      · show (s.events.set i { ew with fin := true }).length = E
        rw [List.length_set]; exact ihEv
      · intro q hq
        exact ihst q hq
      · intro q hq
        exact ihal q hq
      · intro q hq
        exact ihev q hq
      · intro i2
        exact ihcw i2
      · intro i2
        show eventOk A C s.pc (s.events.set i { ew with fin := true }) i2
        by_cases hii : i2 = i
        · subst hii
          intro ew2 hq2
          rw [getElemQ_set_self _ hewq] at hq2
          obtain rfl := Option.some.inj hq2
          obtain ⟨o1, o2, o3, o4, o5⟩ := ihew i2 ew hewq
          refine ⟨o1, ?_, fun _ => ho, fun _ => rfl, o5⟩
          intro hfalse
          have hx : ew.started = false := hfalse
          rw [hs] at hx
          exact Bool.noConfusion hx
        · intro ew2 hq2
          rw [getElemQ_set_ne _ _ _ hii] at hq2
          exact ihew i2 ew2 hq2
      · intro q2 hq2
        exact ihpS q2 hq2
      · intro q2 hq2
        exact ihpA q2 hq2

theorem aInv_reach {S E A C : Nat} {s t : AuditSys} (inv : AInv S E A C s)
    (hr : AReach S E A C s t) : AInv S E A C t := by
  induction hr with
  | refl => exact inv
  | tail _ hstep ih => exact aInv_step ih hstep

theorem sinkShape_final (n : Nat) : sinkShape true n true true =
    Msg.ctrlBegin :: (List.replicate n Msg.data ++ [Msg.ctrlEnd, Msg.sentinel]) := by
  simp [sinkShape, optMsg]

theorem evShape_final (n : Nat) : evShape n true =
    List.replicate n Msg.data ++ [Msg.sentinel] := by
  simp [evShape, optMsg]

/-- In any completed audit run, every store queue and every alert
queue received exactly `begin_audit`, then data records, then
`end_audit`, then the sentinel, and every event queue received data
records followed by the sentinel. -/
theorem audit_final {S E A C : Nat} {recs : List Nat} (hC : recs.length = C)
    {t : AuditSys} (hr : AReach S E A C (aInit S E A recs) t)
    (hpc : t.pc = Phase.finished) :
    (∀ q, q < S → ∃ n, t.storeQs[q]? =
      some (Msg.ctrlBegin :: (List.replicate n Msg.data ++
        [Msg.ctrlEnd, Msg.sentinel]))) ∧
    (∀ q, q < A → ∃ n, t.alertQs[q]? =
      some (Msg.ctrlBegin :: (List.replicate n Msg.data ++
        [Msg.ctrlEnd, Msg.sentinel]))) ∧
    (∀ q, q < E → ∃ n, t.eventQs[q]? =
      some (List.replicate n Msg.data ++ [Msg.sentinel])) := by
  have inv0 : AInv S E A C (aInit S E A recs) := hC ▸ aInv_init S E A recs
  have inv := aInv_reach inv0 hr
  refine ⟨?_, ?_, ?_⟩
  · intro q hq
    obtain ⟨n, h1, _⟩ := inv.hstore q hq
    rw [hpc] at h1
    rw [show sinkBeg Phase.finished q = true from by simp [sinkBeg],
      show sEndS Phase.finished q = true from by simp [sEndS],
      show sNoneS Phase.finished q = true from by simp [sNoneS],
      sinkShape_final] at h1
    exact ⟨n, h1⟩
  · intro q hq
    obtain ⟨n, h1, _⟩ := inv.halert q hq
    rw [hpc] at h1
    rw [show sinkBeg Phase.finished (S + q) = true from by simp [sinkBeg],
      show sEndA Phase.finished q = true from by simp [sEndA],
      show sNoneA Phase.finished q = true from by simp [sNoneA],
      sinkShape_final] at h1
    exact ⟨n, h1⟩
  · intro q hq
    obtain ⟨n, h1⟩ := inv.hevq q hq
    rw [hpc] at h1
    rw [show sNoneE Phase.finished q = true from by simp [sNoneE],
      evShape_final] at h1
    exact ⟨n, h1⟩

theorem mergeVarH_example :
    mergeVarH 2 [Obj.dict []] 0 0 =
      some ([Obj.dict [], Obj.dict [], Obj.dict [], Obj.dict []], 3) := by
  simp [mergeVarH, mergeH, deepcopyH, copyEntriesH, mergeLoopH]

/-- Enriching a record with no `com` bucket stores exactly the engine
bookkeeping dictionary. -/
theorem enrich_empty (eng : Entries) (heng : NodupK eng) :
    enrichWith eng [] = some [("com", Val.dict eng)] := by
  simp [enrichWith, comEntries, lookupK, setK, merge_dicts_empty_left heng]

theorem write_worker_write_mem {meta : WorkerMeta} {wtype : String}
    {wb : Nat → Bool} {dOk : Bool} {r : Record} {ok : Bool} :
    ∀ {i : Nat} {queue : List (Option Record)},
      WEv.write r ok ∈ write_worker meta wtype wb dOk i queue →
      ∃ r0, enrichWith (targetCom meta wtype) r0 = some r := by
  intro i queue
  induction queue generalizing i with
  | nil => intro h; rw [write_worker] at h; simp at h
  | cons item rest ih =>
      intro h
      rcases item with _ | r1
      · rw [write_worker] at h
        simp at h
      · rw [write_worker] at h
        rcases he : enrichWith (targetCom meta wtype) r1 with _ | r2
        · simp only [he] at h
          simp at h
        · simp only [he] at h
          rcases List.mem_cons.mp h with h1 | h1
          · injection h1 with h2 h3
            refine ⟨r1, ?_⟩
            rw [he, h2]
          · exact ih h1

/-- Sample worker identity used by concrete instantiations. -/
def meta0 : WorkerMeta := ⟨"a", "v", "p", "K"⟩

/-- Concrete record leaving `cloud_worker` for an input with no `com`
bucket. -/
def rC0 : Record := [("com", Val.dict (originCom meta0 "cloud"))]

/-- Concrete record leaving `event_worker` for a derived record with
no `com` bucket. -/
def rE0 : Record := [("com", Val.dict (originCom meta0 "event"))]

/-- Concrete record as a store sink's `write` receives it. -/
def rT0 : Record := [("com", Val.dict (targetCom meta0 "store"))]

/-- An `eval` behaviour that yields one derived record and then raises
on every input. -/
def eb0 : EvalBeh := ⟨fun _ => [[]], fun _ => true⟩

/-- C3: every record a cloud worker puts on a downstream queue carries
`com.origin_type = "cloud"` and the worker's `audit_key`,
`audit_version`, `origin_key`, `origin_class` and `origin_worker`
(`audit_key + "_" + plugin_key`), regardless of the `com` values the
plugin supplied; every record an event worker emits carries
`com.origin_type = "event"` and the same identifying fields of that
evaluator. -/
theorem c3_origin_fields :
    (∀ (meta : WorkerMeta) (recs : List Record) (dOk : Bool) (nq q : Nat)
        (r : Record), WEv.put q r ∈ cloud_worker meta recs dOk nq →
        OriginFields meta "cloud" r) ∧
    (∀ (meta : WorkerMeta) (eb : EvalBeh) (dOk : Bool) (nq i : Nat)
        (queue : List (Option Record)) (q : Nat) (r : Record),
        WEv.put q r ∈ event_worker meta eb dOk nq i queue →
        OriginFields meta "event" r) := by
  constructor
  · intro meta recs dOk nq q r h
    rw [cloud_worker] at h
    rcases List.mem_append.mp h with h1 | h1
    · obtain ⟨r0, he⟩ := cloud_worker_puts_mem h1
      exact enrichWith_originFields he
    · simp at h1
  · intro meta eb dOk nq i queue q r h
    obtain ⟨r0, he⟩ := event_worker_put_mem h
    exact enrichWith_originFields he

theorem c3_origin_fields_witness :
    WEv.put 0 rC0 ∈ cloud_worker meta0 [[]] true 1 ∧
    OriginFields meta0 "cloud" rC0 := by
  have he : enrichWith (originCom meta0 "cloud") [] = some rC0 :=
    enrich_empty _ (nodupK_originCom meta0 "cloud")
  have htr : cloud_worker meta0 [[]] true 1 = [WEv.put 0 rC0, WEv.done true] := by
    rw [cloud_worker, cloud_worker_puts]
    simp only [he]
    rw [cloud_worker_puts]
    rfl
  have hmem : WEv.put 0 rC0 ∈ cloud_worker meta0 [[]] true 1 := by
    rw [htr]
    simp
  exact ⟨hmem, c3_origin_fields.1 meta0 [[]] true 1 0 rC0 hmem⟩

/-- C4: `merge_dicts` laws: (a) merging with an empty right dictionary
returns the left one; (b) merging an empty left dictionary returns the
right one; (c) a successful run of the heap-level merge leaves every
pre-existing heap cell (in particular both inputs and everything
reachable from them) unchanged; (d) for a key of both inputs whose two
values are not both dictionaries the right value wins; and (e) when
both values are dictionaries they are merged recursively by the same
rule. -/
theorem c4_merge_dicts_laws :
    (∀ a : Entries, NodupK a → merge_dicts a [] = a) ∧
    (∀ b : Entries, NodupK b → merge_dicts [] b = b) ∧
    (∀ (fuel : Nat) (h : Heap) (x y : Nat) (h2 : Heap) (r : Nat),
        mergeVarH fuel h x y = some (h2, r) →
        ∀ i, i < h.length → h2[i]? = h[i]?) ∧
    (∀ a b : Entries, NodupK a → NodupK b →
        ∀ (k : String) (vb : Val), lookupK b k = some vb →
        ¬ (isDictAt a k = true ∧ vb.isDict = true) →
        lookupK (merge_dicts a b) k = some vb) ∧
    (∀ a b : Entries, NodupK a → NodupK b →
        ∀ (k : String) (ae be : Entries),
        lookupK a k = some (Val.dict ae) → lookupK b k = some (Val.dict be) →
        lookupK (merge_dicts a b) k = some (Val.dict (merge_dicts ae be))) := by
  refine ⟨?_, ?_, ?_, ?_, ?_⟩
  · intro a ha
    exact merge_dicts_empty_right ha
  · intro b hb
    exact merge_dicts_empty_left hb
  · intro fuel h x y h2 r hc i hi
    exact mergeVarH_no_mutation hc i hi
  · intro a b ha hb k vb hkb hnd
    exact merge_dicts_right_wins ha hb hkb hnd
  · intro a b ha hb k ae be hka hkb
    exact merge_dicts_both_dicts ha hb hka hkb

theorem c4_merge_dicts_laws_witness :
    merge_dicts [("x", Val.int 1)] [] = [("x", Val.int 1)] ∧
    merge_dicts [] [("y", Val.int 2)] = [("y", Val.int 2)] ∧
    (∀ i, i < ([Obj.dict []] : Heap).length →
      ([Obj.dict [], Obj.dict [], Obj.dict [], Obj.dict []] : Heap)[i]? =
        ([Obj.dict []] : Heap)[i]?) ∧
    lookupK (merge_dicts [("k", Val.int 1)] [("k", Val.int 2)]) "k" =
      some (Val.int 2) ∧
    lookupK (merge_dicts [("k", Val.dict [("a", Val.int 1)])]
        [("k", Val.dict [("b", Val.int 2)])]) "k" =
      some (Val.dict (merge_dicts [("a", Val.int 1)] [("b", Val.int 2)])) := by
  obtain ⟨h1, h2, h3, h4, h5⟩ := c4_merge_dicts_laws
  refine ⟨h1 _ (by decide), h2 _ (by decide),
    h3 2 [Obj.dict []] 0 0 _ 3 mergeVarH_example, ?_, ?_⟩
  · exact h4 [("k", Val.int 1)] [("k", Val.int 2)] (by decide) (by decide)
      "k" (Val.int 2) rfl (by decide)
  · exact h5 [("k", Val.dict [("a", Val.int 1)])]
      [("k", Val.dict [("b", Val.int 2)])] (by decide) (by decide)
      "k" [("a", Val.int 1)] [("b", Val.int 2)] rfl rfl

/-- C5: `load_plugin` raises `PluginError` exactly when the class path
has no dot separating module from class; otherwise it resolves the
module (everything before the last dot) and the class (after it) and
returns an instance of that class constructed with the configured
parameters, propagating module, attribute and constructor errors
unchanged. -/
theorem c5_load_plugin (env : Env) (cfg : PluginConfig) :
    ((∃ msg, load_plugin env cfg = Except.error (LoadErr.pluginError msg)) ↔
      cfg.plugin.contains '.' = false) ∧
    (∀ m c : List Char, c.contains '.' = false → cfg.plugin = m ++ '.' :: c →
      load_plugin env cfg =
        match assocFind env.modules m with
        | none => Except.error (LoadErr.moduleNotFound m)
        | some md =>
            match assocFind md c with
            | none => Except.error (LoadErr.attributeError c)
            | some cd =>
                match cd.raises (cfg.params.getD []) with
                | some msg => Except.error (LoadErr.constructorError msg)
                | none => Except.ok ⟨m, c, cfg.params.getD []⟩) := by
  refine ⟨load_plugin_pluginError_iff env cfg, ?_⟩
  intro m c hc hpath
  exact load_plugin_resolves env cfg hc hpath

/-- Sample plugin environment: module `pkg.mod` holding a class `C`
whose constructor accepts any keyword arguments. -/
def mod0 : PyModule := [(['C'], ⟨fun _ => none⟩)]

def env0 : Env := ⟨[(['p', 'k', 'g', '.', 'm', 'o', 'd'], mod0)]⟩

def cfg0 : PluginConfig :=
  ⟨['p', 'k', 'g', '.', 'm', 'o', 'd', '.', 'C'], some [("x", Val.int 1)]⟩

def cfg1 : PluginConfig := ⟨['n', 'o', 'd', 'o', 't'], none⟩

theorem c5_load_plugin_witness :
    load_plugin env0 cfg0 =
      Except.ok ⟨['p', 'k', 'g', '.', 'm', 'o', 'd'], ['C'],
        [("x", Val.int 1)]⟩ ∧
    (∃ msg, load_plugin env0 cfg1 = Except.error (LoadErr.pluginError msg)) := by
  constructor
  · have h := (c5_load_plugin env0 cfg0).2 ['p', 'k', 'g', '.', 'm', 'o', 'd']
      ['C'] (by decide) rfl
    rw [h]
    rfl
  · exact (c5_load_plugin env0 cfg1).1.mpr (by decide)

/-- C7 (amended): the store/alert worker isolates `write` failures: on
a queue of records followed by the sentinel it performs one `write`
invocation per record, whatever earlier invocations raised, and then
exactly one `done`; the event worker isolates `eval` failures per
input: each input contributes exactly the derived records `eval`
yielded before completing or raising (a mid-iteration exception drops
only that input's remaining records, not the ones already enqueued),
the worker continues with the next input, and `done` is still invoked
exactly once at the sentinel; a cloud worker likewise invokes `done`
exactly once even when `read` raised. -/
theorem c7_exception_isolation :
    (∀ (meta : WorkerMeta) (wtype : String) (wb : Nat → Bool) (dOk : Bool)
        (rs : List Record) (i : Nat) (rest : List (Option Record)),
        (∀ r ∈ rs, GoodCom r) →
        write_worker meta wtype wb dOk i (rs.map some ++ none :: rest) =
          writeEvs meta wtype wb i rs ++ [WEv.done dOk] ∧
        doneCount (write_worker meta wtype wb dOk i
          (rs.map some ++ none :: rest)) = 1) ∧
    (∀ (meta : WorkerMeta) (eb : EvalBeh) (dOk : Bool) (nq : Nat)
        (rs : List Record) (i : Nat) (rest : List (Option Record)),
        event_worker meta eb dOk nq i (rs.map some ++ none :: rest) =
          eventSegs meta nq eb i rs.length ++ [WEv.done dOk] ∧
        doneCount (event_worker meta eb dOk nq i
          (rs.map some ++ none :: rest)) = 1) ∧
    (∀ (meta : WorkerMeta) (recs : List Record) (dOk : Bool) (nq : Nat),
        doneCount (cloud_worker meta recs dOk nq) = 1) := by
  refine ⟨?_, ?_, ?_⟩
  · intro meta wtype wb dOk rs i rest hgood
    have htr := write_worker_trace_eq meta wtype wb dOk rs i rest hgood
    refine ⟨htr, ?_⟩
    rw [htr, doneCount_append, doneCount_writeEvs]
    rfl
  · intro meta eb dOk nq rs i rest
    have htr := event_worker_trace_eq meta eb dOk nq rs i rest
    refine ⟨htr, ?_⟩
    rw [htr, doneCount_append, doneCount_eventSegs]
    rfl
  · intro meta recs dOk nq
    rw [cloud_worker, doneCount_append, doneCount_cloud_worker_puts]
    rfl

/-- The original eval clause of the claim is false: `eval` is a lazy
generator iterated inside the `try`, so the derived records it yields
before raising are already enriched and enqueued — here input 0 makes
`eval` raise (`raisesAfter`), yet its first derived record reaches the
output queue. -/
theorem c7_exception_isolation_cex :
    eb0.raisesAfter 0 = true ∧
    WEv.put 0 rE0 ∈ event_worker meta0 eb0 true 1 0 [some [], none] := by
  refine ⟨rfl, ?_⟩
  have he : enrichWith (originCom meta0 "event") [] = some rE0 :=
    enrich_empty _ (nodupK_originCom meta0 "event")
  have htr : event_worker meta0 eb0 true 1 0 [some [], none] =
      [WEv.put 0 rE0, WEv.done true] := by
    rw [show ([some [], none] : List (Option Record)) =
      ([[]] : List Record).map some ++ none :: [] from rfl]
    rw [event_worker_trace_eq]
    rw [show ([[]] : List Record).length = 1 from rfl]
    rw [eventSegs, eventSegs]
    rw [show eb0.derived 0 = [[]] from rfl]
    rw [event_derived_puts]
    simp only [he]
    rw [event_derived_puts]
    rfl
  rw [htr]
  simp

theorem c7_exception_isolation_witness :
    write_worker meta0 "store" (fun _ => false) true 0
        (([[]] : List Record).map some ++ none :: []) =
      writeEvs meta0 "store" (fun _ => false) 0 [[]] ++ [WEv.done true] ∧
    doneCount (event_worker meta0 eb0 true 1 0
      (([[]] : List Record).map some ++ none :: [])) = 1 := by
  refine ⟨?_, ?_⟩
  · exact (c7_exception_isolation.1 meta0 "store" (fun _ => false) true [[]] 0 []
      (by intro r hr; rw [List.mem_singleton] at hr; subst hr; exact rfl)).1
  · exact (c7_exception_isolation.2.1 meta0 eb0 true 1 [[]] 0 []).2

/-- C8: `expand_port_ranges` maps a token list to the set of ports the
tokens denote: a digit token denotes its value, a token `m-n` with
digit sides denotes every port from `m` to `n` inclusive (none when
`m > n`), and any other token denotes nothing and is dropped without
affecting valid tokens; in particular `["22","3389","8080-8085"]`
yields `{22, 3389, 8080..8085}` and `["8085-8080"]` yields `∅`. -/
theorem c8_expand_port_ranges :
    (∀ (l : List (List Char)) (p : Nat),
        p ∈ expand_port_ranges l ↔ ∃ t ∈ l, claimTokenPorts t p) ∧
    expand_port_ranges [['2', '2'], ['3', '3', '8', '9'],
        ['8', '0', '8', '0', '-', '8', '0', '8', '5']] =
      {22, 3389, 8080, 8081, 8082, 8083, 8084, 8085} ∧
    expand_port_ranges [['8', '0', '8', '5', '-', '8', '0', '8', '0']] = ∅ := by
  refine ⟨expand_port_ranges_mem, ?_, ?_⟩
  · decide
  · decide

theorem c8_expand_port_ranges_witness :
    22 ∈ expand_port_ranges [['2', '2']] ∧
    ∃ t ∈ [['2', '2']], claimTokenPorts t 22 := by
  have hm : 22 ∈ expand_port_ranges [['2', '2']] := by decide
  exact ⟨hm, (c8_expand_port_ranges.1 [['2', '2']] 22).mp hm⟩

/-- C9: every record a store or alert worker passes to the plugin's
`write` — the `begin_audit` and `end_audit` control records included —
was first enriched by merging the engine's target bookkeeping
(`audit_key`, `audit_version`, `target_key`, `target_class`,
`target_worker`, `target_type`) into its `com` bucket. -/
theorem c9_target_enrichment :
    (∀ (meta : WorkerMeta) (wb : Nat → Bool) (dOk : Bool)
        (queue : List (Option Record)) (r : Record) (ok : Bool),
        WEv.write r ok ∈ store_worker meta wb dOk queue →
        TargetFields meta "store" r) ∧
    (∀ (meta : WorkerMeta) (wb : Nat → Bool) (dOk : Bool)
        (queue : List (Option Record)) (r : Record) (ok : Bool),
        WEv.write r ok ∈ alert_worker meta wb dOk queue →
        TargetFields meta "alert" r) := by
  constructor
  · intro meta wb dOk queue r ok h
    rw [store_worker] at h
    obtain ⟨r0, he⟩ := write_worker_write_mem h
    exact enrichWith_targetFields he
  · intro meta wb dOk queue r ok h
    rw [alert_worker] at h
    obtain ⟨r0, he⟩ := write_worker_write_mem h
    exact enrichWith_targetFields he

theorem c9_target_enrichment_witness :
    WEv.write rT0 true ∈ store_worker meta0 (fun _ => true) true [some [], none] ∧
    TargetFields meta0 "store" rT0 := by
  have he : enrichWith (targetCom meta0 "store") [] = some rT0 :=
    enrich_empty _ (nodupK_targetCom meta0 "store")
  have htr : store_worker meta0 (fun _ => true) true [some [], none] =
      [WEv.write rT0 true, WEv.done true] := by
    rw [store_worker, write_worker]
    simp only [he]
    rw [write_worker]
  have hmem : WEv.write rT0 true ∈
      store_worker meta0 (fun _ => true) true [some [], none] := by
    rw [htr]
    simp
  exact ⟨hmem, c9_target_enrichment.1 meta0 (fun _ => true) true
    [some [], none] rT0 true hmem⟩

/-- C10: a plugin descriptor with no `params` key constructs the
plugin class with the empty keyword-argument dictionary: the loader
reads `params` with a defaulting `get`, so the call succeeds instead
of failing on the missing key. -/
theorem c10_params_default (env : Env) (cfg : PluginConfig)
    (hparams : cfg.params = none) (m c : List Char)
    (hc : c.contains '.' = false) (hpath : cfg.plugin = m ++ '.' :: c)
    (md : PyModule) (cd : ClassDef)
    (hm : assocFind env.modules m = some md)
    (hcl : assocFind md c = some cd) (hctor : cd.raises [] = none) :
    load_plugin env cfg = Except.ok ⟨m, c, []⟩ := by
  rw [load_plugin_resolves env cfg hc hpath]
  simp only [hm, hcl, hparams, Option.getD_none, hctor]

theorem c10_params_default_witness :
    load_plugin env0 ⟨['p', 'k', 'g', '.', 'm', 'o', 'd', '.', 'C'], none⟩ =
      Except.ok ⟨['p', 'k', 'g', '.', 'm', 'o', 'd'], ['C'], []⟩ :=
  c10_params_default env0 _ rfl ['p', 'k', 'g', '.', 'm', 'o', 'd'] ['C']
    (by decide) rfl mod0 ⟨fun _ => none⟩ rfl rfl rfl

theorem c2_io_pool_counts_witness :
    ∃ s, IOReach 1 (1 * 1) (ioInit 1 (1 * 1)) s ∧ s.finished = true ∧
      s.yielded = 1 * 1 ∧ wcount osentWt s.outQ = 1 * 1 ∧
      wcount exitedOf s.threads = 1 * 1 := by
  have t0 : IOReach 1 1 (ioInit 1 1) (ioInit 1 1) := Relation.ReflTransGen.refl
  have t1 := Relation.ReflTransGen.tail t0 (IOStep.produce _ 0 rfl)
  have t2 := Relation.ReflTransGen.tail t1 (IOStep.prodDone _ rfl)
  have t3 := Relation.ReflTransGen.tail t2 (IOStep.putSent _ 0 rfl)
  have t4 := Relation.ReflTransGen.tail t3 (IOStep.sentDone _ rfl)
  have t5 := Relation.ReflTransGen.tail t4 (IOStep.threadGetTask _ 0 rfl rfl)
  have t6 := Relation.ReflTransGen.tail t5 (IOStep.threadPut _ 0 0 rfl)
  have t7 := Relation.ReflTransGen.tail t6 (IOStep.threadTaskEnd _ 0 rfl)
  have t8 := Relation.ReflTransGen.tail t7 (IOStep.threadGetSent _ 0 rfl rfl)
  have t9 := Relation.ReflTransGen.tail t8 (IOStep.threadPutSent _ 0 rfl)
  have t10 := Relation.ReflTransGen.tail t9 (IOStep.consumeRec _ rfl rfl rfl)
  have t11 := Relation.ReflTransGen.tail t10
    (IOStep.consumeSentLast _ rfl rfl rfl rfl)
  obtain ⟨h1, h2, h3, h4, h5, h6, h7⟩ :=
    c2_io_pool_counts (Nat.le_refl 1) (Nat.le_refl 1) t11 rfl
  exact ⟨_, t11, rfl, h1, h3, h5⟩

/-- C6 (amended): an exception in the producer function is NOT caught
by `ioworkers.run`: the sentinel-enqueueing loop that follows the
producer loop is skipped, so from the moment the producer raises, no
sentinel is ever put on the input queue, no worker thread ever exits,
and the output consumer never terminates. -/
theorem c6_producer_crash {N k W : Nat} {s t : IOSys}
    (hr : IOReach k W (ioInit N W) s) (hc : s.phase = RPhase.crashed)
    (hrt : IOReach k W s t) :
    wcount isentWt t.inQ = 0 ∧ wcount exitedOf t.threads = 0 ∧
    t.finished = false :=
  io_crash_persists hr hc hrt

/-- The claimed behaviour is false in the code: here the producer of
two tasks raises after yielding one, and in every state reachable from
that point no sentinel has been enqueued, no thread has exited and the
consumer has not terminated — sentinels are not "still issued". -/
theorem c6_producer_crash_cex :
    ∃ s, IOReach 1 1 (ioInit 2 1) s ∧ s.phase = RPhase.crashed ∧
      ∀ t, IOReach 1 1 s t →
        wcount isentWt t.inQ = 0 ∧ wcount exitedOf t.threads = 0 ∧
        t.finished = false := by
  have t0 : IOReach 1 1 (ioInit 2 1) (ioInit 2 1) := Relation.ReflTransGen.refl
  have t1 := Relation.ReflTransGen.tail t0 (IOStep.produce _ 1 rfl)
  have t2 := Relation.ReflTransGen.tail t1 (IOStep.prodCrash _ 1 rfl)
  refine ⟨_, t2, rfl, ?_⟩
  intro t hrt
  exact io_crash_persists t2 rfl hrt

theorem c6_producer_crash_witness :
    ∃ s, IOReach 1 1 (ioInit 2 1) s ∧ s.phase = RPhase.crashed ∧
      wcount isentWt s.inQ = 0 ∧ wcount exitedOf s.threads = 0 ∧
      s.finished = false := by
  have t0 : IOReach 1 1 (ioInit 2 1) (ioInit 2 1) := Relation.ReflTransGen.refl
  have t1 := Relation.ReflTransGen.tail t0 (IOStep.produce _ 1 rfl)
  have t2 := Relation.ReflTransGen.tail t1 (IOStep.prodCrash _ 1 rfl)
  obtain ⟨h1, h2, h3⟩ := c6_producer_crash t2 rfl Relation.ReflTransGen.refl
  exact ⟨_, t2, rfl, h1, h2, h3⟩

/-- C1: in every completed audit run, every store sink queue and every
alert sink queue received exactly one `begin_audit` first, then only
data records, then exactly one `end_audit`, then one sentinel; and the
store/alert worker consuming such a queue performs one `write` per
record and invokes the plugin's `done()` exactly once, after the
sentinel. -/
theorem c1_sink_framing {S E A C : Nat} {recs : List Nat} (hC : recs.length = C)
    {t : AuditSys} (hr : AReach S E A C (aInit S E A recs) t)
    (hpc : t.pc = Phase.finished) :
    ((∀ q, q < S → ∃ n, t.storeQs[q]? =
        some (Msg.ctrlBegin :: (List.replicate n Msg.data ++
          [Msg.ctrlEnd, Msg.sentinel]))) ∧
     (∀ q, q < A → ∃ n, t.alertQs[q]? =
        some (Msg.ctrlBegin :: (List.replicate n Msg.data ++
          [Msg.ctrlEnd, Msg.sentinel])))) ∧
    (∀ (meta : WorkerMeta) (wtype : String) (wb : Nat → Bool) (dOk : Bool)
        (rs : List Record) (rest : List (Option Record)),
        (∀ r ∈ rs, GoodCom r) →
        write_worker meta wtype wb dOk 0 (rs.map some ++ none :: rest) =
          writeEvs meta wtype wb 0 rs ++ [WEv.done dOk] ∧
        doneCount (write_worker meta wtype wb dOk 0
          (rs.map some ++ none :: rest)) = 1) := by
  obtain ⟨h1, h2, _⟩ := audit_final hC hr hpc
  refine ⟨⟨h1, h2⟩, ?_⟩
  intro meta wtype wb dOk rs rest hgood
  have htr := write_worker_trace_eq meta wtype wb dOk rs 0 rest hgood
  refine ⟨htr, ?_⟩
  rw [htr, doneCount_append, doneCount_writeEvs]
  rfl

theorem c1_sink_framing_witness :
    ∃ t, AReach 1 1 1 1 (aInit 1 1 1 [1]) t ∧ t.pc = Phase.finished ∧
      (∃ n, t.storeQs[0]? = some (Msg.ctrlBegin ::
        (List.replicate n Msg.data ++ [Msg.ctrlEnd, Msg.sentinel]))) ∧
      (∃ n, t.alertQs[0]? = some (Msg.ctrlBegin ::
        (List.replicate n Msg.data ++ [Msg.ctrlEnd, Msg.sentinel]))) := by
  have a0 : AReach 1 1 1 1 (aInit 1 1 1 [1]) (aInit 1 1 1 [1]) :=
    Relation.ReflTransGen.refl
  have a1 := Relation.ReflTransGen.tail a0 (AStep.startSinksDone _ rfl)
  have a2 := Relation.ReflTransGen.tail a1
    (AStep.putBeginStore _ 0 rfl (by decide))
  have a3 := Relation.ReflTransGen.tail a2
    (AStep.putBeginAlert _ 1 rfl (by decide) (by decide))
  have a4 := Relation.ReflTransGen.tail a3 (AStep.putBeginDone _ rfl)
  have a5 := Relation.ReflTransGen.tail a4
    (AStep.startCloud _ 0 ⟨false, 1, [], false⟩ rfl (by decide) rfl)
  have a6 := Relation.ReflTransGen.tail a5
    (AStep.startEvent _ 1 ⟨false, 0, [], false⟩ rfl (by decide) (by decide) rfl)
  have a7 := Relation.ReflTransGen.tail a6 (AStep.startWorkersDone _ rfl)
  have a8 := Relation.ReflTransGen.tail a7
    (AStep.cloudTake _ 0 ⟨true, 1, [], false⟩ 0 rfl rfl rfl rfl rfl)
  have a9 := Relation.ReflTransGen.tail a8
    (AStep.cloudPutStore _ 0 ⟨true, 0, [0, 1], false⟩ 0 [1] rfl rfl (by decide))
  have a10 := Relation.ReflTransGen.tail a9
    (AStep.cloudPutEvent _ 0 ⟨true, 0, [1], false⟩ 1 [] rfl rfl (by decide))
  have a11 := Relation.ReflTransGen.tail a10
    (AStep.cloudFin _ 0 ⟨true, 0, [], false⟩ rfl rfl rfl rfl rfl)
  have a12 := Relation.ReflTransGen.tail a11
    (AStep.joinCloud _ 0 ⟨true, 0, [], true⟩ rfl (by decide) rfl rfl)
  have a13 := Relation.ReflTransGen.tail a12 (AStep.joinCloudsDone _ rfl)
  have a14 := Relation.ReflTransGen.tail a13
    (AStep.endStorePut _ 0 rfl (by decide))
  have a15 := Relation.ReflTransGen.tail a14 (AStep.endStoreNone _ 0 rfl)
  have a16 := Relation.ReflTransGen.tail a15 (AStep.endStoresDone _ rfl)
  have a17 := Relation.ReflTransGen.tail a16
    (AStep.noneEventPut _ 0 rfl (by decide))
  have a18 := Relation.ReflTransGen.tail a17 (AStep.noneEventsDone _ rfl)
  have a19 := Relation.ReflTransGen.tail a18 (AStep.joinStoresDone _ rfl)
  have a20 := Relation.ReflTransGen.tail a19
    (AStep.eventConsume _ 0 ⟨true, 0, [], false⟩ [Msg.data, Msg.sentinel]
      Msg.data 1 rfl rfl rfl rfl rfl rfl (by decide))
  have a21 := Relation.ReflTransGen.tail a20
    (AStep.eventPut _ 0 ⟨true, 1, [0], false⟩ 0 [] rfl rfl)
  have a22 := Relation.ReflTransGen.tail a21
    (AStep.eventFin _ 0 ⟨true, 1, [], false⟩ [Msg.data, Msg.sentinel]
      rfl rfl rfl rfl rfl rfl)
  have a23 := Relation.ReflTransGen.tail a22
    (AStep.joinEvent _ 0 ⟨true, 1, [], true⟩ rfl (by decide) rfl rfl)
  have a24 := Relation.ReflTransGen.tail a23 (AStep.joinEventsDone _ rfl)
  have a25 := Relation.ReflTransGen.tail a24
    (AStep.endAlertPut _ 0 rfl (by decide))
  have a26 := Relation.ReflTransGen.tail a25 (AStep.endAlertNone _ 0 rfl)
  have a27 := Relation.ReflTransGen.tail a26 (AStep.endAlertsDone _ rfl)
  have a28 := Relation.ReflTransGen.tail a27 (AStep.joinAlertsDone _ rfl)
  obtain ⟨⟨h1, h2⟩, _⟩ := @c1_sink_framing 1 1 1 1 [1] rfl _ a28 rfl
  exact ⟨_, a28, rfl, h1 0 (by decide), h2 0 (by decide)⟩

end Cloudmarker
